import Mathlib

/-!
# FP16 demotion plugin: numeric oracle, safety classifier, collector and rewriter

A shallow embedding of `src/Fp16DemotionPlugin.cpp`.  A binary32 datum is
carried as its 32-bit pattern in a `Nat`; the three fields are read with the
same shifts and masks as the source.  The value of a floating literal is an
`APFloat` of the format of the literal: binary32 for a literal of type
`float`, binary64 for a literal of type `double`.  Calls into the C++
library and into LLVM (`std::isnan`, `std::fabs`, `APFloat::convert`,
`toString`, `sscanf`, `std::sort`, `std::string::replace`) are given by
definitions that state what is assumed of them.
-/

namespace Fp16Demotion

/-! ## binary32 bit patterns -/

/-- Sign field of a binary32 pattern: `(bits >> 31) & 0x1`. -/
def signBit (bits : Nat) : Nat := (bits >>> 31) &&& 0x1

/-- Biased exponent field of a binary32 pattern: `(bits >> 23) & 0xFF`. -/
def expField (bits : Nat) : Nat := (bits >>> 23) &&& 0xFF

/-- Stored mantissa field of a binary32 pattern: `bits & 0x7FFFFF`. -/
def mantField (bits : Nat) : Nat := bits &&& 0x7FFFFF

/-- Magnitude of a binary32 pattern in units of `2^-149`: a subnormal is its
mantissa, a normal number is `(2^23 + m) * 2^(e-1)`.  With `e = 255, m = 0`
the formula yields `2^277`, above every finite magnitude, so infinities are
ordered correctly by it. -/
def magnitude (bits : Nat) : Nat :=
  if expField bits = 0 then mantField bits
  else (2 ^ 23 + mantField bits) * 2 ^ (expField bits - 1)

/-- Signed value of a binary32 pattern in units of `2^-149`. -/
def scaled (bits : Nat) : Int :=
  if signBit bits = 1 then - (magnitude bits : Int) else (magnitude bits : Int)

/-- The rational number denoted by a finite binary32 pattern. -/
def toRat (bits : Nat) : ℚ := (scaled bits : ℚ) / 2 ^ 149

/-- Library `std::isnan` on binary32. -/
def isnan (bits : Nat) : Bool := expField bits == 255 && mantField bits != 0

/-- Library `std::isinf` on binary32. -/
def isinf (bits : Nat) : Bool := expField bits == 255 && mantField bits == 0

/-- A pattern is finite when it is neither a NaN nor an infinity. -/
def isFinite (bits : Nat) : Bool := expField bits != 255

/-- Library `std::fabs` on binary32: the sign bit is cleared. -/
def fabs (bits : Nat) : Nat := bits &&& 0x7FFFFFFF

/-- Comparison `a < b` of two binary32 values: false when either is a NaN,
otherwise the order of the denoted values (infinities rank beyond the
finite values, both zeros are equal). -/
def flt (a b : Nat) : Bool := !isnan a && !isnan b && decide (scaled a < scaled b)

/-- Comparison `a > b` of two binary32 values. -/
def fgt (a b : Nat) : Bool := flt b a

/-! ## Constants for the FP16 range -/

/-- Pattern of `65504.0f`. -/
def FP16_MAX : Nat := 0x477FE000

/-- Pattern of `6.103515625e-5f`, which is `2^-14`. -/
def FP16_MIN_POSITIVE : Nat := 0x38800000

/-- Pattern of `0.001f`, the binary32 nearest to one thousandth. -/
def SMALL_DIVISION_THRESHOLD : Nat := 0x3A83126F

/-- Range test of `Fp16TypeChecker::isValueInFp16Range`.  The literal `0` in
`AbsValue > 0` is converted to the binary32 zero, pattern `0`. -/
def isValueInFp16Range (Value : Nat) : Bool :=
  if isnan Value || isinf Value then false
  else
    let AbsValue := fabs Value
    if fgt AbsValue FP16_MAX then false
    else if fgt AbsValue 0 && flt AbsValue FP16_MIN_POSITIVE then false
    else true

/-! ## Simulated demotion -/

/-- The normalisation loop of the subnormal widening branch,
`while ((expandedMant & 0x400) == 0) { expandedMant <<= 1; float_exp--; }`,
on a 32-bit `expandedMant`.  After 32 iterations every bit has been shifted
out, so a loop that has not exited by then never exits: `none`. -/
def normalizeLoop : Nat → Nat → Nat → Option (Nat × Nat)
  | 0, _, _ => none
  | fuel + 1, expandedMant, float_exp =>
    if expandedMant &&& 0x400 = 0 then
      normalizeLoop fuel ((expandedMant <<< 1) % 2 ^ 32) (float_exp - 1)
    else some (expandedMant, float_exp)

/-- Second half of `simulate_fp16`: pack the half-precision word and widen it
back to binary32. -/
def expandHalf (sign : Nat) (newExp : Int) (mantissa : Nat) : Option Nat :=
  let newMantissa := mantissa >>> 13
  let halfBits := ((sign <<< 15) ||| (newExp.toNat <<< 10) ||| newMantissa) % 2 ^ 16
  let expandedSign := (halfBits >>> 15) &&& 0x1
  let expandedExp := (halfBits >>> 10) &&& 0x1F
  let expandedMant := (halfBits &&& 0x3FF) <<< 13
  let widened : Option (Nat × Nat) :=
    if expandedExp = 0x1F then
      some (0xFF, if expandedMant ≠ 0 then 0x400000 else expandedMant)
    else if expandedExp = 0 then
      if expandedMant ≠ 0 then
        (normalizeLoop 32 expandedMant (127 - 14)).map
          (fun p => (p.2, ((p.1 &&& 0x3FF) <<< 13) % 2 ^ 32))
      else some (expandedExp, expandedMant)
    else some (((expandedExp : Int) - 15 + 127).toNat, expandedMant)
  widened.map (fun p => ((expandedSign <<< 31) ||| (p.1 <<< 23) ||| p.2) % 2 ^ 32)

/-- Function `simulate_fp16`, from the pattern of its argument to the pattern
of its result; `none` when the widening loop does not terminate.  The
products `1.0f * inf` and `-1.0f * inf` are the two infinities. -/
def simulate_fp16 (value : Nat) : Option Nat :=
  let bits := value % 2 ^ 32
  let sign := (bits >>> 31) &&& 0x1
  let exponent := (bits >>> 23) &&& 0xFF
  let mantissa := bits &&& 0x7FFFFF
  let newExp : Int := (exponent : Int) - 127 + 15
  if newExp ≤ 0 ∨ newExp ≥ 31 then
    if newExp ≤ 0 then some 0
    else if newExp ≥ 31 then some (if sign ≠ 0 then 0xFF800000 else 0x7F800000)
    else expandHalf sign newExp mantissa
  else expandHalf sign newExp mantissa

/-! ## Library conversions used by the classifier -/

/-- Quotient of `n` by `2^k`, rounded to nearest with ties to even. -/
def rneShift (n k : Nat) : Nat :=
  let q := n / 2 ^ k
  let r := n % 2 ^ k
  if 2 * r < 2 ^ k then q
  else if 2 ^ k < 2 * r then q + 1
  else if q % 2 = 0 then q else q + 1

/-- Library call `Val.convert(APFloat::IEEEhalf(), rmNearestTiesToEven, &losesInfo)`
on a binary32 `Val`: the binary16 pattern nearest to the value (ties to
even, subnormals kept, overflow to infinity) and the `losesInfo` flag, set
when the binary16 result does not denote the same value.  A NaN keeps its
high payload bits and is made quiet. -/
def convertToHalf (Val : Nat) : Nat × Bool :=
  let s := signBit Val
  let e := expField Val
  let m := mantField Val
  if e = 255 then
    if m = 0 then (s * 0x8000 + 0x7C00, false)
    else (s * 0x8000 + 0x7C00 + (m / 8192 ||| 0x200), decide (m % 8192 ≠ 0))
  else
    let sig := if e = 0 then m else 2 ^ 23 + m
    let shift := if 113 ≤ e then 13 else 126 - max e 1
    let base := if 113 ≤ e then (e - 113) * 1024 else 0
    let mag := base + rneShift sig shift
    if 0x7C00 ≤ mag then (s * 0x8000 + 0x7C00, true)
    else (s * 0x8000 + mag, decide (sig % 2 ^ shift ≠ 0))

/-- Normalisation of a binary16 subnormal significand: double it until the
implicit bit `0x400` is set, lowering the binary32 exponent by one each time. -/
def normalizeHalf : Nat → Nat → Nat → Nat × Nat
  | 0, hm, e => (hm, e)
  | fuel + 1, hm, e => if hm < 1024 then normalizeHalf fuel (2 * hm) (e - 1) else (hm, e)

/-- The binary32 pattern denoting the same value as a binary16 pattern; a
NaN becomes the default quiet NaN. -/
def halfToFloat (h : Nat) : Nat :=
  let s := h / 0x8000 % 2
  let he := h / 1024 % 32
  let hm := h % 1024
  if he = 31 then
    if hm = 0 then s * 2 ^ 31 + 0x7F800000 else 0x7FC00000
  else if he = 0 then
    if hm = 0 then s * 2 ^ 31
    else
      let n := normalizeHalf 10 hm 113
      s * 2 ^ 31 + n.2 * 2 ^ 23 + (n.1 - 1024) * 8192
  else s * 2 ^ 31 + (he + 112) * 2 ^ 23 + hm * 8192

/-! ## Decimal text of a value and its scan -/

/-- Count of the significant bits of a number (`APInt::getActiveBits`), with
the number itself as the bound on the halvings. -/
def activeBitsAux : Nat → Nat → Nat
  | 0, _ => 0
  | fuel + 1, n => if n = 0 then 0 else activeBitsAux fuel (n / 2) + 1

/-- Library `APInt::getActiveBits`. -/
def activeBits (n : Nat) : Nat := activeBitsAux n n

/-- Count of the decimal digits of a number. -/
def decimalLengthAux : Nat → Nat → Nat
  | 0, _ => 0
  | fuel + 1, n => if n = 0 then 0 else decimalLengthAux fuel (n / 10) + 1

/-- Number of digits that the digit loop of `toString` pushes for a number,
its trailing zeros included. -/
def decimalLength (n : Nat) : Nat := decimalLengthAux n n

/-- Count of the trailing zero bits of a nonzero number. -/
def countTrailingZerosAux : Nat → Nat → Nat
  | 0, _ => 0
  | fuel + 1, n => if n % 2 = 1 then 0 else countTrailingZerosAux fuel (n / 2) + 1

/-- Library `APInt::countTrailingZeros` on a nonzero significand. -/
def countTrailingZeros (n : Nat) : Nat := countTrailingZerosAux n n

/-- Library call `Val.toString(Str)` with its default arguments on a finite
nonzero `Val` of a format with `precision` significand bits, whose value is
`significand * 2^exp`.  The result `(M, E)` is the number `M * 10^E` that the
text denotes, in scientific or in plain notation.  The steps are those of
`IEEEFloat::toString`: the number of digits is `2 + precision * 59 / 196`;
trailing zero bits move into the exponent; the significand is shifted left,
or multiplied by `5^-exp` to pass from a binary to a decimal exponent;
`AdjustToPrecision` on the integer divides by the power of ten that its bit
count allows; `AdjustToPrecision` on the digits keeps the leading digits and
rounds half up on the first digit dropped.  Trailing decimal zeros, which the
text omits, are left in `M`. -/
def toStringValue (precision significand : Nat) (exp : Int) : Nat × Int :=
  let FormatPrecision := 2 + precision * 59 / 196
  let trailingZeros := countTrailingZeros significand
  let exp := exp + trailingZeros
  let significand := significand >>> trailingZeros
  let significand :=
    if 0 ≤ exp then significand <<< exp.toNat else significand * 5 ^ (-exp).toNat
  let exp := if 0 ≤ exp then 0 else exp
  let bits := activeBits significand
  let bitsRequired := (FormatPrecision * 196 + 58) / 59
  let tensRemovable := if bits ≤ bitsRequired then 0 else (bits - bitsRequired) * 59 / 196
  let significand := significand / 10 ^ tensRemovable
  let exp := exp + tensRemovable
  let N := decimalLength significand
  if N ≤ FormatPrecision then (significand, exp)
  else
    let FirstSignificant := N - FormatPrecision
    let kept := significand / 10 ^ FirstSignificant
    let dropped := significand / 10 ^ (FirstSignificant - 1) % 10
    (if dropped < 5 then kept else kept + 1, exp + FirstSignificant)

/-- Library call `sscanf(text, "%f", &FloatVal)` on the text of the positive
number `num / den`: the binary32 value nearest to it, ties to even, as a
pattern with the sign bit clear; the pattern of infinity when the number is
beyond the binary32 range.  With `X` the number in units of `2^-149` and `k`
the count of its bits beyond 24, the significand is `X / 2^k` rounded, and
the pattern is `k * 2^23` plus that significand. -/
def strtof (num den : Nat) : Nat :=
  let X := num * 2 ^ 149 / den
  let k := activeBits X - 24
  let q := num * 2 ^ 149 / (den * 2 ^ k)
  let r := num * 2 ^ 149 % (den * 2 ^ k)
  let n :=
    if 2 * r < den * 2 ^ k then q
    else if den * 2 ^ k < 2 * r then q + 1
    else if q % 2 = 0 then q else q + 1
  let pattern := k * 2 ^ 23 + n
  if 0x7F800000 ≤ pattern then 0x7F800000 else pattern

/-- Library calls `Val.toString(Str)` then `sscanf(Str.c_str(), "%f", &FloatVal)`
on a finite nonzero `Val`, sign apart: the pattern scanned from the text. -/
def scanMagnitude (precision significand : Nat) (exp : Int) : Nat :=
  let text := toStringValue precision significand exp
  if 0 ≤ text.2 then strtof (text.1 * 10 ^ text.2.toNat) 1
  else strtof text.1 (10 ^ (-text.2).toNat)

/-- Library calls `Val.toString(Str)` then `sscanf(Str.c_str(), "%f", &FloatVal)`
on a binary16 `Val`, which has 11 significand bits and so prints with 5
digits.  An infinity prints as `+Inf` or `-Inf`, a NaN as `NaN`, a zero as `0`
or `-0`; each scans as the binary32 of that kind.  `none` stands for a scan
that does not return 1. -/
def scanHalf (Val : Nat) : Option Nat :=
  let s := Val / 0x8000 % 2
  let he := Val / 1024 % 32
  let hm := Val % 1024
  if he = 31 then
    if hm = 0 then some (s * 2 ^ 31 + 0x7F800000) else some 0x7FC00000
  else if he = 0 then
    if hm = 0 then some (s * 2 ^ 31)
    else some (s * 2 ^ 31 + scanMagnitude 11 hm (-24))
  else some (s * 2 ^ 31 + scanMagnitude 11 (1024 + hm) ((he : Int) - 25))

/-- Library calls `Val.toString(Str)` then `sscanf(Str.c_str(), "%f", &FloatVal)`
on a binary32 `Val`, which has 24 significand bits and so prints with 9
digits.  Nine digits identify a binary32 value and the scan rounds to
nearest, so the scan recovers the value; a NaN is scanned as the default
quiet NaN. -/
def scanFloat (Val : Nat) : Option Nat := some (if isnan Val then 0x7FC00000 else Val)

/-! ## binary64 bit patterns -/

/-- Sign field of a binary64 pattern. -/
def signBitD (bits : Nat) : Nat := bits / 2 ^ 63 % 2

/-- Biased exponent field of a binary64 pattern. -/
def expFieldD (bits : Nat) : Nat := bits / 2 ^ 52 % 2048

/-- Stored mantissa field of a binary64 pattern. -/
def mantFieldD (bits : Nat) : Nat := bits % 2 ^ 52

/-- Magnitude of a binary64 pattern in units of `2^-1074`; with the exponent
of the infinities the formula yields a number above every finite magnitude. -/
def magnitudeD (bits : Nat) : Nat :=
  if expFieldD bits = 0 then mantFieldD bits
  else (2 ^ 52 + mantFieldD bits) * 2 ^ (expFieldD bits - 1)

/-- Signed value of a binary64 pattern in units of `2^-1074`. -/
def scaledD (bits : Nat) : Int :=
  if signBitD bits = 1 then - (magnitudeD bits : Int) else (magnitudeD bits : Int)

/-- The rational number denoted by a finite binary64 pattern. -/
def toRatD (bits : Nat) : ℚ := (scaledD bits : ℚ) / 2 ^ 1074

/-- Library `std::isnan` on binary64. -/
def isnanD (bits : Nat) : Bool := expFieldD bits == 2047 && mantFieldD bits != 0

/-- Library `std::isinf` on binary64. -/
def isinfD (bits : Nat) : Bool := expFieldD bits == 2047 && mantFieldD bits == 0

/-- Library call `Val.convert(APFloat::IEEEhalf(), rmNearestTiesToEven, &losesInfo)`
on a binary64 `Val`, as `convertToHalf` on a binary32 one: 42 mantissa bits
are dropped in the binary16 normal range, which starts at the biased
exponent 1009. -/
def convertDoubleToHalf (Val : Nat) : Nat × Bool :=
  let s := signBitD Val
  let e := expFieldD Val
  let m := mantFieldD Val
  if e = 2047 then
    if m = 0 then (s * 0x8000 + 0x7C00, false)
    else (s * 0x8000 + 0x7C00 + (m / 2 ^ 42 ||| 0x200), decide (m % 2 ^ 42 ≠ 0))
  else
    let sig := if e = 0 then m else 2 ^ 52 + m
    let shift := if 1009 ≤ e then 42 else 1051 - max e 1
    let base := if 1009 ≤ e then (e - 1009) * 1024 else 0
    let mag := base + rneShift sig shift
    if 0x7C00 ≤ mag then (s * 0x8000 + 0x7C00, true)
    else (s * 0x8000 + mag, decide (sig % 2 ^ shift ≠ 0))

/-- The conversion of a `double` to `float`: the binary32 pattern nearest to
the value (ties to even, subnormals kept, overflow to infinity); 29 mantissa
bits are dropped in the binary32 normal range, which starts at the biased
exponent 897.  A NaN keeps its high payload bits and is made quiet. -/
def doubleToFloat (Val : Nat) : Nat :=
  let s := signBitD Val
  let e := expFieldD Val
  let m := mantFieldD Val
  if e = 2047 then
    if m = 0 then s * 2 ^ 31 + 0x7F800000
    else s * 2 ^ 31 + 0x7F800000 + (m / 2 ^ 29 ||| 0x400000)
  else
    let sig := if e = 0 then m else 2 ^ 52 + m
    let shift := if 897 ≤ e then 29 else 926 - max e 1
    let base := if 897 ≤ e then (e - 897) * 2 ^ 23 else 0
    let mag := base + rneShift sig shift
    if 0x7F800000 ≤ mag then s * 2 ^ 31 + 0x7F800000 else s * 2 ^ 31 + mag

/-- Library calls `Val.toString(Str)` then `sscanf(Str.c_str(), "%f", &FloatVal)`
on a binary64 `Val`, which has 53 significand bits and so prints with 17
digits; the scan rounds the decimal text to binary32. -/
def scanDouble (Val : Nat) : Option Nat :=
  let s := signBitD Val
  let e := expFieldD Val
  let m := mantFieldD Val
  if e = 2047 then
    if m = 0 then some (s * 2 ^ 31 + 0x7F800000) else some 0x7FC00000
  else if e = 0 then
    if m = 0 then some (s * 2 ^ 31)
    else some (s * 2 ^ 31 + scanMagnitude 53 m (-1074))
  else some (s * 2 ^ 31 + scanMagnitude 53 (2 ^ 52 + m) ((e : Int) - 1075))

/-! ## Values of floating literals -/

/-- The value of a floating literal, `FL->getValue()`, by its format and bit
pattern: `IEEEsingle` for a literal of type `float` (suffix `f`),
`IEEEdouble` for a literal of type `double` (no suffix). -/
inductive APFloat where
  | IEEEsingle (bits : Nat)
  | IEEEdouble (bits : Nat)
deriving DecidableEq

/-- Library call `Val.convert(APFloat::IEEEhalf(), rmNearestTiesToEven, &losesInfo)`:
the binary16 pattern that `Val` holds afterwards, and the flag. -/
def APFloat.convert : APFloat → Nat × Bool
  | .IEEEsingle bits => convertToHalf bits
  | .IEEEdouble bits => convertDoubleToHalf bits

/-- Library calls `Val.toString(Str)` then `sscanf(Str.c_str(), "%f", &FloatVal)`
on the value of a literal. -/
def APFloat.scan : APFloat → Option Nat
  | .IEEEsingle bits => scanFloat bits
  | .IEEEdouble bits => scanDouble bits

/-- The `float` argument that `simulate_fp16(original)` receives, where
`original` is the `double` `F->getValueAsApproximateDouble()`.  A literal of
type `float` is widened to `double` exactly and comes back as it was; a
literal of type `double` is converted to `float`. -/
def APFloat.toFloat : APFloat → Nat
  | .IEEEsingle bits => bits
  | .IEEEdouble bits => doubleToFloat bits

/-- The pattern has the width of its format. -/
def APFloat.WellFormed : APFloat → Prop
  | .IEEEsingle bits => bits < 2 ^ 32
  | .IEEEdouble bits => bits < 2 ^ 64

/-- The value is a NaN. -/
def APFloat.isNaN : APFloat → Bool
  | .IEEEsingle bits => isnan bits
  | .IEEEdouble bits => isnanD bits

/-- The value is neither a NaN nor an infinity. -/
def APFloat.isFinite : APFloat → Bool
  | .IEEEsingle bits => expField bits != 255
  | .IEEEdouble bits => expFieldD bits != 2047

/-- The rational number denoted by a finite value. -/
def APFloat.toRat : APFloat → ℚ
  | .IEEEsingle bits => Fp16Demotion.toRat bits
  | .IEEEdouble bits => toRatD bits

/-! ## Safety classifier -/

/-- The facts about a `QualType` that the plugin inspects. -/
structure QualType where
  /-- Result of `T.isNull()`. -/
  isNull : Bool
  /-- Result of `T->isSpecificBuiltinType(BuiltinType::Float)`. -/
  isFloat : Bool
  /-- Result of `T.isVolatileQualified()`. -/
  isVolatileQualified : Bool
  /-- Result of `T->isAtomicType()`. -/
  isAtomicType : Bool
deriving DecidableEq

/-- Binary operator codes; only `BO_Div` is distinguished by the plugin. -/
inductive BinaryOperatorKind where
  | BO_Mul | BO_Div | BO_Rem | BO_Add | BO_Sub | BO_Assign | BO_Comma
deriving DecidableEq

/-- Expression nodes, by the node kinds the classifier tells apart. -/
inductive Expr where
  /-- A floating literal with its value. -/
  | FloatingLiteral (Val : APFloat)
  /-- A reference to a declaration: `some T` for a `VarDecl` of type `T`,
  `none` for any other declaration. -/
  | DeclRefExpr (varType : Option QualType)
  | BinaryOperator (Opcode : BinaryOperatorKind) (LHS RHS : Expr)
  | UnaryOperator (SubExpr : Expr)
  | CallExpr (Callee : Expr) (Args : List Expr)
  | ParenExpr (SubExpr : Expr)
  | CastExpr (SubExpr : Expr)
  /-- Any other node kind. -/
  | Other

/-- Method `Expr::IgnoreParenCasts`. -/
def IgnoreParenCasts : Expr → Expr
  | .ParenExpr e => IgnoreParenCasts e
  | .CastExpr e => IgnoreParenCasts e
  | e => e

/-- Method `Fp16TypeChecker::canDemoteType` (with a non-null context). -/
def canDemoteType (T : QualType) : Bool :=
  if T.isNull then false
  else if !T.isFloat then false
  else if T.isVolatileQualified || T.isAtomicType then false
  else true

/-- The small-denominator test of the division branch on the stripped right
operand: true when it is a floating literal whose scanned value has
`fabs(FloatVal) < SMALL_DIVISION_THRESHOLD`. -/
def smallDenominator : Expr → Bool
  | .FloatingLiteral Val =>
    match Val.scan with
    | some FloatVal => flt (fabs FloatVal) SMALL_DIVISION_THRESHOLD
    | none => false
  | _ => false

/-- Method `Fp16TypeChecker::canDemoteFloatExpr` with a non-null expression,
context and `Reason`.  The string argument is the content of `*Reason` on
entry; the result pairs the returned flag with the content of `*Reason` on
exit.  Parentheses and casts are stripped by the first two equations. -/
def canDemoteFloatExpr : Expr → String → Bool × String
  | .ParenExpr e, Reason => canDemoteFloatExpr e Reason
  | .CastExpr e, Reason => canDemoteFloatExpr e Reason
  | .FloatingLiteral Val, Reason =>
    let conv := Val.convert
    let losesInfo := conv.2
    match scanHalf conv.1 with
    | some FloatVal =>
      if !isValueInFp16Range FloatVal then (false, "literal value out of __fp16 range")
      else if losesInfo then (false, "literal value loses precision when converted to __fp16")
      else (true, Reason)
    | none => (false, Reason)
  | .DeclRefExpr (some T), Reason => (canDemoteType T, Reason)
  | .DeclRefExpr none, Reason => (false, Reason)
  | .BinaryOperator Opcode LHS RHS, Reason =>
    let l := canDemoteFloatExpr LHS Reason
    let r := canDemoteFloatExpr RHS l.2
    if Opcode = .BO_Div ∧ smallDenominator (IgnoreParenCasts RHS) = true then
      (false, "division by small number")
    else (l.1 && r.1, r.2)
  | .UnaryOperator e, Reason => canDemoteFloatExpr e Reason
  | .CallExpr _ _, _ => (false, "used in function call")
  | .Other, _ => (false, "unsupported expression type for demotion analysis")

/-! ## Transformation collector -/

/-- Global `MemoryUsage` counters.  They are `size_t` in the source; a
translation unit has fewer than `2^32` source locations, so none of them can
wrap, and they are carried as natural numbers. -/
structure MemoryUsage where
  originalBytes : Nat := 0
  demotedBytes : Nat := 0
  floatVarCount : Nat := 0
  demotedVarCount : Nat := 0
  floatLiteralCount : Nat := 0
  demotedLiteralCount : Nat := 0
deriving DecidableEq

/-- Record `Transformation`: a source location by its raw encoding (`0` is
the invalid location), the replacement text and the length replaced, a
`size_t`. -/
structure Transformation where
  Loc : Nat
  ReplacementText : String
  OriginalLength : Nat
deriving DecidableEq

/-- Diagnostics reported through the host engine. -/
inductive Diagnostic where
  /-- Variable has been safely demoted from float to __fp16. -/
  | demotionSuccess (VarName : String)
  /-- Cannot demote variable to __fp16, with the reason. -/
  | demotionFailure (VarName : String) (Reason : String)
  /-- Float literal has been safely demoted to __fp16. -/
  | literalDemotionSuccess
  /-- Cannot demote float literal to __fp16, with the reason. -/
  | literalDemotionFailure (Reason : String)
deriving DecidableEq

/-- A `double` computed in the audit trail, as far as the trail needs it:
exactly zero, a nonzero finite value (the double nearest to the fraction
`num / den`), plus infinity, or a NaN. -/
inductive ErrorValue where
  | zero
  | finite (num den : Nat)
  | infinity
  | nan
deriving DecidableEq

/-- Magnitude of the `double` literal `1e-9` (pattern `0x3E112E0BE826D695`)
in units of `2^-149`. -/
def ONE_E_MINUS_9 : Nat := 4835703278458517 * 2 ^ 67

/-- The `double` expression `fabs(original - downcast)` on two binary32
values.  A difference of two finite values is zero exactly when they are
equal; otherwise it is carried as the exact difference in units of
`2^-149`. -/
def absDifference (original downcast : Nat) : ErrorValue :=
  if isnan original || isnan downcast then .nan
  else if isinf original && isinf downcast then
    if signBit original = signBit downcast then .nan else .infinity
  else if isinf original || isinf downcast then .infinity
  else if scaled original = scaled downcast then .zero
  else .finite (scaled original - scaled downcast).natAbs (2 ^ 149)

/-- The `double` statement `error /= fabs(original)`. -/
def divideByAbs (error : ErrorValue) (original : Nat) : ErrorValue :=
  if isnan original then .nan
  else
    match error with
    | .nan => .nan
    | .infinity => if isinf original then .nan else .infinity
    | .zero => if magnitude original = 0 then .nan else .zero
    | .finite num den =>
      if isinf original then .zero
      else if magnitude original = 0 then .infinity
      else .finite (num * 2 ^ 149) (den * magnitude original)

/-- The relative error computed by `VisitFloatingLiteral` from `original` and
`downcast`. -/
def relativeError (original downcast : Nat) : ErrorValue :=
  let error := absDifference original downcast
  if !isnan original && decide (ONE_E_MINUS_9 < magnitude original) then
    divideByAbs error original
  else if (!isnan original && decide (magnitude original = 0)) &&
      (!isnan downcast && decide (magnitude downcast = 0)) then .zero
  else .infinity

/-- Magnitude of the `double` literal `1e-9` in units of `2^-1074`. -/
def ONE_E_MINUS_9_D : Nat := 4835703278458517 * 2 ^ 992

/-- The `double` expression `fabs(original - downcast)` on a binary64
`original` and a binary32 `downcast`, with the difference in units of
`2^-1074`. -/
def absDifferenceD (original downcast : Nat) : ErrorValue :=
  if isnanD original || isnan downcast then .nan
  else if isinfD original && isinf downcast then
    if signBitD original = signBit downcast then .nan else .infinity
  else if isinfD original || isinf downcast then .infinity
  else if scaledD original = scaled downcast * 2 ^ 925 then .zero
  else .finite (scaledD original - scaled downcast * 2 ^ 925).natAbs (2 ^ 1074)

/-- The `double` statement `error /= fabs(original)` on a binary64
`original`. -/
def divideByAbsD (error : ErrorValue) (original : Nat) : ErrorValue :=
  if isnanD original then .nan
  else
    match error with
    | .nan => .nan
    | .infinity => if isinfD original then .nan else .infinity
    | .zero => if magnitudeD original = 0 then .nan else .zero
    | .finite num den =>
      if isinfD original then .zero
      else if magnitudeD original = 0 then .infinity
      else .finite (num * 2 ^ 1074) (den * magnitudeD original)

/-- The relative error computed by `VisitFloatingLiteral` from a binary64
`original` and `downcast`. -/
def relativeErrorD (original downcast : Nat) : ErrorValue :=
  let error := absDifferenceD original downcast
  if !isnanD original && decide (ONE_E_MINUS_9_D < magnitudeD original) then
    divideByAbsD error original
  else if (!isnanD original && decide (magnitudeD original = 0)) &&
      (!isnan downcast && decide (magnitude downcast = 0)) then .zero
  else .infinity

/-- The relative error computed by `VisitFloatingLiteral` from the value of
the literal, which `original` holds exactly, and `downcast`. -/
def auditError : APFloat → Nat → ErrorValue
  | .IEEEsingle original, downcast => relativeError original downcast
  | .IEEEdouble original, downcast => relativeErrorD original downcast

/-- The fields of a JSON entry that depend on the classifier and on the
simulated demotion: the value that `original` holds, the pattern of
`downcast`, the relative error, the `safe` flag and the reason. -/
structure JsonEntry where
  value : APFloat
  downcast : Nat
  error : ErrorValue
  safe : Bool
  reason : String
deriving DecidableEq

/-- What the visitor reads from a `VarDecl`. -/
structure VarDecl where
  /-- Identity of the declaration (its address), the key of `ProcessedDecls`. -/
  id : Nat
  /-- Result of `SM.isInMainFile(VD->getLocation())`. -/
  inMainFile : Bool
  /-- Result of `VD->getType()`. -/
  type : QualType
  /-- Result of `VD->getInit()`. -/
  init : Option Expr
  /-- Result of `VD->getName()`. -/
  name : String
  /-- Begin location of the type specifier and the spelling of the raw token
  lexed there; `none` when there is no type source info, the location or its
  character data is invalid, or `Lexer::getRawToken` fails. -/
  typeToken : Option (Nat × String)

/-- What the visitor reads from a `FloatingLiteral`. -/
structure FloatingLiteral where
  /-- Result of `SM.isInMainFile(F->getLocation())`. -/
  inMainFile : Bool
  /-- The value of the literal, `F->getValue()`. -/
  Val : APFloat
  /-- Raw encoding of `F->getBeginLoc()`. -/
  BeginLoc : Nat
  /-- Result of `charRange.isValid()`. -/
  rangeValid : Bool
  /-- Length of the spelling of the raw token at `BeginLoc`; `none` when
  `Lexer::getRawToken` fails. -/
  tokenLength : Option Nat

/-- Mutable state of the pass: the global counters and JSON entries, the
visitor's `ProcessedDecls` and `Replacements`, and the diagnostics emitted. -/
structure VisitorState where
  memoryStats : MemoryUsage := {}
  jsonEntries : List JsonEntry := []
  ProcessedDecls : List Nat := []
  Replacements : List Transformation := []
  diagnostics : List Diagnostic := []

/-- Method `Fp16DemotionVisitor::VisitVarDecl`. -/
def VisitVarDecl (st : VisitorState) (VD : VarDecl) : VisitorState :=
  if !VD.inMainFile then st
  else if !canDemoteType VD.type then st
  else if VD.id ∈ st.ProcessedDecls then st
  else
    let st := { st with ProcessedDecls := VD.id :: st.ProcessedDecls }
    let st := { st with memoryStats :=
      { st.memoryStats with
        originalBytes := st.memoryStats.originalBytes + 4
        floatVarCount := st.memoryStats.floatVarCount + 1 } }
    let check : Bool × VisitorState :=
      match VD.init with
      | some Init =>
        let r := canDemoteFloatExpr Init ""
        if !r.1 then
          let reason :=
            if r.2.isEmpty then "initialization value out of __fp16 range or loses precision"
            else r.2
          (false, { st with diagnostics := st.diagnostics ++ [Diagnostic.demotionFailure VD.name reason] })
        else (true, st)
      | none => (true, st)
    let IsSafe := check.1
    let st := check.2
    if IsSafe then
      let st := { st with memoryStats :=
        { st.memoryStats with
          demotedBytes := st.memoryStats.demotedBytes + 2
          demotedVarCount := st.memoryStats.demotedVarCount + 1 } }
      match VD.typeToken with
      | some (Begin, TokenText) =>
        if TokenText = "float" then
          { st with
            Replacements := st.Replacements ++ [Transformation.mk Begin "__fp16" TokenText.length]
            diagnostics := st.diagnostics ++ [Diagnostic.demotionSuccess VD.name] }
        else st
      | none => st
    else
      { st with memoryStats :=
        { st.memoryStats with demotedBytes := st.memoryStats.demotedBytes + 4 } }

/-- Method `Fp16DemotionVisitor::VisitFloatingLiteral`; `none` when the call
of `simulate_fp16` does not return.  The parameter `fixed8` is the stream
formatting of a binary32 with `std::fixed` and `std::setprecision(8)`. -/
def VisitFloatingLiteral (fixed8 : Nat → String) (st : VisitorState) (F : FloatingLiteral) :
    Option VisitorState :=
  if !F.inMainFile then some st
  else
    let st := { st with memoryStats :=
      { st.memoryStats with
        originalBytes := st.memoryStats.originalBytes + 4
        floatLiteralCount := st.memoryStats.floatLiteralCount + 1 } }
    (simulate_fp16 F.Val.toFloat).map fun downcast =>
      let r := canDemoteFloatExpr (.FloatingLiteral F.Val) ""
      let isSafeForDemotion := r.1
      let reason := r.2
      let st := { st with jsonEntries :=
        st.jsonEntries ++
          [JsonEntry.mk F.Val downcast (auditError F.Val downcast) isSafeForDemotion reason] }
      if isSafeForDemotion then
        let st := { st with memoryStats :=
          { st.memoryStats with
            demotedBytes := st.memoryStats.demotedBytes + 2
            demotedLiteralCount := st.memoryStats.demotedLiteralCount + 1 } }
        let replacement := "__fp16(" ++ fixed8 downcast ++ ")"
        let st :=
          if F.rangeValid then
            match F.tokenLength with
            | some n => { st with Replacements := st.Replacements ++ [Transformation.mk F.BeginLoc replacement n] }
            | none => { st with Replacements := st.Replacements ++ [Transformation.mk F.BeginLoc replacement 5] }
          else st
        { st with diagnostics := st.diagnostics ++ [Diagnostic.literalDemotionSuccess] }
      else
        { st with
          memoryStats :=
            { st.memoryStats with demotedBytes := st.memoryStats.demotedBytes + 4 }
          diagnostics := st.diagnostics ++ [Diagnostic.literalDemotionFailure reason] }

/-- The value of the local `IsSafe` of `VisitVarDecl` on a declaration that
is processed. -/
def declIsSafe (VD : VarDecl) : Bool :=
  match VD.init with
  | some Init => (canDemoteFloatExpr Init "").1
  | none => true

/-- The reason passed to the failure diagnostic of `VisitVarDecl`. -/
def declReason (Init : Expr) : String :=
  if (canDemoteFloatExpr Init "").2.isEmpty then
    "initialization value out of __fp16 range or loses precision"
  else (canDemoteFloatExpr Init "").2

/-- One call of a visiting hook during the traversal. -/
inductive VisitEvent where
  | varDecl (VD : VarDecl)
  | floatingLiteral (F : FloatingLiteral)

/-- The hook called for one event. -/
def visit (fixed8 : Nat → String) (st : VisitorState) : VisitEvent → Option VisitorState
  | .varDecl VD => some (VisitVarDecl st VD)
  | .floatingLiteral F => VisitFloatingLiteral fixed8 st F

/-- A traversal: the hooks called in sequence on the state. -/
def traverse (fixed8 : Nat → String) : VisitorState → List VisitEvent → Option VisitorState
  | st, [] => some st
  | st, e :: es => (visit fixed8 st e).bind fun st' => traverse fixed8 st' es

/-- The counter invariant: demoted counts bounded by the totals, four bytes
of `originalBytes` for every item, two bytes of `demotedBytes` for a demoted
item and four for any other. -/
def CounterInvariant (m : MemoryUsage) : Prop :=
  m.demotedVarCount ≤ m.floatVarCount ∧
  m.demotedLiteralCount ≤ m.floatLiteralCount ∧
  m.originalBytes = 4 * (m.floatVarCount + m.floatLiteralCount) ∧
  m.demotedBytes = 2 * (m.demotedVarCount + m.demotedLiteralCount) +
    4 * ((m.floatVarCount + m.floatLiteralCount) - (m.demotedVarCount + m.demotedLiteralCount))

/-! ## Rewrite assembler -/

/-- Comparison `Transformation::operator<`: reverse order of raw encodings. -/
def Transformation.lt (a b : Transformation) : Prop := a.Loc > b.Loc

instance (a b : Transformation) : Decidable (Transformation.lt a b) := by
  unfold Transformation.lt
  exact inferInstance

/-- Library `std::sort` with `operator<`: in the result no element is less
than one that precedes it. -/
def sortReplacements (R : List Transformation) : List Transformation :=
  List.insertionSort (fun a b => ¬ Transformation.lt b a) R

/-- Library `SM.getFileOffset(Loc)` for a location of the main file, whose
first byte has raw encoding `fileStart`. -/
def getFileOffset (fileStart Loc : Nat) : Nat := Loc - fileStart

/-- Library `std::string::replace(pos, len, str)` for `pos` within the
string; a `len` that reaches beyond the end replaces up to the end. -/
def stringReplace (content : List Char) (pos len : Nat) (str : List Char) : List Char :=
  content.take pos ++ str ++ content.drop (pos + len)

/-- Body of the loop of `writeDemotedCode`, on one transformation.  The sum
`Offset + Transform.OriginalLength` is computed in `size_t`, modulo `2^64`. -/
def applyTransformation (fileStart : Nat) (ModifiedContent : List Char) (T : Transformation) :
    List Char :=
  if T.Loc = 0 then ModifiedContent
  else
    let Offset := getFileOffset fileStart T.Loc
    if Offset < ModifiedContent.length ∧
        (Offset + T.OriginalLength) % 2 ^ 64 ≤ ModifiedContent.length then
      stringReplace ModifiedContent Offset T.OriginalLength T.ReplacementText.toList
    else ModifiedContent

/-- The rewritten buffer computed by `Fp16DemotionVisitor::writeDemotedCode`
from the file content and the collected replacements. -/
def writeDemotedCode (fileStart : Nat) (FileContent : List Char) (Replacements : List Transformation) :
    List Char :=
  (sortReplacements Replacements).foldl (applyTransformation fileStart) FileContent

/-! ## Simultaneous substitution, after the specification -/

/-- Byte offset of a transformation in the main file. -/
def Transformation.offset (fileStart : Nat) (T : Transformation) : Nat :=
  getFileOffset fileStart T.Loc

/-- Walk over the original buffer from byte `pos` with the replacements in
ascending offset order: copy the original bytes up to each replacement, emit
its text, and resume after the bytes it replaces. -/
def substituteFrom (fileStart : Nat) (B : List Char) : Nat → List Transformation → List Char
  | pos, [] => B.drop pos
  | pos, T :: Ts =>
    (B.drop pos).take (T.offset fileStart - pos) ++ T.ReplacementText.toList ++
      substituteFrom fileStart B (T.offset fileStart + T.OriginalLength) Ts

/-- All replacements substituted at once against the offsets of the original
buffer. -/
def simultaneousSubstitution (fileStart : Nat) (B : List Char) (R : List Transformation) :
    List Char :=
  substituteFrom fileStart B 0
    (List.insertionSort (fun a b => a.offset fileStart ≤ b.offset fileStart) R)

/-- The byte ranges of two transformations do not overlap. -/
def NonOverlapping (fileStart : Nat) (a b : Transformation) : Prop :=
  a.offset fileStart + a.OriginalLength ≤ b.offset fileStart ∨
    b.offset fileStart + b.OriginalLength ≤ a.offset fileStart

/-! ## Field arithmetic -/

theorem signBit_eq (v : Nat) : signBit v = v / 2 ^ 31 % 2 := by
  unfold signBit
  rw [Nat.shiftRight_eq_div_pow]
  exact Nat.and_pow_two_sub_one_eq_mod _ 1

theorem expField_eq (v : Nat) : expField v = v / 2 ^ 23 % 256 := by
  unfold expField
  rw [Nat.shiftRight_eq_div_pow]
  exact Nat.and_pow_two_sub_one_eq_mod _ 8

theorem mantField_eq (v : Nat) : mantField v = v % 2 ^ 23 := by
  unfold mantField
  exact Nat.and_pow_two_sub_one_eq_mod _ 23

theorem fabs_eq (v : Nat) : fabs v = v % 2 ^ 31 := by
  unfold fabs
  exact Nat.and_pow_two_sub_one_eq_mod _ 31

theorem signBit_fabs (v : Nat) : signBit (fabs v) = 0 := by
  rw [signBit_eq, fabs_eq]; omega

theorem expField_fabs (v : Nat) : expField (fabs v) = expField v := by
  rw [expField_eq, expField_eq, fabs_eq]; omega

theorem mantField_fabs (v : Nat) : mantField (fabs v) = mantField v := by
  rw [mantField_eq, mantField_eq, fabs_eq]; omega

theorem magnitude_fabs (v : Nat) : magnitude (fabs v) = magnitude v := by
  unfold magnitude
  rw [expField_fabs, mantField_fabs]

theorem scaled_fabs (v : Nat) : scaled (fabs v) = (magnitude v : Int) := by
  unfold scaled
  rw [signBit_fabs, magnitude_fabs]
  simp

theorem isnan_fabs (v : Nat) : isnan (fabs v) = isnan v := by
  unfold isnan
  rw [expField_fabs, mantField_fabs]

theorem abs_scaled (v : Nat) : |scaled v| = (magnitude v : Int) := by
  unfold scaled
  split
  · rw [abs_neg]; exact abs_of_nonneg (Int.natCast_nonneg _)
  · exact abs_of_nonneg (Int.natCast_nonneg _)

theorem abs_toRat (v : Nat) : |toRat v| = (magnitude v : ℚ) / 2 ^ 149 := by
  unfold toRat
  rw [abs_div, abs_of_pos (by positivity : (0 : ℚ) < 2 ^ 149)]
  congr 1
  rw [← Int.cast_abs, abs_scaled]
  simp

theorem toRat_eq_zero_iff (v : Nat) : toRat v = 0 ↔ magnitude v = 0 := by
  rw [← abs_eq_zero, abs_toRat]
  simp

theorem scaled_zero : scaled 0 = 0 := by decide

theorem magnitude_FP16_MAX : magnitude FP16_MAX = 65504 * 2 ^ 149 := by rfl

theorem magnitude_FP16_MIN_POSITIVE : magnitude FP16_MIN_POSITIVE = 2 ^ 135 := by rfl

theorem scaled_FP16_MAX : scaled FP16_MAX = 65504 * 2 ^ 149 := by
  unfold scaled
  rw [if_neg (by decide), magnitude_FP16_MAX]
  norm_num

theorem scaled_FP16_MIN_POSITIVE : scaled FP16_MIN_POSITIVE = 2 ^ 135 := by
  unfold scaled
  rw [if_neg (by decide), magnitude_FP16_MIN_POSITIVE]
  norm_num

/-- The range test in terms of the magnitude of the argument. -/
theorem isValueInFp16Range_iff_magnitude (v : Nat) :
    isValueInFp16Range v = true ↔
      expField v ≠ 255 ∧ (magnitude v = 0 ∨ (2 ^ 135 ≤ magnitude v ∧ magnitude v ≤ 65504 * 2 ^ 149)) := by
  have hnan : isnan FP16_MAX = false := by decide
  have hnan2 : isnan FP16_MIN_POSITIVE = false := by decide
  have hnan0 : isnan 0 = false := by decide
  unfold isValueInFp16Range
  by_cases he : expField v = 255
  · have : (isnan v || isinf v) = true := by
      unfold isnan isinf
      rw [he]
      by_cases hm : mantField v = 0 <;> simp [hm]
    simp [this, he]
  · have h1 : isinf v = false := by
      unfold isinf
      simp [he]
    have h2 : isnan v = false := by
      unfold isnan
      simp [he]
    simp only [h1, h2, Bool.or_self, fgt, flt, isnan_fabs, h2, hnan, hnan2, hnan0, scaled_fabs, scaled_FP16_MAX,
      scaled_FP16_MIN_POSITIVE, scaled_zero]
    simp only [Bool.false_eq_true, if_false, Bool.not_false, Bool.true_and, Bool.and_eq_true,
      decide_eq_true_eq, ne_eq, he, not_false_eq_true, true_and]
    have e1 : ((65504 * 2 ^ 149 : Int) < (magnitude v : Int)) ↔ 65504 * 2 ^ 149 < magnitude v := by
      exact_mod_cast Iff.rfl
    have e2 : ((0 : Int) < (magnitude v : Int)) ↔ 0 < magnitude v := by
      exact_mod_cast Iff.rfl
    have e3 : ((magnitude v : Int) < 2 ^ 135) ↔ magnitude v < 2 ^ 135 := by
      exact_mod_cast Iff.rfl
    simp only [e1, e2, e3]
    generalize magnitude v = n
    have c1 : (65504 * 2 ^ 149 : Nat) = 46745216431505598024420982071409864706807717429248 := by
      norm_num
    have c2 : (2 ^ 135 : Nat) = 43556142965880123323311949751266331066368 := by norm_num
    rw [c1, c2]
    split_ifs <;> simp <;> omega

theorem mantField_lt (v : Nat) : mantField v < 8388608 := by
  rw [mantField_eq]; omega

theorem expField_lt (v : Nat) : expField v < 256 := by
  rw [expField_eq]; omega

theorem signBit_lt (v : Nat) : signBit v < 2 := by
  rw [signBit_eq]; omega

/-- A subnormal or zero pattern has magnitude below `2^23`. -/
theorem magnitude_of_exp_zero (v : Nat) (he : expField v = 0) : magnitude v = mantField v := by
  unfold magnitude
  rw [if_pos he]

theorem magnitude_of_exp_pos (v : Nat) (he : expField v ≠ 0) :
    magnitude v = (2 ^ 23 + mantField v) * 2 ^ (expField v - 1) := by
  unfold magnitude
  rw [if_neg he]

/-- Magnitudes of patterns with biased exponent at most `k` stay below
`2^(k+23)`. -/
theorem magnitude_lt_of_exp_le (v k : Nat) (hk : 1 ≤ k) (he : expField v ≤ k) :
    magnitude v < 2 ^ (k + 23) := by
  have hm := mantField_lt v
  by_cases h0 : expField v = 0
  · rw [magnitude_of_exp_zero v h0]
    calc mantField v < 2 ^ 23 := by norm_num; exact hm
      _ ≤ 2 ^ (k + 23) := Nat.pow_le_pow_right (by norm_num) (by omega)
  · rw [magnitude_of_exp_pos v h0]
    calc (2 ^ 23 + mantField v) * 2 ^ (expField v - 1)
        < 2 ^ 24 * 2 ^ (expField v - 1) :=
          Nat.mul_lt_mul_of_pos_right (by norm_num; omega) (by positivity)
      _ ≤ 2 ^ 24 * 2 ^ (k - 1) :=
          Nat.mul_le_mul_left _ (Nat.pow_le_pow_right (by norm_num) (by omega))
      _ = 2 ^ (k + 23) := by rw [← Nat.pow_add]; congr 1; omega

/-- Magnitudes of patterns with biased exponent at least `k ≥ 1` are at
least `2^(k+22)`. -/
theorem magnitude_ge_of_exp_ge (v k : Nat) (hk : 1 ≤ k) (he : k ≤ expField v) :
    2 ^ (k + 22) ≤ magnitude v := by
  rw [magnitude_of_exp_pos v (by omega)]
  calc 2 ^ (k + 22) = 2 ^ 23 * 2 ^ (k - 1) := by rw [← Nat.pow_add]; congr 1; omega
    _ ≤ 2 ^ 23 * 2 ^ (expField v - 1) :=
        Nat.mul_le_mul_left _ (Nat.pow_le_pow_right (by norm_num) (by omega))
    _ ≤ (2 ^ 23 + mantField v) * 2 ^ (expField v - 1) :=
        Nat.mul_le_mul_right _ (by omega)

/-- The range test read on the fields of the pattern: zero of either sign,
or biased exponent 113 to 142 with the mantissa of exponent 142 at most that
of 65504. -/
theorem isValueInFp16Range_iff_fields (v : Nat) :
    isValueInFp16Range v = true ↔
      (expField v = 0 ∧ mantField v = 0) ∨
      (113 ≤ expField v ∧ (expField v ≤ 141 ∨ (expField v = 142 ∧ mantField v ≤ 0x7FE000))) := by
  rw [isValueInFp16Range_iff_magnitude]
  have hm := mantField_lt v
  have hE := expField_lt v
  by_cases h0 : expField v = 0
  · have h1 : magnitude v < 2 ^ 135 :=
      lt_of_lt_of_le (magnitude_lt_of_exp_le v 1 (by omega) (by omega))
        (Nat.pow_le_pow_right (by norm_num) (by norm_num))
    rw [magnitude_of_exp_zero v h0] at h1 ⊢
    constructor
    · rintro ⟨_, h | h⟩
      · exact Or.inl ⟨h0, h⟩
      · omega
    · rintro (⟨_, h⟩ | h)
      · exact ⟨by omega, Or.inl h⟩
      · omega
  · have hpos : 0 < magnitude v :=
      lt_of_lt_of_le (by positivity) (magnitude_ge_of_exp_ge v 1 (by omega) (by omega))
    by_cases h1 : expField v ≤ 112
    · have := magnitude_lt_of_exp_le v 112 (by omega) h1
      constructor
      · rintro ⟨_, h | h⟩ <;> omega
      · rintro (h | h) <;> omega
    · by_cases h2 : expField v ≤ 141
      · have a := magnitude_ge_of_exp_ge v 113 (by omega) (by omega)
        have b := magnitude_lt_of_exp_le v 141 (by omega) h2
        have c : (2 : Nat) ^ (141 + 23) ≤ 65504 * 2 ^ 149 := by norm_num
        constructor
        · intro _; right; exact ⟨by omega, Or.inl h2⟩
        · intro _; exact ⟨by omega, Or.inr ⟨a, by omega⟩⟩
      · by_cases h3 : expField v = 142
        · have a := magnitude_ge_of_exp_ge v 113 (by omega) (by omega)
          have hmag : magnitude v = (2 ^ 23 + mantField v) * 2 ^ 141 := by
            rw [magnitude_of_exp_pos v h0, h3]
          have c : (65504 * 2 ^ 149 : Nat) = (2 ^ 23 + 0x7FE000) * 2 ^ 141 := by norm_num
          have d : magnitude v ≤ 65504 * 2 ^ 149 ↔ mantField v ≤ 0x7FE000 := by
            rw [hmag, c]
            constructor
            · intro h
              have := Nat.le_of_mul_le_mul_right h (by positivity)
              omega
            · intro h
              exact Nat.mul_le_mul_right _ (by omega)
          constructor
          · rintro ⟨_, h | h⟩
            · omega
            · right; exact ⟨by omega, Or.inr ⟨h3, d.1 h.2⟩⟩
          · rintro (h | ⟨_, h | h⟩)
            · omega
            · omega
            · exact ⟨by omega, Or.inr ⟨a, d.2 h.2⟩⟩
        · have a := magnitude_ge_of_exp_ge v 143 (by omega) (by omega)
          have c : (65504 * 2 ^ 149 : Nat) < 2 ^ (143 + 22) := by norm_num
          constructor
          · rintro ⟨_, h | h⟩ <;> omega
          · rintro (h | ⟨_, h | h⟩) <;> omega

/-! ## Closed form of the simulated demotion -/

theorem or_shift_eq_add (a b i p : Nat) (hp : p = 2 ^ i) (hb : b < p) :
    a <<< i ||| b = a * p + b := by
  subst hp
  rw [Nat.shiftLeft_eq, Nat.mul_comm a, Nat.mul_add_lt_is_or hb]

theorem shl_eq_mul (a i p : Nat) (hp : p = 2 ^ i) : a <<< i = a * p := by
  subst hp
  exact Nat.shiftLeft_eq a i

theorem shr_eq_div (a i p : Nat) (hp : p = 2 ^ i) : a >>> i = a / p := by
  subst hp
  exact Nat.shiftRight_eq_div_pow a i

theorem and_mask_eq_mod (x n k p : Nat) (hk : k = 2 ^ n - 1) (hp : p = 2 ^ n) :
    x &&& k = x % p := by
  subst hk hp
  exact Nat.and_pow_two_sub_one_eq_mod x n

theorem pack16 (s e m : Nat) (he : e < 32) (hm : m < 1024) :
    s <<< 15 ||| e <<< 10 ||| m = s * 32768 + e * 1024 + m := by
  have h1 : e <<< 10 = e * 1024 := shl_eq_mul e 10 1024 (by norm_num)
  have h2 : s <<< 15 ||| e <<< 10 = s * 32768 + e * 1024 := by
    rw [h1]
    exact or_shift_eq_add s (e * 1024) 15 32768 (by norm_num) (by omega)
  have h3 : s * 32768 + e * 1024 = (s * 32 + e) <<< 10 := by
    rw [shl_eq_mul _ 10 1024 (by norm_num)]
    omega
  rw [h2, h3, or_shift_eq_add _ m 10 1024 (by norm_num) hm]
  omega

theorem pack32 (s e m : Nat) (he : e < 256) (hm : m < 8388608) :
    s <<< 31 ||| e <<< 23 ||| m = s * 2147483648 + e * 8388608 + m := by
  have h1 : e <<< 23 = e * 8388608 := shl_eq_mul e 23 8388608 (by norm_num)
  have h2 : s <<< 31 ||| e <<< 23 = s * 2147483648 + e * 8388608 := by
    rw [h1]
    exact or_shift_eq_add s (e * 8388608) 31 2147483648 (by norm_num) (by omega)
  have h3 : s * 2147483648 + e * 8388608 = (s * 256 + e) <<< 23 := by
    rw [shl_eq_mul _ 23 8388608 (by norm_num)]
    omega
  rw [h2, h3, or_shift_eq_add _ m 23 8388608 (by norm_num) hm]
  omega

/-- The widening half of `simulate_fp16` on a normal half exponent returns
the sign, the rebiased exponent and the truncated mantissa. -/
theorem expandHalf_normal (s m : Nat) (ne : Nat) (hs : s < 2) (hne1 : 1 ≤ ne) (hne2 : ne ≤ 30)
    (hm : m < 8388608) :
    expandHalf s (ne : Int) m = some (s * 2147483648 + (ne + 112) * 8388608 + m / 8192 * 8192) := by
  unfold expandHalf
  have hshr : m >>> 13 = m / 8192 := shr_eq_div m 13 8192 (by norm_num)
  have hhalf : (s <<< 15 ||| (ne : Int).toNat <<< 10 ||| m >>> 13) % 2 ^ 16 =
      s * 32768 + ne * 1024 + m / 8192 := by
    rw [Int.toNat_ofNat, hshr, pack16 s ne _ (by omega) (by omega)]
    norm_num
    omega
  simp only [hhalf]
  have hsign : ((s * 32768 + ne * 1024 + m / 8192) >>> 15) &&& 0x1 = s := by
    rw [shr_eq_div _ 15 32768 (by norm_num), and_mask_eq_mod _ 1 1 2 (by norm_num) (by norm_num)]
    omega
  have hexp : ((s * 32768 + ne * 1024 + m / 8192) >>> 10) &&& 0x1F = ne := by
    rw [shr_eq_div _ 10 1024 (by norm_num), and_mask_eq_mod _ 5 31 32 (by norm_num) (by norm_num)]
    omega
  have hmant : ((s * 32768 + ne * 1024 + m / 8192) &&& 0x3FF) <<< 13 = m / 8192 * 8192 := by
    rw [and_mask_eq_mod _ 10 1023 1024 (by norm_num) (by norm_num),
      shl_eq_mul _ 13 8192 (by norm_num)]
    congr 1
    omega
  rw [hsign, hexp, hmant]
  have h1 : ne ≠ 31 := by omega
  have h2 : ne ≠ 0 := by omega
  simp only [h1, h2, if_false, Option.map_some']
  have h3 : ((ne : Int) - 15 + 127).toNat = ne + 112 := by omega
  rw [h3, pack32 s (ne + 112) _ (by omega) (by omega)]
  congr 1
  norm_num
  omega

/-- Closed form of `simulate_fp16` on every 32-bit pattern. -/
theorem simulate_fp16_eq (v : Nat) (hv : v < 2 ^ 32) :
    simulate_fp16 v = some
      (if expField v ≤ 112 then 0
       else if 143 ≤ expField v then (if signBit v ≠ 0 then 0xFF800000 else 0x7F800000)
       else v - v % 8192) := by
  unfold simulate_fp16
  rw [Nat.mod_eq_of_lt hv]
  change (if (expField v : Int) - 127 + 15 ≤ 0 ∨ (expField v : Int) - 127 + 15 ≥ 31 then
      if (expField v : Int) - 127 + 15 ≤ 0 then some 0
      else if (expField v : Int) - 127 + 15 ≥ 31 then
        some (if signBit v ≠ 0 then 0xFF800000 else 0x7F800000)
      else expandHalf (signBit v) ((expField v : Int) - 127 + 15) (mantField v)
    else expandHalf (signBit v) ((expField v : Int) - 127 + 15) (mantField v)) = _
  have he := expField_eq v
  have hs := signBit_eq v
  have hm := mantField_eq v
  by_cases h1 : expField v ≤ 112
  · have : (expField v : Int) - 127 + 15 ≤ 0 := by omega
    simp [this, h1]
  · by_cases h2 : 143 ≤ expField v
    · have a : ¬ ((expField v : Int) - 127 + 15 ≤ 0) := by omega
      have b : (expField v : Int) - 127 + 15 ≥ 31 := by omega
      simp only [a, b, false_or, if_true, if_false, h1, h2]
    · have a : ¬ ((expField v : Int) - 127 + 15 ≤ 0) := by omega
      have b : ¬ ((expField v : Int) - 127 + 15 ≥ 31) := by omega
      have c : (expField v : Int) - 127 + 15 = ((expField v - 112 : Nat) : Int) := by omega
      simp only [a, b, false_or, if_false, h1, h2]
      rw [c, expandHalf_normal (signBit v) (mantField v) (expField v - 112) (by omega) (by omega)
        (by omega) (by omega)]
      congr 1
      norm_num at he hs hm hv
      omega

/-! ## The range test -/

theorem abs_toRat_ge_iff (v : Nat) : (1 : ℚ) / 16384 ≤ |toRat v| ↔ 2 ^ 135 ≤ magnitude v := by
  rw [abs_toRat, le_div_iff₀ (by positivity)]
  have : (1 : ℚ) / 16384 * 2 ^ 149 = ((2 ^ 135 : Nat) : ℚ) := by norm_num
  rw [this, Nat.cast_le]

theorem abs_toRat_le_iff (v : Nat) : |toRat v| ≤ 65504 ↔ magnitude v ≤ 65504 * 2 ^ 149 := by
  rw [abs_toRat, div_le_iff₀ (by positivity)]
  have : (65504 : ℚ) * 2 ^ 149 = ((65504 * 2 ^ 149 : Nat) : ℚ) := by norm_num
  rw [this, Nat.cast_le]

theorem isFinite_iff (v : Nat) : isFinite v = true ↔ expField v ≠ 255 := by
  unfold isFinite
  simp

theorem isnan_or_isinf_iff (v : Nat) : (isnan v = true ∨ isinf v = true) ↔ expField v = 255 := by
  unfold isnan isinf
  by_cases h : mantField v = 0 <;> simp [h]

/-- The range test in terms of the denoted rational value. -/
theorem isValueInFp16Range_iff_toRat (v : Nat) :
    isValueInFp16Range v = true ↔
      isFinite v = true ∧
        (toRat v = 0 ∨ ((1 : ℚ) / 16384 ≤ |toRat v| ∧ |toRat v| ≤ 65504)) := by
  rw [isValueInFp16Range_iff_magnitude, isFinite_iff, toRat_eq_zero_iff, abs_toRat_ge_iff,
    abs_toRat_le_iff]

/-- Claim C1: the range test accepts exactly the finite values that are zero
or whose magnitude lies in the closed interval from `2^-14` to `65504`; it
rejects every NaN, both infinities, every finite magnitude above `65504` and
every nonzero finite magnitude below `2^-14`. -/
theorem isValueInFp16Range_spec (v : Nat) :
    (isValueInFp16Range v = true ↔
      isFinite v = true ∧
        (toRat v = 0 ∨ ((1 : ℚ) / 16384 ≤ |toRat v| ∧ |toRat v| ≤ 65504))) ∧
    (isnan v = true → isValueInFp16Range v = false) ∧
    (isinf v = true → isValueInFp16Range v = false) ∧
    (65504 < |toRat v| → isValueInFp16Range v = false) ∧
    (0 < |toRat v| → |toRat v| < (1 : ℚ) / 16384 → isValueInFp16Range v = false) := by
  have main := isValueInFp16Range_iff_toRat v
  refine ⟨main, ?_, ?_, ?_, ?_⟩
  · intro h
    have h1 := (isnan_or_isinf_iff v).1 (Or.inl h)
    cases hr : isValueInFp16Range v
    · rfl
    · exact absurd h1 ((isFinite_iff v).1 (main.1 hr).1)
  · intro h
    have h1 := (isnan_or_isinf_iff v).1 (Or.inr h)
    cases hr : isValueInFp16Range v
    · rfl
    · exact absurd h1 ((isFinite_iff v).1 (main.1 hr).1)
  · intro h
    cases hr : isValueInFp16Range v
    · rfl
    · rcases (main.1 hr).2 with h0 | ⟨_, h2⟩
      · rw [h0] at h; norm_num at h
      · exact absurd h (not_lt.2 h2)
  · intro hpos hlt
    cases hr : isValueInFp16Range v
    · rfl
    · rcases (main.1 hr).2 with h0 | ⟨h1, _⟩
      · rw [h0] at hpos; norm_num at hpos
      · exact absurd hlt (not_lt.2 h1)

/-! ## The literal branch of the classifier -/

theorem signBit_pack (s e m : Nat) (hs : s < 2) (he : e < 256) (hm : m < 8388608) :
    signBit (s * 2 ^ 31 + e * 2 ^ 23 + m) = s := by
  rw [signBit_eq]; omega

theorem expField_pack (s e m : Nat) (he : e < 256) (hm : m < 8388608) :
    expField (s * 2 ^ 31 + e * 2 ^ 23 + m) = e := by
  rw [expField_eq]; omega

theorem mantField_pack (s e m : Nat) (hm : m < 8388608) :
    mantField (s * 2 ^ 31 + e * 2 ^ 23 + m) = m := by
  rw [mantField_eq]; omega

/-- A pattern below `2^32` is the sum of its three fields. -/
theorem pack_fields (v : Nat) (hv : v < 2 ^ 32) :
    signBit v * 2 ^ 31 + expField v * 2 ^ 23 + mantField v = v := by
  rw [signBit_eq, expField_eq, mantField_eq]; omega

theorem normalizeHalf_bounds (fuel : Nat) : ∀ hm e : Nat, 1 ≤ hm → hm < 2048 →
    1024 ≤ hm * 2 ^ fuel → fuel ≤ e →
    1024 ≤ (normalizeHalf fuel hm e).1 ∧ (normalizeHalf fuel hm e).1 < 2048 ∧
      e - fuel ≤ (normalizeHalf fuel hm e).2 ∧ (normalizeHalf fuel hm e).2 ≤ e := by
  induction fuel with
  | zero =>
    intro hm e h1 h2 h3 _
    simp only [normalizeHalf]
    omega
  | succ n ih =>
    intro hm e h1 h2 h3 h4
    simp only [normalizeHalf]
    split
    · have h5 : 1024 ≤ 2 * hm * 2 ^ n := by
        rw [Nat.pow_succ] at h3
        calc 1024 ≤ hm * (2 ^ n * 2) := h3
          _ = 2 * hm * 2 ^ n := by ring
      have := ih (2 * hm) (e - 1) (by omega) (by omega) h5 (by omega)
      omega
    · omega

theorem rneShift_of_dvd (n k : Nat) (h : n % 2 ^ k = 0) : rneShift n k = n / 2 ^ k := by
  unfold rneShift
  simp only [h]
  rw [if_pos (by positivity)]

/-- Fields of the scanned value of a binary16 infinity or NaN. -/
theorem expField_halfToFloat_special (s x : Nat) (_hs : s < 2) (hx : x < 1024) :
    expField (halfToFloat (s * 0x8000 + 0x7C00 + x)) = 255 := by
  unfold halfToFloat
  have h1 : (s * 0x8000 + 0x7C00 + x) / 1024 % 32 = 31 := by omega
  simp only [h1, if_true]
  split
  · rw [expField_eq]; omega
  · decide

theorem halfToFloat_normal (s he hm : Nat) (hs : s < 2) (h1 : 1 ≤ he) (h2 : he ≤ 30)
    (h3 : hm < 1024) :
    halfToFloat (s * 0x8000 + he * 1024 + hm) = s * 2 ^ 31 + (he + 112) * 2 ^ 23 + hm * 8192 := by
  unfold halfToFloat
  have a1 : (s * 0x8000 + he * 1024 + hm) / 1024 % 32 = he := by omega
  have a2 : (s * 0x8000 + he * 1024 + hm) % 1024 = hm := by omega
  have a3 : (s * 0x8000 + he * 1024 + hm) / 0x8000 % 2 = s := by omega
  have a4 : he ≠ 31 := by omega
  have a5 : he ≠ 0 := by omega
  simp only [a1, a2, a3, a4, a5, if_false]

theorem not_inRange_of_exp_255 (v : Nat) (h : expField v = 255) :
    isValueInFp16Range v = false := by
  cases hr : isValueInFp16Range v
  · rfl
  · have := (isValueInFp16Range_iff_fields v).1 hr
    omega

theorem not_inRange_of_exp_small (v : Nat) (h1 : 1 ≤ expField v) (h2 : expField v ≤ 112) :
    isValueInFp16Range v = false := by
  cases hr : isValueInFp16Range v
  · rfl
  · have := (isValueInFp16Range_iff_fields v).1 hr
    omega

theorem inRange_congr_fields (a b : Nat) (he : expField a = expField b)
    (hm : mantField a = mantField b) : isValueInFp16Range a = isValueInFp16Range b := by
  rw [Bool.eq_iff_iff, isValueInFp16Range_iff_fields, isValueInFp16Range_iff_fields, he, hm]

theorem convertToHalf_special (v : Nat) (h : expField v = 255) :
    convertToHalf v =
      if mantField v = 0 then (signBit v * 0x8000 + 0x7C00, false)
      else (signBit v * 0x8000 + 0x7C00 + (mantField v / 8192 ||| 0x200),
        decide (mantField v % 8192 ≠ 0)) := by
  unfold convertToHalf
  simp only [h, if_true]

theorem convertToHalf_normal (v : Nat) (h1 : 113 ≤ expField v) (h2 : expField v ≠ 255) :
    convertToHalf v =
      if 0x7C00 ≤ (expField v - 113) * 1024 + rneShift (2 ^ 23 + mantField v) 13 then
        (signBit v * 0x8000 + 0x7C00, true)
      else (signBit v * 0x8000 + ((expField v - 113) * 1024 + rneShift (2 ^ 23 + mantField v) 13),
        decide ((2 ^ 23 + mantField v) % 2 ^ 13 ≠ 0)) := by
  unfold convertToHalf
  have h0 : expField v ≠ 0 := by omega
  simp only [h2, h0, h1, if_true, if_false]

theorem convertToHalf_small (v : Nat) (h1 : 1 ≤ expField v) (h2 : expField v ≤ 112) :
    convertToHalf v =
      if 0x7C00 ≤ rneShift (2 ^ 23 + mantField v) (126 - expField v) then
        (signBit v * 0x8000 + 0x7C00, true)
      else (signBit v * 0x8000 + rneShift (2 ^ 23 + mantField v) (126 - expField v),
        decide ((2 ^ 23 + mantField v) % 2 ^ (126 - expField v) ≠ 0)) := by
  unfold convertToHalf
  have h0 : expField v ≠ 0 := by omega
  have h3 : expField v ≠ 255 := by omega
  have h4 : ¬ 113 ≤ expField v := by omega
  have h5 : max (expField v) 1 = expField v := by omega
  simp only [h0, h3, h4, h5, if_false, Nat.zero_add]

theorem convertToHalf_subnormal (v : Nat) (h0 : expField v = 0) :
    convertToHalf v =
      if 0x7C00 ≤ rneShift (mantField v) 125 then (signBit v * 0x8000 + 0x7C00, true)
      else (signBit v * 0x8000 + rneShift (mantField v) 125,
        decide (mantField v % 2 ^ 125 ≠ 0)) := by
  unfold convertToHalf
  simp [h0]

/-- When the conversion to binary16 loses nothing, the scanned value passes
the range test exactly when the original value does. -/
theorem inRange_halfToFloat_convert (v : Nat) (hl : (convertToHalf v).2 = false) :
    isValueInFp16Range (halfToFloat (convertToHalf v).1) = isValueInFp16Range v := by
  have hs := signBit_lt v
  have hm := mantField_lt v
  have hE := expField_lt v
  by_cases h255 : expField v = 255
  · rw [not_inRange_of_exp_255 v h255]
    apply not_inRange_of_exp_255
    rw [convertToHalf_special v h255]
    split
    · exact expField_halfToFloat_special (signBit v) 0 hs (by omega)
    · have hx : mantField v / 8192 ||| 0x200 < 2 ^ 10 :=
        Nat.or_lt_two_pow (by omega) (by norm_num)
      exact expField_halfToFloat_special _ _ hs hx
  · by_cases h113 : 113 ≤ expField v
    · rw [convertToHalf_normal v h113 h255] at hl ⊢
      split at hl
      · simp at hl
      · rename_i hov
        have hdiv : (2 ^ 23 + mantField v) % 2 ^ 13 = 0 := by simpa using hl
        rw [rneShift_of_dvd _ _ hdiv] at hov ⊢
        rw [if_neg hov]
        have hmd : mantField v % 8192 = 0 := by
          norm_num at hdiv; omega
        have hle : expField v ≤ 142 := by
          norm_num at hov; omega
        have harg : signBit v * 0x8000 + ((expField v - 113) * 1024 +
            (2 ^ 23 + mantField v) / 2 ^ 13) =
            signBit v * 0x8000 + (expField v - 112) * 1024 + mantField v / 8192 := by
          norm_num; omega
        rw [harg, halfToFloat_normal _ _ _ hs (by omega) (by omega) (by omega)]
        have hres : signBit v * 2 ^ 31 + (expField v - 112 + 112) * 2 ^ 23 +
            mantField v / 8192 * 8192 =
            signBit v * 2 ^ 31 + expField v * 2 ^ 23 + mantField v := by
          omega
        rw [hres]
        apply inRange_congr_fields
        · exact expField_pack _ _ _ hE hm
        · exact mantField_pack _ _ _ hm
    · by_cases h0 : expField v = 0
      · rw [convertToHalf_subnormal v h0] at hl ⊢
        split at hl
        · simp at hl
        · rename_i hov
          have hdiv : mantField v % 2 ^ 125 = 0 := by simpa using hl
          have hm0 : mantField v = 0 := by
            rw [Nat.mod_eq_of_lt (lt_of_lt_of_le hm (by norm_num))] at hdiv
            exact hdiv
          rw [if_neg hov, rneShift_of_dvd _ _ hdiv, hm0]
          rw [Bool.eq_iff_iff, isValueInFp16Range_iff_fields, isValueInFp16Range_iff_fields]
          have e1 : expField (halfToFloat (signBit v * 0x8000 + 0 / 2 ^ 125)) = 0 := by
            unfold halfToFloat
            rw [expField_eq]
            norm_num
            split_ifs <;> omega
          have e2 : mantField (halfToFloat (signBit v * 0x8000 + 0 / 2 ^ 125)) = 0 := by
            unfold halfToFloat
            rw [mantField_eq]
            norm_num
            split_ifs <;> omega
          simp only [e1, e2, h0, hm0]
      · rw [not_inRange_of_exp_small v (by omega) (by omega)]
        rw [convertToHalf_small v (by omega) (by omega)] at hl ⊢
        split at hl
        · simp at hl
        · rename_i hov
          have hdiv : (2 ^ 23 + mantField v) % 2 ^ (126 - expField v) = 0 := by simpa using hl
          rw [if_neg hov, rneShift_of_dvd _ _ hdiv]
          have hk1 : 1 ≤ (2 ^ 23 + mantField v) / 2 ^ (126 - expField v) := by
            apply Nat.div_pos
            · exact Nat.le_of_dvd (by positivity) (Nat.dvd_of_mod_eq_zero hdiv)
            · positivity
          have hk2 : (2 ^ 23 + mantField v) / 2 ^ (126 - expField v) < 1024 := by
            apply Nat.div_lt_of_lt_mul
            calc 2 ^ 23 + mantField v < 2 ^ 14 * 1024 := by norm_num; omega
              _ ≤ 2 ^ (126 - expField v) * 1024 :=
                Nat.mul_le_mul_right _ (Nat.pow_le_pow_right (by norm_num) (by omega))
          generalize (2 ^ 23 + mantField v) / 2 ^ (126 - expField v) = k at hk1 hk2
          have hnb := normalizeHalf_bounds 9 (2 * k) 112 (by omega) (by omega) (by norm_num; omega)
            (by omega)
          have hstep : normalizeHalf 10 k 113 = normalizeHalf 9 (2 * k) 112 := by
            rw [normalizeHalf, if_pos hk2]
          have hh : halfToFloat (signBit v * 0x8000 + k) =
              signBit v * 2 ^ 31 + (normalizeHalf 9 (2 * k) 112).2 * 2 ^ 23 +
                ((normalizeHalf 9 (2 * k) 112).1 - 1024) * 8192 := by
            unfold halfToFloat
            have a1 : (signBit v * 0x8000 + k) / 1024 % 32 = 0 := by omega
            have a2 : (signBit v * 0x8000 + k) % 1024 = k := by omega
            have a3 : (signBit v * 0x8000 + k) / 0x8000 % 2 = signBit v := by omega
            have a4 : k ≠ 0 := by omega
            simp only [a1, a2, a3, a4, hstep]
            simp
          rw [hh]
          apply not_inRange_of_exp_small
          · rw [expField_pack _ _ _ (by omega) (by omega)]; omega
          · rw [expField_pack _ _ _ (by omega) (by omega)]; omega

theorem mantField_halfToFloat (h : Nat) : mantField (halfToFloat h) % 8192 = 0 := by
  unfold halfToFloat
  rw [mantField_eq]
  dsimp only
  split_ifs <;> omega

/-- In the binary16 normal exponent range the conversion is exact exactly
when the low 13 mantissa bits are clear, and it then returns the three fields
unchanged. -/
theorem convertToHalf_normal_exact (v : Nat) (h113 : 113 ≤ expField v) (h142 : expField v ≤ 142) :
    ((convertToHalf v).2 = false ↔ mantField v % 8192 = 0) ∧
    (mantField v % 8192 = 0 →
      halfToFloat (convertToHalf v).1 =
        signBit v * 2 ^ 31 + expField v * 2 ^ 23 + mantField v) := by
  have hs := signBit_lt v
  have hm := mantField_lt v
  rw [convertToHalf_normal v h113 (by omega)]
  constructor
  · constructor
    · intro hl
      split at hl
      · simp at hl
      · have hdiv : (2 ^ 23 + mantField v) % 2 ^ 13 = 0 := by simpa using hl
        norm_num at hdiv; omega
    · intro hmd
      have hdiv : (2 ^ 23 + mantField v) % 2 ^ 13 = 0 := by norm_num; omega
      rw [rneShift_of_dvd _ _ hdiv]
      have hov : ¬ 0x7C00 ≤ (expField v - 113) * 1024 + (2 ^ 23 + mantField v) / 2 ^ 13 := by
        norm_num; omega
      rw [if_neg hov]
      simp only [hdiv, ne_eq, not_true_eq_false, decide_False]
  · intro hmd
    have hdiv : (2 ^ 23 + mantField v) % 2 ^ 13 = 0 := by norm_num; omega
    rw [rneShift_of_dvd _ _ hdiv]
    have hov : ¬ 0x7C00 ≤ (expField v - 113) * 1024 + (2 ^ 23 + mantField v) / 2 ^ 13 := by
      norm_num; omega
    rw [if_neg hov]
    have harg : signBit v * 0x8000 + ((expField v - 113) * 1024 +
        (2 ^ 23 + mantField v) / 2 ^ 13) =
        signBit v * 0x8000 + (expField v - 112) * 1024 + mantField v / 8192 := by
      norm_num; omega
    rw [harg, halfToFloat_normal _ _ _ hs (by omega) (by omega) (by omega)]
    omega

/-- Both zeros convert exactly, to the binary16 zero of the same sign. -/
theorem convertToHalf_zero (v : Nat) (he : expField v = 0) (hm : mantField v = 0) :
    convertToHalf v = (signBit v * 0x8000, false) := by
  rw [convertToHalf_subnormal v he, hm]
  have h1 : rneShift 0 125 = 0 := by decide
  rw [h1]
  simp

/-- For a value that passes the range test, the conversion to binary16 loses
nothing exactly when widening the binary16 result gives back the 32-bit
pattern of the value. -/
theorem losesInfo_false_iff_roundtrip (v : Nat) (hr : isValueInFp16Range v = true) :
    (convertToHalf v).2 = false ↔ halfToFloat (convertToHalf v).1 = v % 2 ^ 32 := by
  have hpack := pack_fields (v % 2 ^ 32) (Nat.mod_lt _ (by positivity))
  have e1 : signBit (v % 2 ^ 32) = signBit v := by rw [signBit_eq, signBit_eq]; omega
  have e2 : expField (v % 2 ^ 32) = expField v := by rw [expField_eq, expField_eq]; omega
  have e3 : mantField (v % 2 ^ 32) = mantField v := by rw [mantField_eq, mantField_eq]; omega
  rw [e1, e2, e3] at hpack
  have hs := signBit_lt v
  rcases (isValueInFp16Range_iff_fields v).1 hr with ⟨he, hm⟩ | ⟨h113, h142⟩
  · rw [convertToHalf_zero v he hm]
    have : halfToFloat (signBit v * 0x8000) = signBit v * 2 ^ 31 := by
      unfold halfToFloat
      have a1 : signBit v * 0x8000 / 1024 % 32 = 0 := by omega
      have a2 : signBit v * 0x8000 % 1024 = 0 := by omega
      have a3 : signBit v * 0x8000 / 0x8000 % 2 = signBit v := by omega
      simp only [a1, a2, a3]
      simp
    simp only [this, true_iff]
    rw [he, hm] at hpack
    omega
  · have h142' : expField v ≤ 142 := by omega
    have hx := convertToHalf_normal_exact v h113 h142'
    rw [hx.1]
    constructor
    · intro hmd
      rw [hx.2 hmd, hpack]
    · intro heq
      have := mantField_halfToFloat (convertToHalf v).1
      rw [heq, e3] at this
      exact this

/-! ## Bounds on the decimal text and its scan -/

theorem activeBitsAux_zero (fuel : Nat) : activeBitsAux fuel 0 = 0 := by
  cases fuel <;> simp [activeBitsAux]

theorem activeBitsAux_spec : ∀ (fuel n : Nat), n ≤ fuel → n ≠ 0 →
    n < 2 ^ activeBitsAux fuel n ∧ 2 ^ (activeBitsAux fuel n - 1) ≤ n
  | 0, n, h, h0 => by omega
  | fuel + 1, n, h, h0 => by
    unfold activeBitsAux
    rw [if_neg h0, Nat.add_sub_cancel]
    by_cases hh : n / 2 = 0
    · rw [hh, activeBitsAux_zero]
      simp
      omega
    · obtain ⟨h1, h2⟩ := activeBitsAux_spec fuel (n / 2) (by omega) hh
      generalize activeBitsAux fuel (n / 2) = b at h1 h2
      have hb : 1 ≤ b := by
        by_contra hc
        have : b = 0 := by omega
        subst this
        simp at h1
        omega
      have : 2 ^ b = 2 * 2 ^ (b - 1) := by
        rw [← Nat.pow_succ']; congr 1; omega
      constructor
      · rw [Nat.pow_succ]; omega
      · omega

/-- The bit count of a nonzero number brackets it between two powers of two. -/
theorem activeBits_spec (n : Nat) (h0 : n ≠ 0) :
    n < 2 ^ activeBits n ∧ 2 ^ (activeBits n - 1) ≤ n :=
  activeBitsAux_spec n n (Nat.le_refl _) h0

theorem activeBits_ge (n j : Nat) (h : 2 ^ j ≤ n) : j + 1 ≤ activeBits n := by
  have h0 : n ≠ 0 := by
    have : 0 < 2 ^ j := by positivity
    omega
  have h1 := (activeBits_spec n h0).1
  by_contra hc
  have : 2 ^ activeBits n ≤ 2 ^ j := Nat.pow_le_pow_right (by norm_num) (by omega)
  omega

theorem activeBits_le (n j : Nat) (h : n < 2 ^ j) : activeBits n ≤ j := by
  by_cases h0 : n = 0
  · rw [h0, activeBits, activeBitsAux_zero]; omega
  · have h1 := (activeBits_spec n h0).2
    by_contra hc
    have : 2 ^ j ≤ 2 ^ (activeBits n - 1) := Nat.pow_le_pow_right (by norm_num) (by omega)
    omega

theorem decimalLengthAux_zero (fuel : Nat) : decimalLengthAux fuel 0 = 0 := by
  cases fuel <;> simp [decimalLengthAux]

theorem decimalLengthAux_spec : ∀ (fuel n : Nat), n ≤ fuel → n ≠ 0 →
    n < 10 ^ decimalLengthAux fuel n ∧ 10 ^ (decimalLengthAux fuel n - 1) ≤ n
  | 0, n, h, h0 => by omega
  | fuel + 1, n, h, h0 => by
    unfold decimalLengthAux
    rw [if_neg h0, Nat.add_sub_cancel]
    by_cases hh : n / 10 = 0
    · rw [hh, decimalLengthAux_zero]
      simp
      omega
    · obtain ⟨h1, h2⟩ := decimalLengthAux_spec fuel (n / 10) (by omega) hh
      generalize decimalLengthAux fuel (n / 10) = b at h1 h2
      have hb : 1 ≤ b := by
        by_contra hc
        have : b = 0 := by omega
        subst this
        simp at h1
        omega
      have : 10 ^ b = 10 * 10 ^ (b - 1) := by
        rw [← Nat.pow_succ']; congr 1; omega
      constructor
      · rw [Nat.pow_succ]; omega
      · omega

/-- The digit count of a nonzero number brackets it between two powers of
ten. -/
theorem decimalLength_spec (n : Nat) (h0 : n ≠ 0) :
    n < 10 ^ decimalLength n ∧ 10 ^ (decimalLength n - 1) ≤ n :=
  decimalLengthAux_spec n n (Nat.le_refl _) h0

theorem countTrailingZerosAux_dvd : ∀ (fuel n : Nat), 2 ^ countTrailingZerosAux fuel n ∣ n
  | 0, n => by simp [countTrailingZerosAux]
  | fuel + 1, n => by
    unfold countTrailingZerosAux
    split
    · simp
    · obtain ⟨c, hc⟩ := countTrailingZerosAux_dvd fuel (n / 2)
      refine ⟨c, ?_⟩
      rw [Nat.pow_succ]
      have : n = 2 * (n / 2) := by omega
      calc n = 2 * (n / 2) := this
        _ = 2 * (2 ^ countTrailingZerosAux fuel (n / 2) * c) := by rw [← hc]
        _ = 2 ^ countTrailingZerosAux fuel (n / 2) * 2 * c := by ring

/-- The trailing zero bits divide out exactly. -/
theorem countTrailingZeros_dvd (n : Nat) : 2 ^ countTrailingZeros n ∣ n :=
  countTrailingZerosAux_dvd n n

theorem ten_pow_le_two_pow (t d : Nat) (h : 196 * t ≤ 59 * d) : 10 ^ t ≤ 2 ^ d := by
  have h1 : (10 : Nat) ^ 59 ≤ 2 ^ 196 := by norm_num
  have h2 : ((10 : Nat) ^ t) ^ 196 ≤ (2 ^ d) ^ 196 := by
    calc ((10 : Nat) ^ t) ^ 196 = 10 ^ (196 * t) := by rw [← Nat.pow_mul, Nat.mul_comm]
      _ ≤ 10 ^ (59 * d) := Nat.pow_le_pow_right (by norm_num) h
      _ = (10 ^ 59) ^ d := by rw [Nat.pow_mul]
      _ ≤ (2 ^ 196) ^ d := Nat.pow_le_pow_left h1 d
      _ = (2 ^ d) ^ 196 := by rw [← Nat.pow_mul, ← Nat.pow_mul, Nat.mul_comm]
  exact (Nat.pow_le_pow_iff_left (by norm_num)).1 h2

/-- The division by the removable power of ten loses less than two parts in
`2^bitsRequired`. -/
theorem adjust_integer_lower (N bR : Nat) (hN : N ≠ 0) :
    N * 2 ^ bR ≤
      N / 10 ^ (if activeBits N ≤ bR then 0 else (activeBits N - bR) * 59 / 196) *
        10 ^ (if activeBits N ≤ bR then 0 else (activeBits N - bR) * 59 / 196) * 2 ^ bR +
        2 * N := by
  split
  · simp
  · rename_i hb
    generalize ht : (activeBits N - bR) * 59 / 196 = t
    have h196 : 196 * t ≤ 59 * (activeBits N - bR) := by
      rw [← ht, Nat.mul_comm 59]
      exact Nat.mul_div_le _ _
    have h10 := ten_pow_le_two_pow t _ h196
    have hsp := (activeBits_spec N hN).2
    have hdm := Nat.div_add_mod N (10 ^ t)
    have hr := Nat.mod_lt N (by positivity : 0 < 10 ^ t)
    have hbits : 2 ^ (activeBits N - bR) * 2 ^ bR = 2 * 2 ^ (activeBits N - 1) := by
      rw [← Nat.pow_add, ← Nat.pow_succ']
      congr 1
      omega
    have h3 : N % 10 ^ t * 2 ^ bR ≤ 2 * N := by
      calc N % 10 ^ t * 2 ^ bR ≤ 10 ^ t * 2 ^ bR := Nat.mul_le_mul_right _ (le_of_lt hr)
        _ ≤ 2 ^ (activeBits N - bR) * 2 ^ bR := Nat.mul_le_mul_right _ h10
        _ = 2 * 2 ^ (activeBits N - 1) := hbits
        _ ≤ 2 * N := Nat.mul_le_mul_left _ hsp
    calc N * 2 ^ bR = (10 ^ t * (N / 10 ^ t) + N % 10 ^ t) * 2 ^ bR := by rw [hdm]
      _ = N / 10 ^ t * 10 ^ t * 2 ^ bR + N % 10 ^ t * 2 ^ bR := by ring
      _ ≤ N / 10 ^ t * 10 ^ t * 2 ^ bR + 2 * N := Nat.add_le_add_left h3 _

/-- Keeping `P` digits loses less than ten parts in `10^P`. -/
theorem adjust_digits_lower (N1 P : Nat) (hN : N1 ≠ 0) (hP : P < decimalLength N1) :
    N1 * 10 ^ P ≤
      N1 / 10 ^ (decimalLength N1 - P) * 10 ^ (decimalLength N1 - P) * 10 ^ P + 10 * N1 := by
  generalize hd : decimalLength N1 - P = drop
  have hsp := (decimalLength_spec N1 hN).2
  have hdm := Nat.div_add_mod N1 (10 ^ drop)
  have hr := Nat.mod_lt N1 (by positivity : 0 < 10 ^ drop)
  have hpow : 10 ^ drop * 10 ^ P = 10 * 10 ^ (decimalLength N1 - 1) := by
    rw [← Nat.pow_add, ← Nat.pow_succ']
    congr 1
    omega
  have h3 : N1 % 10 ^ drop * 10 ^ P ≤ 10 * N1 := by
    calc N1 % 10 ^ drop * 10 ^ P ≤ 10 ^ drop * 10 ^ P := Nat.mul_le_mul_right _ (le_of_lt hr)
      _ = 10 * 10 ^ (decimalLength N1 - 1) := hpow
      _ ≤ 10 * N1 := Nat.mul_le_mul_left _ hsp
  calc N1 * 10 ^ P = (10 ^ drop * (N1 / 10 ^ drop) + N1 % 10 ^ drop) * 10 ^ P := by rw [hdm]
    _ = N1 / 10 ^ drop * 10 ^ drop * 10 ^ P + N1 % 10 ^ drop * 10 ^ P := by ring
    _ ≤ N1 / 10 ^ drop * 10 ^ drop * 10 ^ P + 10 * N1 := Nat.add_le_add_left h3 _

theorem toStringValue_lower (p sig : Nat) (exp : Int) (hsig : sig ≠ 0) :
    (sig : ℚ) * 2 ^ exp * ((2 : ℚ) ^ (((2 + p * 59 / 196) * 196 + 58) / 59) - 2) *
        ((10 : ℚ) ^ (2 + p * 59 / 196) - 10) ≤
      ((toStringValue p sig exp).1 : ℚ) * 10 ^ (toStringValue p sig exp).2 *
        (2 ^ (((2 + p * 59 / 196) * 196 + 58) / 59) * 10 ^ (2 + p * 59 / 196)) := by
  obtain ⟨c, hc⟩ := countTrailingZeros_dvd sig
  have hc0 : c ≠ 0 := by
    rintro rfl
    simp at hc
    exact hsig hc
  have hs1 : sig >>> countTrailingZeros sig = c := by
    rw [Nat.shiftRight_eq_div_pow]
    exact Nat.div_eq_of_eq_mul_right (by positivity) hc
  unfold toStringValue
  simp only [hs1]
  generalize countTrailingZeros sig = tz at hc ⊢
  generalize hP : 2 + p * 59 / 196 = P
  generalize hbR : (P * 196 + 58) / 59 = bR
  have hP2 : 2 ≤ P := by omega
  have hbR7 : 7 ≤ bR := by omega
  -- the integer and the decimal exponent
  have hV : ∃ (N : Nat) (E0 : Int), N ≠ 0 ∧ (sig : ℚ) * 2 ^ exp = N * 10 ^ E0 ∧
      (if 0 ≤ exp + (tz : Int) then c <<< (exp + tz).toNat
        else c * 5 ^ (-(exp + (tz : Int))).toNat) = N ∧
      (if 0 ≤ exp + (tz : Int) then (0 : Int) else exp + tz) = E0 := by
    by_cases he : 0 ≤ exp + (tz : Int)
    · refine ⟨c <<< (exp + tz).toNat, 0, ?_, ?_, by rw [if_pos he], by rw [if_pos he]⟩
      · rw [Nat.shiftLeft_eq]
        positivity
      · rw [Nat.shiftLeft_eq, hc]
        push_cast
        have h1 : ((2 : ℚ) ^ (exp + tz).toNat) = 2 ^ (exp + (tz : Int)) := by
          rw [← zpow_natCast, Int.toNat_of_nonneg he]
        rw [h1, zpow_add₀ (by norm_num), zpow_natCast]
        simp
        ring
    · refine ⟨c * 5 ^ (-(exp + (tz : Int))).toNat, exp + tz, ?_, ?_, by rw [if_neg he],
        by rw [if_neg he]⟩
      · positivity
      · have hneg : ((-(exp + (tz : Int))).toNat : Int) = -(exp + tz) :=
          Int.toNat_of_nonneg (by omega)
        generalize (-(exp + (tz : Int))).toNat = k at hneg
        have he2 : exp = -(k : Int) - tz := by omega
        rw [hc, he2]
        push_cast
        rw [show (-(k : Int) - (tz : Int) + (tz : Int)) = -(k : Int) by ring,
          zpow_sub₀ (by norm_num), zpow_neg, zpow_neg]
        simp only [zpow_natCast]
        have h10 : (10 : ℚ) ^ k = 2 ^ k * 5 ^ k := by
          rw [← mul_pow]; norm_num
        rw [h10]
        field_simp
        ring
  obtain ⟨N, E0, hN0, hVeq, hN, hE0⟩ := hV
  rw [hN, hE0, hVeq]
  have hB := adjust_integer_lower N bR hN0
  generalize (if activeBits N ≤ bR then 0 else (activeBits N - bR) * 59 / 196) = t at hB ⊢
  have hN1 : N / 10 ^ t ≠ 0 := by
    intro h0
    rw [h0] at hB
    simp only [Nat.zero_mul, Nat.zero_add] at hB
    have h2 : 2 ^ 7 ≤ 2 ^ bR := Nat.pow_le_pow_right (by norm_num) hbR7
    have h3 : N * 2 ^ 7 ≤ N * 2 ^ bR := Nat.mul_le_mul_left _ h2
    omega
  generalize N / 10 ^ t = N1 at hB hN1 ⊢
  -- the rounded digits
  have hM : ∃ (M drop : Nat), N1 * 10 ^ P ≤ M * 10 ^ drop * 10 ^ P + 10 * N1 ∧
      (if decimalLength N1 ≤ P then (N1, E0 + (t : Int))
        else
          (if N1 / 10 ^ (decimalLength N1 - P - 1) % 10 < 5 then
              N1 / 10 ^ (decimalLength N1 - P)
            else N1 / 10 ^ (decimalLength N1 - P) + 1,
            E0 + (t : Int) + ((decimalLength N1 - P : Nat) : Int))) =
        (M, E0 + (t : Int) + (drop : Int)) := by
    by_cases hnd : decimalLength N1 ≤ P
    · refine ⟨N1, 0, by simp, ?_⟩
      rw [if_pos hnd]
      simp
    · have hC := adjust_digits_lower N1 P hN1 (by omega)
      generalize decimalLength N1 - P = drop at hC ⊢
      rw [if_neg hnd]
      by_cases h5 : N1 / 10 ^ (drop - 1) % 10 < 5
      · exact ⟨N1 / 10 ^ drop, drop, hC, by rw [if_pos h5]⟩
      · refine ⟨N1 / 10 ^ drop + 1, drop, ?_, by rw [if_neg h5]⟩
        calc N1 * 10 ^ P ≤ N1 / 10 ^ drop * 10 ^ drop * 10 ^ P + 10 * N1 := hC
          _ ≤ (N1 / 10 ^ drop + 1) * 10 ^ drop * 10 ^ P + 10 * N1 := by
            apply Nat.add_le_add_right
            apply Nat.mul_le_mul_right
            apply Nat.mul_le_mul_right
            omega
  obtain ⟨M, drop, hC, hres⟩ := hM
  rw [hres]
  simp only
  -- assemble in the rationals
  have hBq : (N : ℚ) * (2 ^ bR - 2) ≤ N1 * 10 ^ t * 2 ^ bR := by
    have : ((N * 2 ^ bR : Nat) : ℚ) ≤ ((N1 * 10 ^ t * 2 ^ bR + 2 * N : Nat) : ℚ) :=
      Nat.cast_le.2 hB
    push_cast at this
    linarith
  have hCq : (N1 : ℚ) * (10 ^ P - 10) ≤ M * 10 ^ drop * 10 ^ P := by
    have : ((N1 * 10 ^ P : Nat) : ℚ) ≤ ((M * 10 ^ drop * 10 ^ P + 10 * N1 : Nat) : ℚ) :=
      Nat.cast_le.2 hC
    push_cast at this
    linarith
  have h10P : (0 : ℚ) ≤ 10 ^ P - 10 := by
    have : (10 : ℚ) ^ 1 ≤ 10 ^ P := pow_le_pow_right₀ (by norm_num) (by omega)
    linarith
  have hE : (10 : ℚ) ^ (E0 + (t : Int) + (drop : Int)) = 10 ^ E0 * 10 ^ t * 10 ^ drop := by
    rw [zpow_add₀ (by norm_num), zpow_add₀ (by norm_num), zpow_natCast, zpow_natCast]
  rw [hE]
  have hpos : (0 : ℚ) < 10 ^ E0 := by positivity
  have key : (N : ℚ) * (2 ^ bR - 2) * (10 ^ P - 10) ≤
      M * 10 ^ drop * 10 ^ t * (2 ^ bR * 10 ^ P) := by
    calc (N : ℚ) * (2 ^ bR - 2) * (10 ^ P - 10)
        ≤ N1 * 10 ^ t * 2 ^ bR * (10 ^ P - 10) := mul_le_mul_of_nonneg_right hBq h10P
      _ = N1 * (10 ^ P - 10) * (10 ^ t * 2 ^ bR) := by ring
      _ ≤ M * 10 ^ drop * 10 ^ P * (10 ^ t * 2 ^ bR) :=
        mul_le_mul_of_nonneg_right hCq (by positivity)
      _ = M * 10 ^ drop * 10 ^ t * (2 ^ bR * 10 ^ P) := by ring
  calc (N : ℚ) * 10 ^ E0 * (2 ^ bR - 2) * (10 ^ P - 10)
      = 10 ^ E0 * ((N : ℚ) * (2 ^ bR - 2) * (10 ^ P - 10)) := by ring
    _ ≤ 10 ^ E0 * (M * 10 ^ drop * 10 ^ t * (2 ^ bR * 10 ^ P)) :=
      mul_le_mul_of_nonneg_left key (le_of_lt hpos)
    _ = M * (10 ^ E0 * 10 ^ t * 10 ^ drop) * (2 ^ bR * 10 ^ P) := by ring

theorem strtof_lt (num den : Nat) : strtof num den < 2 ^ 31 := by
  have key : ∀ p : Nat, (if 0x7F800000 ≤ p then 0x7F800000 else p) < 2 ^ 31 := by
    intro p
    split_ifs <;> omega
  exact key _

/-- A number from `0.000999999999` on is scanned as a binary32 value from
`0.001f` on. -/
theorem strtof_ge_threshold (num den : Nat) (hden : 0 < den)
    (h : 999999999 * den ≤ 10 ^ 12 * num) :
    SMALL_DIVISION_THRESHOLD ≤ strtof num den := by
  have hX : 2 ^ 139 ≤ num * 2 ^ 149 / den := by
    rw [Nat.le_div_iff_mul_le hden]
    norm_num at h ⊢
    omega
  have hX0 : num * 2 ^ 149 / den ≠ 0 := by
    have : 0 < 2 ^ 139 := by positivity
    omega
  have hab := activeBits_ge _ 139 hX
  have hsp := (activeBits_spec _ hX0).2
  unfold strtof SMALL_DIVISION_THRESHOLD
  simp only
  generalize hk : activeBits (num * 2 ^ 149 / den) - 24 = k
  have hk116 : 116 ≤ k := by omega
  have hq : num * 2 ^ 149 / (den * 2 ^ k) = num * 2 ^ 149 / den / 2 ^ k := by
    rw [Nat.div_div_eq_div_mul]
  have hDn : 0 < den * 2 ^ k := by positivity
  have hdm := Nat.div_add_mod (num * 2 ^ 149) (den * 2 ^ k)
  have hr := Nat.mod_lt (num * 2 ^ 149) hDn
  have hn : num * 2 ^ 149 / (den * 2 ^ k) ≤
      (if 2 * (num * 2 ^ 149 % (den * 2 ^ k)) < den * 2 ^ k then num * 2 ^ 149 / (den * 2 ^ k)
      else if den * 2 ^ k < 2 * (num * 2 ^ 149 % (den * 2 ^ k)) then
        num * 2 ^ 149 / (den * 2 ^ k) + 1
      else if num * 2 ^ 149 / (den * 2 ^ k) % 2 = 0 then num * 2 ^ 149 / (den * 2 ^ k)
      else num * 2 ^ 149 / (den * 2 ^ k) + 1) := by
    split_ifs <;> omega
  by_cases h117 : 117 ≤ k
  · have hq23 : 2 ^ 23 ≤ num * 2 ^ 149 / (den * 2 ^ k) := by
      rw [hq, Nat.le_div_iff_mul_le (by positivity), ← Nat.pow_add]
      have : 23 + k = activeBits (num * 2 ^ 149 / den) - 1 := by omega
      rw [this]
      exact hsp
    have hkk : 117 * 2 ^ 23 ≤ k * 2 ^ 23 := Nat.mul_le_mul_right _ h117
    generalize num * 2 ^ 149 / (den * 2 ^ k) = q at hq23 hn ⊢
    generalize num * 2 ^ 149 % (den * 2 ^ k) = r at hn ⊢
    generalize den * 2 ^ k = Dn at hn ⊢
    revert hn
    generalize (if 2 * r < Dn then q else if Dn < 2 * r then q + 1
      else if q % 2 = 0 then q else q + 1) = n
    intro hn
    generalize k * 2 ^ 23 = K at hkk ⊢
    norm_num at hq23 hkk ⊢
    split_ifs <;> omega
  · have hk' : k = 116 := by omega
    subst hk'
    generalize hQ : num * 2 ^ 149 / (den * 2 ^ 116) = q at *
    generalize hR : num * 2 ^ 149 % (den * 2 ^ 116) = r at *
    generalize hD : den * 2 ^ 116 = Dn at *
    have hh : 999999999 * 2 ^ 33 * Dn ≤ 10 ^ 12 * (Dn * q + r) := by
      rw [hdm, ← hD]
      calc 999999999 * 2 ^ 33 * (den * 2 ^ 116) = 999999999 * den * 2 ^ 149 := by ring
        _ ≤ 10 ^ 12 * num * 2 ^ 149 := Nat.mul_le_mul_right _ h
        _ = 10 ^ 12 * (num * 2 ^ 149) := by ring
    have hq1 : 8589934 ≤ q := by
      by_contra hc
      have : Dn * q ≤ Dn * 8589933 := Nat.mul_le_mul_left _ (by omega)
      norm_num at hh
      omega
    have hn2 : 8589935 ≤
        (if 2 * r < Dn then q else if Dn < 2 * r then q + 1
          else if q % 2 = 0 then q else q + 1) := by
      by_cases hq2 : q = 8589934
      · subst hq2
        norm_num at hh
        have : Dn < 2 * r := by omega
        rw [if_neg (by omega), if_pos this]
      · omega
    revert hn2
    generalize (if 2 * r < Dn then q else if Dn < 2 * r then q + 1
          else if q % 2 = 0 then q else q + 1) = n
    intro hn2
    norm_num
    split_ifs <;> omega

/-- A number from `2^(K-127)` on is scanned as a binary32 value with biased
exponent at least `K`. -/
theorem strtof_ge_of_bits (num den K : Nat) (hK1 : 1 ≤ K) (hK : K ≤ 254)
    (hX : 2 ^ (K + 22) ≤ num * 2 ^ 149 / den) :
    K * 2 ^ 23 ≤ strtof num den := by
  have hX0 : num * 2 ^ 149 / den ≠ 0 := by
    have : 0 < 2 ^ (K + 22) := by positivity
    omega
  have hab := activeBits_ge _ (K + 22) hX
  have hsp := (activeBits_spec _ hX0).2
  unfold strtof
  simp only
  generalize hk : activeBits (num * 2 ^ 149 / den) - 24 = k
  have hkK : K - 1 ≤ k := by omega
  have hq : num * 2 ^ 149 / (den * 2 ^ k) = num * 2 ^ 149 / den / 2 ^ k := by
    rw [Nat.div_div_eq_div_mul]
  have hq23 : 2 ^ 23 ≤ num * 2 ^ 149 / (den * 2 ^ k) := by
    rw [hq, Nat.le_div_iff_mul_le (by positivity), ← Nat.pow_add]
    have : 23 + k = activeBits (num * 2 ^ 149 / den) - 1 := by omega
    rw [this]
    exact hsp
  have hn : num * 2 ^ 149 / (den * 2 ^ k) ≤
      (if 2 * (num * 2 ^ 149 % (den * 2 ^ k)) < den * 2 ^ k then num * 2 ^ 149 / (den * 2 ^ k)
      else if den * 2 ^ k < 2 * (num * 2 ^ 149 % (den * 2 ^ k)) then
        num * 2 ^ 149 / (den * 2 ^ k) + 1
      else if num * 2 ^ 149 / (den * 2 ^ k) % 2 = 0 then num * 2 ^ 149 / (den * 2 ^ k)
      else num * 2 ^ 149 / (den * 2 ^ k) + 1) := by
    split_ifs <;> omega
  have hkk : (K - 1) * 2 ^ 23 ≤ k * 2 ^ 23 := Nat.mul_le_mul_right _ hkK
  have hKK : K * 2 ^ 23 = (K - 1) * 2 ^ 23 + 2 ^ 23 := by
    have : K = K - 1 + 1 := by omega
    conv_lhs => rw [this, Nat.add_mul, Nat.one_mul]
  have hcap : K * 2 ^ 23 ≤ 0x7F800000 := by
    calc K * 2 ^ 23 ≤ 254 * 2 ^ 23 := Nat.mul_le_mul_right _ hK
      _ ≤ 0x7F800000 := by norm_num
  generalize num * 2 ^ 149 / (den * 2 ^ k) = q at hq23 hn ⊢
  generalize num * 2 ^ 149 % (den * 2 ^ k) = r at hn ⊢
  generalize den * 2 ^ k = Dn at hn ⊢
  revert hn
  generalize (if 2 * r < Dn then q else if Dn < 2 * r then q + 1
    else if q % 2 = 0 then q else q + 1) = n
  intro hn
  generalize k * 2 ^ 23 = K1 at hkk ⊢
  generalize (K - 1) * 2 ^ 23 = K2 at hkk hKK
  generalize K * 2 ^ 23 = K3 at hKK hcap ⊢
  norm_num at hq23 hcap ⊢
  split_ifs <;> omega

/-- The printed decimal exceeds the value by at most ten parts in `10^P`,
where `P` is the number of digits kept. -/
theorem toStringValue_upper (p sig : Nat) (exp : Int) (hsig : sig ≠ 0) :
    ((toStringValue p sig exp).1 : ℚ) * 10 ^ (toStringValue p sig exp).2 *
        10 ^ (2 + p * 59 / 196) ≤
      (sig : ℚ) * 2 ^ exp * ((10 : ℚ) ^ (2 + p * 59 / 196) + 10) := by
  obtain ⟨c, hc⟩ := countTrailingZeros_dvd sig
  have hc0 : c ≠ 0 := by
    rintro rfl
    simp at hc
    exact hsig hc
  have hs1 : sig >>> countTrailingZeros sig = c := by
    rw [Nat.shiftRight_eq_div_pow]
    exact Nat.div_eq_of_eq_mul_right (by positivity) hc
  unfold toStringValue
  simp only [hs1]
  generalize countTrailingZeros sig = tz at hc ⊢
  generalize hP : 2 + p * 59 / 196 = P
  generalize hbR : (P * 196 + 58) / 59 = bR
  have hP2 : 2 ≤ P := by omega
  have hbR7 : 7 ≤ bR := by omega
  have hV : ∃ (N : Nat) (E0 : Int), N ≠ 0 ∧ (sig : ℚ) * 2 ^ exp = N * 10 ^ E0 ∧
      (if 0 ≤ exp + (tz : Int) then c <<< (exp + tz).toNat
        else c * 5 ^ (-(exp + (tz : Int))).toNat) = N ∧
      (if 0 ≤ exp + (tz : Int) then (0 : Int) else exp + tz) = E0 := by
    by_cases he : 0 ≤ exp + (tz : Int)
    · refine ⟨c <<< (exp + tz).toNat, 0, ?_, ?_, by rw [if_pos he], by rw [if_pos he]⟩
      · rw [Nat.shiftLeft_eq]
        positivity
      · rw [Nat.shiftLeft_eq, hc]
        push_cast
        have h1 : ((2 : ℚ) ^ (exp + tz).toNat) = 2 ^ (exp + (tz : Int)) := by
          rw [← zpow_natCast, Int.toNat_of_nonneg he]
        rw [h1, zpow_add₀ (by norm_num), zpow_natCast]
        simp
        ring
    · refine ⟨c * 5 ^ (-(exp + (tz : Int))).toNat, exp + tz, ?_, ?_, by rw [if_neg he],
        by rw [if_neg he]⟩
      · positivity
      · have hneg : ((-(exp + (tz : Int))).toNat : Int) = -(exp + tz) :=
          Int.toNat_of_nonneg (by omega)
        generalize (-(exp + (tz : Int))).toNat = k at hneg
        have he2 : exp = -(k : Int) - tz := by omega
        rw [hc, he2]
        push_cast
        rw [show (-(k : Int) - (tz : Int) + (tz : Int)) = -(k : Int) by ring,
          zpow_sub₀ (by norm_num), zpow_neg, zpow_neg]
        simp only [zpow_natCast]
        have h10 : (10 : ℚ) ^ k = 2 ^ k * 5 ^ k := by
          rw [← mul_pow]; norm_num
        rw [h10]
        field_simp
        ring
  obtain ⟨N, E0, hN0, hVeq, hN, hE0⟩ := hV
  rw [hN, hE0, hVeq]
  have hB := adjust_integer_lower N bR hN0
  generalize (if activeBits N ≤ bR then 0 else (activeBits N - bR) * 59 / 196) = t at hB ⊢
  have hN1 : N / 10 ^ t ≠ 0 := by
    intro h0
    rw [h0] at hB
    simp only [Nat.zero_mul, Nat.zero_add] at hB
    have h2 : 2 ^ 7 ≤ 2 ^ bR := Nat.pow_le_pow_right (by norm_num) hbR7
    have h3 : N * 2 ^ 7 ≤ N * 2 ^ bR := Nat.mul_le_mul_left _ h2
    omega
  have hdiv : N / 10 ^ t * 10 ^ t ≤ N := Nat.div_mul_le_self _ _
  generalize N / 10 ^ t = N1 at hdiv hN1 ⊢
  have hM : ∃ (M drop : Nat), M * 10 ^ drop * 10 ^ P ≤ N1 * (10 ^ P + 10) ∧
      (if decimalLength N1 ≤ P then (N1, E0 + (t : Int))
        else
          (if N1 / 10 ^ (decimalLength N1 - P - 1) % 10 < 5 then
              N1 / 10 ^ (decimalLength N1 - P)
            else N1 / 10 ^ (decimalLength N1 - P) + 1,
            E0 + (t : Int) + ((decimalLength N1 - P : Nat) : Int))) =
        (M, E0 + (t : Int) + (drop : Int)) := by
    by_cases hnd : decimalLength N1 ≤ P
    · refine ⟨N1, 0, ?_, ?_⟩
      · rw [Nat.pow_zero, Nat.mul_one]
        exact Nat.mul_le_mul_left _ (by omega)
      · rw [if_pos hnd]
        simp
    · have hsp := (decimalLength_spec N1 hN1).2
      have hpow : 10 ^ (decimalLength N1 - P) * 10 ^ P = 10 * 10 ^ (decimalLength N1 - 1) := by
        rw [← Nat.pow_add, ← Nat.pow_succ']
        congr 1
        omega
      have hfl : N1 / 10 ^ (decimalLength N1 - P) * 10 ^ (decimalLength N1 - P) ≤ N1 :=
        Nat.div_mul_le_self _ _
      have hup : (N1 / 10 ^ (decimalLength N1 - P) + 1) * 10 ^ (decimalLength N1 - P) *
          10 ^ P ≤ N1 * (10 ^ P + 10) := by
        calc (N1 / 10 ^ (decimalLength N1 - P) + 1) * 10 ^ (decimalLength N1 - P) * 10 ^ P
            = N1 / 10 ^ (decimalLength N1 - P) * 10 ^ (decimalLength N1 - P) * 10 ^ P +
                10 ^ (decimalLength N1 - P) * 10 ^ P := by ring
          _ ≤ N1 * 10 ^ P + 10 * 10 ^ (decimalLength N1 - 1) := by
              rw [hpow]
              exact Nat.add_le_add_right (Nat.mul_le_mul_right _ hfl) _
          _ ≤ N1 * 10 ^ P + 10 * N1 := Nat.add_le_add_left (Nat.mul_le_mul_left _ hsp) _
          _ = N1 * (10 ^ P + 10) := by ring
      generalize decimalLength N1 - P = drop at hup ⊢
      rw [if_neg hnd]
      by_cases h5 : N1 / 10 ^ (drop - 1) % 10 < 5
      · refine ⟨N1 / 10 ^ drop, drop, ?_, by rw [if_pos h5]⟩
        refine le_trans ?_ hup
        apply Nat.mul_le_mul_right
        apply Nat.mul_le_mul_right
        omega
      · exact ⟨N1 / 10 ^ drop + 1, drop, hup, by rw [if_neg h5]⟩
  obtain ⟨M, drop, hC, hres⟩ := hM
  rw [hres]
  simp only
  have hCq : (M : ℚ) * 10 ^ drop * 10 ^ P ≤ N1 * (10 ^ P + 10) := by
    have : ((M * 10 ^ drop * 10 ^ P : Nat) : ℚ) ≤ ((N1 * (10 ^ P + 10) : Nat) : ℚ) :=
      Nat.cast_le.2 hC
    push_cast at this
    linarith
  have hDq : (N1 : ℚ) * 10 ^ t ≤ N := by
    have : ((N1 * 10 ^ t : Nat) : ℚ) ≤ ((N : Nat) : ℚ) := Nat.cast_le.2 hdiv
    push_cast at this
    linarith
  have hE : (10 : ℚ) ^ (E0 + (t : Int) + (drop : Int)) = 10 ^ E0 * 10 ^ t * 10 ^ drop := by
    rw [zpow_add₀ (by norm_num), zpow_add₀ (by norm_num), zpow_natCast, zpow_natCast]
  rw [hE]
  have hpos : (0 : ℚ) < 10 ^ E0 := by positivity
  calc (M : ℚ) * (10 ^ E0 * 10 ^ t * 10 ^ drop) * 10 ^ P
      = 10 ^ E0 * 10 ^ t * ((M : ℚ) * 10 ^ drop * 10 ^ P) := by ring
    _ ≤ 10 ^ E0 * 10 ^ t * ((N1 : ℚ) * (10 ^ P + 10)) :=
      mul_le_mul_of_nonneg_left hCq (by positivity)
    _ = 10 ^ E0 * ((N1 : ℚ) * 10 ^ t) * (10 ^ P + 10) := by ring
    _ ≤ 10 ^ E0 * (N : ℚ) * (10 ^ P + 10) := by
      apply mul_le_mul_of_nonneg_right _ (by positivity)
      exact mul_le_mul_of_nonneg_left hDq (le_of_lt hpos)
    _ = (N : ℚ) * 10 ^ E0 * (10 ^ P + 10) := by ring

/-- A number up to `Q * 2^(K-149)`, with `Q` a 24-bit significand, is scanned
as a binary32 pattern up to that of this bound. -/
theorem strtof_le_of (num den K Q : Nat) (hden : 0 < den) (hQ1 : 2 ^ 23 ≤ Q)
    (hQ2 : Q < 2 ^ 24) (h : num * 2 ^ 149 ≤ Q * (den * 2 ^ K)) :
    strtof num den ≤ K * 2 ^ 23 + Q := by
  have hXlt : num * 2 ^ 149 / den < 2 ^ (K + 24) := by
    rw [Nat.div_lt_iff_lt_mul hden]
    calc num * 2 ^ 149 ≤ Q * (den * 2 ^ K) := h
      _ < 2 ^ 24 * (den * 2 ^ K) := Nat.mul_lt_mul_of_pos_right hQ2 (by positivity)
      _ = 2 ^ (K + 24) * den := by rw [Nat.pow_add]; ring
  have hab := activeBits_le _ (K + 24) hXlt
  unfold strtof
  simp only
  generalize hk : activeBits (num * 2 ^ 149 / den) - 24 = k
  have hkK : k ≤ K := by omega
  have hq : num * 2 ^ 149 / (den * 2 ^ k) = num * 2 ^ 149 / den / 2 ^ k := by
    rw [Nat.div_div_eq_div_mul]
  have hDn : 0 < den * 2 ^ k := by positivity
  have hdm := Nat.div_add_mod (num * 2 ^ 149) (den * 2 ^ k)
  have hr := Nat.mod_lt (num * 2 ^ 149) hDn
  have hq24 : num * 2 ^ 149 / (den * 2 ^ k) < 2 ^ 24 := by
    rw [hq, Nat.div_lt_iff_lt_mul (by positivity), ← Nat.pow_add]
    by_cases h0 : num * 2 ^ 149 / den = 0
    · rw [h0]; positivity
    · have hsp := (activeBits_spec _ h0).1
      exact lt_of_lt_of_le hsp (Nat.pow_le_pow_right (by norm_num) (by omega))
  have key : ∀ n : Nat, n ≤ Q →
      (if 0x7F800000 ≤ k * 2 ^ 23 + n then 0x7F800000 else k * 2 ^ 23 + n) ≤
        K * 2 ^ 23 + Q := by
    intro n hn
    have hkk : k * 2 ^ 23 ≤ K * 2 ^ 23 := Nat.mul_le_mul_right _ hkK
    split_ifs <;> omega
  by_cases hlt : k < K
  · have hkk : k * 2 ^ 23 + 2 ^ 23 ≤ K * 2 ^ 23 := by
      have : (k + 1) * 2 ^ 23 ≤ K * 2 ^ 23 := Nat.mul_le_mul_right _ hlt
      rw [Nat.add_mul, Nat.one_mul] at this
      exact this
    generalize num * 2 ^ 149 / (den * 2 ^ k) = q at hq24 ⊢
    generalize num * 2 ^ 149 % (den * 2 ^ k) = r
    generalize den * 2 ^ k = Dn
    have hn : (if 2 * r < Dn then q else if Dn < 2 * r then q + 1
        else if q % 2 = 0 then q else q + 1) ≤ q + 1 := by
      split_ifs <;> omega
    revert hn
    generalize (if 2 * r < Dn then q else if Dn < 2 * r then q + 1
      else if q % 2 = 0 then q else q + 1) = n
    intro hn
    generalize k * 2 ^ 23 = K1 at hkk ⊢
    generalize K * 2 ^ 23 = K2 at hkk ⊢
    norm_num at hq24 hkk hQ1 ⊢
    split_ifs <;> omega
  · have hk' : k = K := by omega
    subst hk'
    generalize hQ : num * 2 ^ 149 / (den * 2 ^ k) = q at *
    generalize hR : num * 2 ^ 149 % (den * 2 ^ k) = r at *
    generalize hD : den * 2 ^ k = Dn at *
    rw [← hdm] at h
    have hq1 : q ≤ Q := by
      by_contra hc
      have h1 : Dn * (Q + 1) ≤ Dn * q := Nat.mul_le_mul_left _ (by omega)
      have e : Dn * (Q + 1) = Q * Dn + Dn := by ring
      omega
    apply key
    by_cases hq2 : q = Q
    · have hr0 : r = 0 := by
        rw [hq2] at h
        have e : Dn * Q = Q * Dn := by ring
        omega
      rw [if_pos (by omega)]
      exact hq1
    · split_ifs <;> omega

/-- The scan of the printed text is the scan of a fraction equal to the
number that the text denotes. -/
theorem scanMagnitude_eq (p sig : Nat) (exp : Int) :
    ∃ num den : Nat, 0 < den ∧ scanMagnitude p sig exp = strtof num den ∧
      (num : ℚ) / den =
        ((toStringValue p sig exp).1 : ℚ) * 10 ^ (toStringValue p sig exp).2 := by
  unfold scanMagnitude
  simp only
  generalize toStringValue p sig exp = text
  obtain ⟨M, E⟩ := text
  simp only
  by_cases hE : 0 ≤ E
  · refine ⟨M * 10 ^ E.toNat, 1, by norm_num, by rw [if_pos hE], ?_⟩
    push_cast
    rw [div_one, ← zpow_natCast, Int.toNat_of_nonneg hE]
  · refine ⟨M, 10 ^ (-E).toNat, by positivity, by rw [if_neg hE], ?_⟩
    have hneg : ((-E).toNat : Int) = -E := Int.toNat_of_nonneg (by omega)
    push_cast
    rw [← zpow_natCast, hneg, zpow_neg, div_eq_mul_inv, inv_inv]

/-- A fraction from `2^(K-127)` on is scanned as a binary32 value with biased
exponent at least `K`. -/
theorem strtof_ge_rat (num den K : Nat) (hden : 0 < den) (hK1 : 1 ≤ K) (hK : K ≤ 254)
    (h : (2 : ℚ) ^ (K + 22) ≤ (num : ℚ) / den * 2 ^ 149) :
    K * 2 ^ 23 ≤ strtof num den := by
  apply strtof_ge_of_bits num den K hK1 hK
  rw [Nat.le_div_iff_mul_le hden]
  have hdq : (0 : ℚ) < den := by exact_mod_cast hden
  rw [div_mul_eq_mul_div, le_div_iff₀ hdq] at h
  exact_mod_cast h

/-- A fraction up to `Q * 2^(K-149)` is scanned as a binary32 pattern up to
that of this bound. -/
theorem strtof_le_rat (num den K Q : Nat) (hden : 0 < den) (hQ1 : 2 ^ 23 ≤ Q)
    (hQ2 : Q < 2 ^ 24) (h : (num : ℚ) / den * 2 ^ 149 ≤ (Q : ℚ) * 2 ^ K) :
    strtof num den ≤ K * 2 ^ 23 + Q := by
  apply strtof_le_of num den K Q hden hQ1 hQ2
  have hdq : (0 : ℚ) < den := by exact_mod_cast hden
  rw [div_mul_eq_mul_div, div_le_iff₀ hdq] at h
  have h2 : ((num * 2 ^ 149 : Nat) : ℚ) ≤ ((Q * (den * 2 ^ K) : Nat) : ℚ) := by
    push_cast
    linarith
  exact Nat.cast_le.1 h2

/-- The text printed for a binary16 value `x`, as a number `y`: `y` is at
least `x` less 2 parts in `2^17` and 10 parts in `10^5`, and at most `x` plus
10 parts in `10^5`. -/
theorem toStringValue_half (sig : Nat) (exp : Int) (hsig : sig ≠ 0) :
    (sig : ℚ) * 2 ^ exp * 131070 * 99990 ≤
        ((toStringValue 11 sig exp).1 : ℚ) * 10 ^ (toStringValue 11 sig exp).2 *
          (131072 * 100000) ∧
      ((toStringValue 11 sig exp).1 : ℚ) * 10 ^ (toStringValue 11 sig exp).2 * 100000 ≤
        (sig : ℚ) * 2 ^ exp * 100010 := by
  have hL := toStringValue_lower 11 sig exp hsig
  have hU := toStringValue_upper 11 sig exp hsig
  have e1 : 2 + 11 * 59 / 196 = 5 := by norm_num
  have e2 : (5 * 196 + 58) / 59 = 17 := by norm_num
  rw [e1] at hL hU
  rw [e2] at hL
  norm_num at hL hU ⊢
  exact ⟨hL, hU⟩

/-! ## Scan of the converted value -/

theorem inRange_sign (s x : Nat) (_hs : s < 2) (_hx : x < 2 ^ 31) :
    isValueInFp16Range (s * 2 ^ 31 + x) = isValueInFp16Range x := by
  apply inRange_congr_fields
  · rw [expField_eq, expField_eq]; omega
  · rw [mantField_eq, mantField_eq]; omega

theorem not_inRange_of_lt (x : Nat) (h0 : 0 < x) (h1 : x < 0x38800000) :
    isValueInFp16Range x = false := by
  cases hr : isValueInFp16Range x
  · rfl
  · have := (isValueInFp16Range_iff_fields x).1 hr
    have he := expField_eq x
    have hm := mantField_eq x
    omega

/-- Every nonzero binary16 subnormal is printed and scanned as a nonzero
binary32 value below `2^-14`. -/
theorem scanMagnitude_subnormal :
    ∀ hm < 1024, hm ≠ 0 →
      0 < scanMagnitude 11 hm (-24) ∧ scanMagnitude 11 hm (-24) < 0x38800000 := by
  intro hm hlt h0
  obtain ⟨hL, hU⟩ := toStringValue_half hm (-24) h0
  obtain ⟨num, den, hden, hscan, hval⟩ := scanMagnitude_eq 11 hm (-24)
  rw [hscan]
  rw [← hval] at hL hU
  have hx1 : (1 : ℚ) ≤ hm := by exact_mod_cast (by omega : 1 ≤ hm)
  have hx2 : (hm : ℚ) ≤ 1023 := by exact_mod_cast (by omega : hm ≤ 1023)
  have e24 : (2 : ℚ) ^ (-24 : Int) = 1 / 2 ^ 24 := by norm_num
  rw [e24] at hL hU
  have hlo : (2 : ℚ) ^ (102 + 22) ≤ (num : ℚ) / den * 2 ^ 149 := by
    generalize (num : ℚ) / den = y at hL hU
    norm_num at hL hU ⊢
    linarith
  have hhi : (num : ℚ) / den * 2 ^ 149 ≤ ((2 ^ 24 - 1 : Nat) : ℚ) * 2 ^ 111 := by
    generalize (num : ℚ) / den = y at hL hU
    norm_num at hL hU ⊢
    linarith
  have hge := strtof_ge_rat num den 102 hden (by norm_num) (by norm_num) hlo
  have hle := strtof_le_rat num den 111 (2 ^ 24 - 1) hden (by norm_num) (by norm_num) hhi
  norm_num at hge hle ⊢
  omega

/-- The binary16 value `2^-14` is printed as `6.1035E-5`, which is scanned as
a binary32 value below `2^-14`. -/
theorem scanMagnitude_min_normal :
    toStringValue 11 (1024 + 0) (((1 : Nat) : Int) - 25) = (61035, -9) ∧
    scanMagnitude 11 (1024 + 0) (((1 : Nat) : Int) - 25) = 0x387FFFD5 := by
  decide!

/-- The binary16 value `65504` is printed as `65504` and scanned as itself. -/
theorem scanMagnitude_max :
    scanMagnitude 11 (1024 + 1023) (((30 : Nat) : Int) - 25) = 0x477FE000 := by
  decide!

/-- Every binary16 normal value other than `2^-14` is printed and scanned as
a binary32 value between `2^-14` and `65504`. -/
theorem scanMagnitude_normal (he hm : Nat) (h1 : 1 ≤ he) (h30 : he ≤ 30) (hhm : hm < 1024)
    (hmin : ¬ (he = 1 ∧ hm = 0)) :
    0x38800000 ≤ scanMagnitude 11 (1024 + hm) ((he : Int) - 25) ∧
      scanMagnitude 11 (1024 + hm) ((he : Int) - 25) ≤ 0x477FE000 := by
  by_cases hmax : he = 30 ∧ hm = 1023
  · obtain ⟨rfl, rfl⟩ := hmax
    rw [scanMagnitude_max]
    norm_num
  · obtain ⟨hL, hU⟩ := toStringValue_half (1024 + hm) ((he : Int) - 25) (by omega)
    obtain ⟨num, den, hden, hscan, hval⟩ := scanMagnitude_eq 11 (1024 + hm) ((he : Int) - 25)
    rw [hscan]
    rw [← hval] at hL hU
    have hx1 : (1025 : ℚ) / 2 ^ 24 ≤ ((1024 + hm : Nat) : ℚ) * 2 ^ ((he : Int) - 25) := by
      by_cases hhe : he = 1
      · subst hhe
        have hm1 : (1 : ℚ) ≤ hm := by exact_mod_cast (by omega : 1 ≤ hm)
        have e : ((1 : Nat) : Int) - 25 = -24 := by norm_num
        have hc : (1025 : ℚ) ≤ ((1024 + hm : Nat) : ℚ) := by
          push_cast
          linarith
        have e24 : (2 : ℚ) ^ (-24 : Int) = 1 / 2 ^ 24 := by norm_num
        rw [e, e24, div_eq_mul_one_div]
        exact mul_le_mul_of_nonneg_right hc (by positivity)
      · have h2 : (2 : ℚ) ^ (-23 : Int) ≤ 2 ^ ((he : Int) - 25) :=
          zpow_le_zpow_right₀ (by norm_num) (by omega)
        have h0 : (0 : ℚ) ≤ hm := by positivity
        calc (1025 : ℚ) / 2 ^ 24 ≤ 1024 * 2 ^ (-23 : Int) := by norm_num
          _ ≤ ((1024 + hm : Nat) : ℚ) * 2 ^ (-23 : Int) := by
            have hc : (1024 : ℚ) ≤ ((1024 + hm : Nat) : ℚ) := by
              push_cast
              linarith
            exact mul_le_mul_of_nonneg_right hc (by positivity)
          _ ≤ ((1024 + hm : Nat) : ℚ) * 2 ^ ((he : Int) - 25) :=
            mul_le_mul_of_nonneg_left h2 (by positivity)
    have hx2 : ((1024 + hm : Nat) : ℚ) * 2 ^ ((he : Int) - 25) ≤ 65472 := by
      by_cases hhe : he = 30
      · subst hhe
        have hm1 : (hm : ℚ) ≤ 1022 := by exact_mod_cast (by omega : hm ≤ 1022)
        have e : ((30 : Nat) : Int) - 25 = 5 := by norm_num
        rw [e]
        push_cast
        norm_num
        linarith
      · have h2 : (2 : ℚ) ^ ((he : Int) - 25) ≤ 2 ^ (4 : Int) :=
          zpow_le_zpow_right₀ (by norm_num) (by omega)
        have hm1 : (hm : ℚ) ≤ 1023 := by exact_mod_cast (by omega : hm ≤ 1023)
        calc ((1024 + hm : Nat) : ℚ) * 2 ^ ((he : Int) - 25)
            ≤ ((1024 + hm : Nat) : ℚ) * 2 ^ (4 : Int) :=
              mul_le_mul_of_nonneg_left h2 (by positivity)
          _ ≤ 2047 * 2 ^ (4 : Int) := by
            have hc : ((1024 + hm : Nat) : ℚ) ≤ 2047 := by
              push_cast
              linarith
            exact mul_le_mul_of_nonneg_right hc (by positivity)
          _ ≤ 65472 := by norm_num
    generalize ((1024 + hm : Nat) : ℚ) * 2 ^ ((he : Int) - 25) = x at hL hU hx1 hx2
    have hlo : (2 : ℚ) ^ (113 + 22) ≤ (num : ℚ) / den * 2 ^ 149 := by
      generalize (num : ℚ) / den = y at hL hU
      norm_num at hL hU hx1 ⊢
      linarith
    have hhi : (num : ℚ) / den * 2 ^ 149 ≤ ((2047 * 2 ^ 13 : Nat) : ℚ) * 2 ^ 141 := by
      generalize (num : ℚ) / den = y at hL hU
      norm_num at hL hU hx2 ⊢
      linarith
    have hge := strtof_ge_rat num den 113 hden (by norm_num) (by norm_num) hlo
    have hle := strtof_le_rat num den 141 (2047 * 2 ^ 13) hden (by norm_num) (by norm_num) hhi
    norm_num at hge hle ⊢
    omega

/-- The scan of a binary16 pattern always returns. -/
theorem scanHalf_total (h : Nat) : ∃ r, scanHalf h = some r := by
  unfold scanHalf
  simp only
  split_ifs <;> exact ⟨_, rfl⟩

/-- An infinity, a NaN, a nonzero subnormal and plus or minus `2^-14` are
scanned as a value that fails the range test. -/
theorem scanHalf_rejected (h : Nat)
    (hb : h / 1024 % 32 = 31 ∨ (h / 1024 % 32 = 0 ∧ h % 1024 ≠ 0) ∨
      (h / 1024 % 32 = 1 ∧ h % 1024 = 0)) :
    ∃ r, scanHalf h = some r ∧ isValueInFp16Range r = false := by
  have hs : h / 0x8000 % 2 < 2 := Nat.mod_lt _ (by norm_num)
  rcases hb with he | ⟨he, hm⟩ | ⟨he, hm⟩
  · by_cases hm : h % 1024 = 0
    · refine ⟨h / 0x8000 % 2 * 2 ^ 31 + 0x7F800000, by simp [scanHalf, he, hm],
        not_inRange_of_exp_255 _ ?_⟩
      rw [expField_eq]; omega
    · exact ⟨0x7FC00000, by simp [scanHalf, he, hm], by decide⟩
  · have hlt : h % 1024 < 1024 := Nat.mod_lt _ (by norm_num)
    obtain ⟨h0, h1⟩ := scanMagnitude_subnormal (h % 1024) hlt hm
    refine ⟨h / 0x8000 % 2 * 2 ^ 31 + scanMagnitude 11 (h % 1024) (-24),
      by simp [scanHalf, he, hm], ?_⟩
    rw [inRange_sign _ _ hs (by omega)]
    exact not_inRange_of_lt _ h0 h1
  · refine ⟨h / 0x8000 % 2 * 2 ^ 31 + scanMagnitude 11 (1024 + 0) (((1 : Nat) : Int) - 25),
      by simp [scanHalf, he, hm], ?_⟩
    rw [scanMagnitude_min_normal.2, inRange_sign _ _ hs (by norm_num)]
    decide

/-- A zero and plus or minus `65504` are scanned as themselves, and pass the
range test. -/
theorem scanHalf_accepted (h : Nat)
    (hb : (h / 1024 % 32 = 0 ∧ h % 1024 = 0) ∨ (h / 1024 % 32 = 30 ∧ h % 1024 = 1023)) :
    ∃ r, scanHalf h = some r ∧ isValueInFp16Range r = true := by
  have hs : h / 0x8000 % 2 < 2 := Nat.mod_lt _ (by norm_num)
  rcases hb with ⟨he, hm⟩ | ⟨he, hm⟩
  · refine ⟨h / 0x8000 % 2 * 2 ^ 31 + 0, by simp [scanHalf, he, hm], ?_⟩
    rw [inRange_sign _ _ hs (by norm_num)]
    decide
  · refine ⟨h / 0x8000 % 2 * 2 ^ 31 + scanMagnitude 11 (1024 + 1023) (((30 : Nat) : Int) - 25),
      by simp [scanHalf, he, hm], ?_⟩
    rw [scanMagnitude_max, inRange_sign _ _ hs (by norm_num)]
    decide

/-- The literal branch, with the scanned value named. -/
theorem canDemoteFloatExpr_literal (Val : APFloat) (Reason : String) (r : Nat)
    (hr : scanHalf Val.convert.1 = some r) :
    canDemoteFloatExpr (.FloatingLiteral Val) Reason =
      if isValueInFp16Range r = false then
        (false, "literal value out of __fp16 range")
      else if Val.convert.2 = true then
        (false, "literal value loses precision when converted to __fp16")
      else (true, Reason) := by
  simp only [canDemoteFloatExpr, hr]
  cases isValueInFp16Range r <;> simp

/-- A literal classified SAFE converts to binary16 without loss, and the
result is a zero or a normal number other than plus or minus `2^-14`. -/
theorem literal_safe_imp (Val : APFloat) (Reason : String)
    (h : (canDemoteFloatExpr (.FloatingLiteral Val) Reason).1 = true) :
    Val.convert.2 = false ∧
      ((Val.convert.1 / 1024 % 32 = 0 ∧ Val.convert.1 % 1024 = 0) ∨
        (1 ≤ Val.convert.1 / 1024 % 32 ∧ Val.convert.1 / 1024 % 32 ≤ 30 ∧
          ¬ (Val.convert.1 / 1024 % 32 = 1 ∧ Val.convert.1 % 1024 = 0))) := by
  obtain ⟨r, hr⟩ := scanHalf_total Val.convert.1
  rw [canDemoteFloatExpr_literal Val Reason r hr] at h
  have hlt : Val.convert.1 / 1024 % 32 < 32 := Nat.mod_lt _ (by norm_num)
  constructor
  · cases hl : Val.convert.2
    · rfl
    · rw [hl] at h
      split_ifs at h
      simp_all
  · by_contra hc
    have hb : Val.convert.1 / 1024 % 32 = 31 ∨
        (Val.convert.1 / 1024 % 32 = 0 ∧ Val.convert.1 % 1024 ≠ 0) ∨
        (Val.convert.1 / 1024 % 32 = 1 ∧ Val.convert.1 % 1024 = 0) := by
      omega
    obtain ⟨r', hr', hout⟩ := scanHalf_rejected _ hb
    rw [hr] at hr'
    cases hr'
    rw [hout] at h
    simp at h

/-! ## Round trip of SAFE literals -/

/-- Claim C3, as the code has it: for every 32-bit pattern other than
negative zero that passes the range test and is classified SAFE as a
literal, `simulate_fp16` returns the pattern itself. -/
theorem simulate_fp16_roundtrip (v : Nat) (Reason : String) (hv : v < 2 ^ 32)
    (hnz : v ≠ 0x80000000) (hr : isValueInFp16Range v = true)
    (hsafe : (canDemoteFloatExpr (.FloatingLiteral (.IEEEsingle v)) Reason).1 = true) :
    simulate_fp16 v = some v := by
  have hl : (convertToHalf v).2 = false := (literal_safe_imp (.IEEEsingle v) Reason hsafe).1
  have hpack := pack_fields v hv
  have hs := signBit_lt v
  rw [simulate_fp16_eq v hv]
  rcases (isValueInFp16Range_iff_fields v).1 hr with ⟨he, hm⟩ | ⟨h113, h142⟩
  · rw [if_pos (by omega)]
    congr 1
    rw [he, hm] at hpack
    norm_num at hpack
    omega
  · have h142' : expField v ≤ 142 := by omega
    have hmd := (convertToHalf_normal_exact v h113 h142').1.1 hl
    rw [if_neg (by omega), if_neg (by omega)]
    congr 1
    have := mantField_eq v
    omega

/-- Witness of `simulate_fp16_roundtrip` at the literal `1.0f`. -/
theorem simulate_fp16_roundtrip_witness : simulate_fp16 0x3F800000 = some 0x3F800000 :=
  simulate_fp16_roundtrip 0x3F800000 "" (by decide) (by decide) (by decide) (by decide!)

/-- Counterexample to claim C3 as stated: negative zero passes the range
test and is classified SAFE as a literal, yet `simulate_fp16` returns the
pattern of positive zero. -/
theorem simulate_fp16_negative_zero :
    isValueInFp16Range 0x80000000 = true ∧
    (canDemoteFloatExpr (.FloatingLiteral (.IEEEsingle 0x80000000)) "").1 = true ∧
    simulate_fp16 0x80000000 = some 0 ∧
    simulate_fp16 0x80000000 ≠ some 0x80000000 := by
  decide!

/-! ## Rounding of the simulated demotion -/

/-- Claim C4, as the code has it: for every finite 32-bit pattern whose
magnitude lies between `2^-14` and `65504`, `simulate_fp16` returns the
pattern with its low 13 mantissa bits cleared.  The result keeps the sign and
the exponent, is exactly representable in binary16, and its magnitude is the
magnitude of the argument rounded toward zero: it falls short of it by the
cleared bits, less than one binary16 unit in the last place; no carry into
the exponent and no overflow to infinity occurs. -/
theorem simulate_fp16_truncates (v : Nat) (hv : v < 2 ^ 32) (hfin : isFinite v = true)
    (hlo : (1 : ℚ) / 16384 ≤ |toRat v|) (hhi : |toRat v| ≤ 65504) :
    simulate_fp16 v = some (v - v % 8192) ∧
    signBit (v - v % 8192) = signBit v ∧
    expField (v - v % 8192) = expField v ∧
    mantField (v - v % 8192) = mantField v - mantField v % 8192 ∧
    (convertToHalf (v - v % 8192)).2 = false ∧
    magnitude v = magnitude (v - v % 8192) + v % 8192 * 2 ^ (expField v - 1) ∧
    |toRat (v - v % 8192)| ≤ |toRat v| := by
  have hr : isValueInFp16Range v = true :=
    (isValueInFp16Range_iff_toRat v).2 ⟨hfin, Or.inr ⟨hlo, hhi⟩⟩
  have hmag : 2 ^ 135 ≤ magnitude v := (abs_toRat_ge_iff v).1 hlo
  have hE : 113 ≤ expField v ∧ expField v ≤ 142 := by
    rcases (isValueInFp16Range_iff_fields v).1 hr with ⟨he, hm⟩ | ⟨h113, h142⟩
    · rw [magnitude_of_exp_zero v he, hm] at hmag
      norm_num at hmag
    · omega
  have hse := signBit_eq v
  have hee := expField_eq v
  have hme := mantField_eq v
  have e1 : signBit (v - v % 8192) = signBit v := by
    rw [signBit_eq, signBit_eq]; omega
  have e2 : expField (v - v % 8192) = expField v := by
    rw [expField_eq, expField_eq]; omega
  have e3 : mantField (v - v % 8192) = mantField v - mantField v % 8192 := by
    rw [mantField_eq, mantField_eq]; omega
  have e4 : magnitude v = magnitude (v - v % 8192) + v % 8192 * 2 ^ (expField v - 1) := by
    rw [magnitude_of_exp_pos v (by omega), magnitude_of_exp_pos _ (by omega), e2, e3,
      ← Nat.add_mul]
    congr 1
    omega
  refine ⟨?_, e1, e2, e3, ?_, e4, ?_⟩
  · rw [simulate_fp16_eq v hv, if_neg (by omega), if_neg (by omega)]
  · apply (convertToHalf_normal_exact _ (by omega) (by omega)).1.2
    rw [e3]; omega
  · rw [abs_toRat, abs_toRat]
    apply div_le_div_of_nonneg_right _ (by positivity)
    rw [e4]
    push_cast
    have : (0 : ℚ) ≤ ((v % 8192 : Nat) : ℚ) * 2 ^ (expField v - 1) := by positivity
    push_cast at this
    linarith

/-- Witness of `simulate_fp16_truncates` at the pattern `0x3F801001`. -/
theorem simulate_fp16_truncates_witness :
    simulate_fp16 0x3F801001 = some (0x3F801001 - 0x3F801001 % 8192) :=
  (simulate_fp16_truncates 0x3F801001 (by decide) (by decide)
    ((abs_toRat_ge_iff _).2 (by decide)) ((abs_toRat_le_iff _).2 (by decide))).1

/-- Counterexample to claim C4 as stated: the pattern `0x3F801001` is finite
and of magnitude in the binary16 normal range; the binary16 value nearest to
it under ties-to-even widens to `0x3F802000`, which is exactly representable
in binary16 and strictly nearer to it than `0x3F800000`, the pattern that
`simulate_fp16` returns. -/
theorem simulate_fp16_not_nearest :
    isFinite 0x3F801001 = true ∧
    isValueInFp16Range 0x3F801001 = true ∧
    halfToFloat (convertToHalf 0x3F801001).1 = 0x3F802000 ∧
    (convertToHalf 0x3F802000).2 = false ∧
    scaled 0x3F802000 - scaled 0x3F801001 < scaled 0x3F801001 - scaled 0x3F800000 ∧
    simulate_fp16 0x3F801001 = some 0x3F800000 ∧
    simulate_fp16 0x3F801001 ≠ some (halfToFloat (convertToHalf 0x3F801001).1) := by
  decide

/-! ## The classifier on compound expressions -/

theorem magnitude_SMALL_DIVISION_THRESHOLD :
    magnitude SMALL_DIVISION_THRESHOLD = 8589935 * 2 ^ 116 := by rfl

theorem scaled_SMALL_DIVISION_THRESHOLD :
    scaled SMALL_DIVISION_THRESHOLD = ((8589935 * 2 ^ 116 : Nat) : Int) := by
  unfold scaled
  rw [if_neg (by decide), magnitude_SMALL_DIVISION_THRESHOLD]

theorem abs_toRat_lt_iff (v : Nat) :
    |toRat v| < (1 : ℚ) / 1000 ↔ 1000 * magnitude v < 2 ^ 149 := by
  rw [abs_toRat, div_lt_iff₀ (by positivity)]
  have h1 : (1 : ℚ) / 1000 * 2 ^ 149 = ((2 ^ 149 : Nat) : ℚ) / 1000 := by norm_num
  rw [h1, lt_div_iff₀ (by norm_num)]
  have h2 : ((magnitude v : Nat) : ℚ) * 1000 = ((1000 * magnitude v : Nat) : ℚ) := by
    push_cast; ring
  rw [h2, Nat.cast_lt]

/-- The binary32 comparison against `0.001f` agrees with the comparison of
the denoted value against one thousandth. -/
theorem magnitude_lt_threshold_iff (v : Nat) :
    magnitude v < 8589935 * 2 ^ 116 ↔ 1000 * magnitude v < 2 ^ 149 := by
  have hm := mantField_lt v
  constructor
  · intro h
    by_cases h116 : expField v ≤ 116
    · have := magnitude_lt_of_exp_le v 116 (by omega) h116
      have c : (1000 : Nat) * 2 ^ (116 + 23) < 2 ^ 149 := by norm_num
      omega
    · by_cases h117 : expField v = 117
      · rw [magnitude_of_exp_pos v (by omega), h117] at h ⊢
        have h1 := Nat.lt_of_mul_lt_mul_right h
        have h2 : 1000 * (2 ^ 23 + mantField v) ≤ 8589934000 := by omega
        calc 1000 * ((2 ^ 23 + mantField v) * 2 ^ (117 - 1))
            = 1000 * (2 ^ 23 + mantField v) * 2 ^ 116 := by ring
          _ ≤ 8589934000 * 2 ^ 116 := Nat.mul_le_mul_right _ h2
          _ < 2 ^ 149 := by norm_num
      · have := magnitude_ge_of_exp_ge v 118 (by omega) (by omega)
        have c : (8589935 : Nat) * 2 ^ 116 < 2 ^ (118 + 22) := by norm_num
        omega
  · intro h
    have c : (2 : Nat) ^ 149 < 1000 * (8589935 * 2 ^ 116) := by norm_num
    omega

theorem smallDenominator_iff (v : Nat) :
    smallDenominator (.FloatingLiteral (.IEEEsingle v)) = true ↔
      isFinite v = true ∧ |toRat v| < (1 : ℚ) / 1000 := by
  rw [abs_toRat_lt_iff, ← magnitude_lt_threshold_iff, isFinite_iff]
  have hT : isnan SMALL_DIVISION_THRESHOLD = false := by decide
  simp only [smallDenominator, APFloat.scan, scanFloat]
  by_cases hn : isnan v = true
  · have hq : flt (fabs 0x7FC00000) SMALL_DIVISION_THRESHOLD = false := by decide
    simp only [hn, if_true, hq, Bool.false_eq_true, false_iff, not_and]
    intro hfin
    unfold isnan at hn
    simp at hn
    exact absurd hn.1 hfin
  · have hn' : isnan v = false := by simpa using hn
    simp only [hn', Bool.false_eq_true, if_false, flt, isnan_fabs, hT, scaled_fabs,
      scaled_SMALL_DIVISION_THRESHOLD, Bool.not_false, Bool.true_and, decide_eq_true_eq,
      Nat.cast_lt]
    constructor
    · intro h
      refine ⟨?_, h⟩
      intro h255
      have := magnitude_ge_of_exp_ge v 255 (by omega) (by omega)
      have c : (8589935 : Nat) * 2 ^ 116 < 2 ^ (255 + 22) := by norm_num
      omega
    · exact fun h => h.2

/-! ## The division rule -/

/-- A pattern from that of `0.001f` on, sign apart, is not below `0.001f`. -/
theorem not_small_of_pattern_ge (s x : Nat) (hx : x < 2 ^ 31)
    (h : SMALL_DIVISION_THRESHOLD ≤ x) :
    flt (fabs (s * 2 ^ 31 + x)) SMALL_DIVISION_THRESHOLD = false := by
  unfold SMALL_DIVISION_THRESHOLD at h
  have he := expField_eq x
  have hm := mantField_eq x
  have hmag : 8589935 * 2 ^ 116 ≤ magnitude x := by
    by_cases h117 : expField x = 117
    · rw [magnitude_of_exp_pos x (by omega), h117]
      exact Nat.mul_le_mul_right _ (by omega)
    · have := magnitude_ge_of_exp_ge x 118 (by omega) (by omega)
      have c : (8589935 : Nat) * 2 ^ 116 ≤ 2 ^ (118 + 22) := by norm_num
      omega
  have hf : fabs (s * 2 ^ 31 + x) = x := by
    rw [fabs_eq]; omega
  rw [hf]
  unfold flt
  rw [Bool.and_eq_false_iff]
  right
  rw [decide_eq_false_iff_not, scaled_SMALL_DIVISION_THRESHOLD]
  unfold scaled
  have hsb : signBit x = 0 := by rw [signBit_eq]; omega
  rw [if_neg (by omega)]
  push_cast
  omega

/-- A binary64 value of at least one thousandth is printed and scanned as a
binary32 value of at least `0.001f`. -/
theorem scanMagnitude_double_ge (sig : Nat) (exp : Int) (hsig : sig ≠ 0)
    (hV : (1 : ℚ) / 1000 ≤ sig * 2 ^ exp) :
    SMALL_DIVISION_THRESHOLD ≤ scanMagnitude 53 sig exp := by
  have hL := toStringValue_lower 53 sig exp hsig
  have e1 : 2 + 53 * 59 / 196 = 17 := by norm_num
  have e2 : (17 * 196 + 58) / 59 = 57 := by norm_num
  rw [e1, e2] at hL
  unfold scanMagnitude
  simp only
  generalize toStringValue 53 sig exp = text at hL ⊢
  obtain ⟨M, E⟩ := text
  simp only at hL ⊢
  have hD : (999999999 : ℚ) / 10 ^ 12 ≤ (M : ℚ) * 10 ^ E := by
    have hc : (0 : ℚ) ≤ ((2 : ℚ) ^ 57 - 2) * ((10 : ℚ) ^ 17 - 10) := by norm_num
    have h1 : (1 : ℚ) / 1000 * (((2 : ℚ) ^ 57 - 2) * ((10 : ℚ) ^ 17 - 10)) ≤
        (sig : ℚ) * 2 ^ exp * (((2 : ℚ) ^ 57 - 2) * ((10 : ℚ) ^ 17 - 10)) :=
      mul_le_mul_of_nonneg_right hV hc
    have h2 : (sig : ℚ) * 2 ^ exp * (((2 : ℚ) ^ 57 - 2) * ((10 : ℚ) ^ 17 - 10)) ≤
        (M : ℚ) * 10 ^ E * (2 ^ 57 * 10 ^ 17) := by
      calc (sig : ℚ) * 2 ^ exp * (((2 : ℚ) ^ 57 - 2) * ((10 : ℚ) ^ 17 - 10))
          = (sig : ℚ) * 2 ^ exp * ((2 : ℚ) ^ 57 - 2) * ((10 : ℚ) ^ 17 - 10) := by ring
        _ ≤ _ := hL
    have h3 := le_trans h1 h2
    have hpos : (0 : ℚ) < 2 ^ 57 * 10 ^ 17 := by positivity
    have h4 : (999999999 : ℚ) / 10 ^ 12 * (2 ^ 57 * 10 ^ 17) ≤
        (1 : ℚ) / 1000 * (((2 : ℚ) ^ 57 - 2) * ((10 : ℚ) ^ 17 - 10)) := by norm_num
    exact le_of_mul_le_mul_right (le_trans h4 h3) hpos
  by_cases hE : 0 ≤ E
  · rw [if_pos hE]
    apply strtof_ge_threshold _ _ (by norm_num)
    have hcast : ((M * 10 ^ E.toNat : Nat) : ℚ) = (M : ℚ) * 10 ^ E := by
      push_cast
      rw [← zpow_natCast, Int.toNat_of_nonneg hE]
    rw [← hcast, div_le_iff₀ (by positivity)] at hD
    have : ((999999999 * 1 : Nat) : ℚ) ≤ ((10 ^ 12 * (M * 10 ^ E.toNat) : Nat) : ℚ) := by
      push_cast
      push_cast at hD
      linarith
    exact Nat.cast_le.1 this
  · rw [if_neg hE]
    apply strtof_ge_threshold _ _ (by positivity)
    have hneg : ((-E).toNat : Int) = -E := Int.toNat_of_nonneg (by omega)
    generalize (-E).toNat = k at hneg ⊢
    have hE2 : E = -(k : Int) := by omega
    rw [hE2, zpow_neg, zpow_natCast, div_le_iff₀ (by positivity)] at hD
    have hk : (0 : ℚ) < 10 ^ k := by positivity
    have h5 : (999999999 : ℚ) * 10 ^ k ≤ 10 ^ 12 * M := by
      have := mul_le_mul_of_nonneg_right hD (le_of_lt hk)
      have e : (M : ℚ) * (10 ^ k)⁻¹ * 10 ^ 12 * 10 ^ k = 10 ^ 12 * M := by
        field_simp
        ring
      linarith
    have : ((999999999 * 10 ^ k : Nat) : ℚ) ≤ ((10 ^ 12 * M : Nat) : ℚ) := by
      push_cast
      exact h5
    exact Nat.cast_le.1 this

theorem magnitudeD_of_exp_pos (v : Nat) (he : expFieldD v ≠ 0) :
    magnitudeD v = (2 ^ 52 + mantFieldD v) * 2 ^ (expFieldD v - 1) := by
  unfold magnitudeD
  rw [if_neg he]

theorem magnitudeD_of_exp_zero (v : Nat) (he : expFieldD v = 0) :
    magnitudeD v = mantFieldD v := by
  unfold magnitudeD
  rw [if_pos he]

theorem mantFieldD_lt (v : Nat) : mantFieldD v < 2 ^ 52 := Nat.mod_lt _ (by positivity)

theorem expFieldD_lt (v : Nat) : expFieldD v < 2048 := Nat.mod_lt _ (by norm_num)

theorem signBitD_lt (v : Nat) : signBitD v < 2 := Nat.mod_lt _ (by norm_num)

theorem abs_toRatD (v : Nat) : |toRatD v| = (magnitudeD v : ℚ) / 2 ^ 1074 := by
  unfold toRatD
  rw [abs_div, abs_of_pos (by positivity : (0 : ℚ) < 2 ^ 1074)]
  congr 1
  unfold scaledD
  split
  · rw [← Int.cast_abs, abs_neg, Int.cast_abs]
    simp
  · rw [← Int.cast_abs]
    simp

theorem abs_toRatD_lt_iff (v : Nat) :
    |toRatD v| < (1 : ℚ) / 1000 ↔ 1000 * magnitudeD v < 2 ^ 1074 := by
  rw [abs_toRatD, div_lt_iff₀ (by positivity)]
  have h1 : (1 : ℚ) / 1000 * 2 ^ 1074 = ((2 ^ 1074 : Nat) : ℚ) / 1000 := by norm_num
  rw [h1, lt_div_iff₀ (by norm_num)]
  have h2 : ((magnitudeD v : Nat) : ℚ) * 1000 = ((1000 * magnitudeD v : Nat) : ℚ) := by
    push_cast; ring
  rw [h2, Nat.cast_lt]

/-- The small-denominator rule applies to a literal of type `double` only
when it is finite and of magnitude below one thousandth. -/
theorem smallDenominator_double (bits : Nat)
    (h : smallDenominator (.FloatingLiteral (.IEEEdouble bits)) = true) :
    (APFloat.IEEEdouble bits).isFinite = true ∧
      |(APFloat.IEEEdouble bits).toRat| < (1 : ℚ) / 1000 := by
  have hm := mantFieldD_lt bits
  have hs := signBitD_lt bits
  simp only [smallDenominator, APFloat.scan, scanDouble] at h
  simp only [APFloat.isFinite, APFloat.toRat]
  by_cases he : expFieldD bits = 2047
  · exfalso
    rw [if_pos he] at h
    by_cases hm0 : mantFieldD bits = 0
    · rw [if_pos hm0] at h
      simp only at h
      rw [not_small_of_pattern_ge _ _ (by norm_num) (by decide)] at h
      exact absurd h (by simp)
    · rw [if_neg hm0] at h
      simp only at h
      have : flt (fabs 0x7FC00000) SMALL_DIVISION_THRESHOLD = false := by decide
      rw [this] at h
      exact absurd h (by simp)
  · refine ⟨by simp [he], ?_⟩
    by_contra hc
    rw [abs_toRatD_lt_iff, not_lt] at hc
    rw [if_neg he] at h
    have he0 : expFieldD bits ≠ 0 := by
      intro h0
      rw [magnitudeD_of_exp_zero bits h0] at hc
      have c : (1000 : Nat) * 2 ^ 52 < 2 ^ 1074 := by norm_num
      omega
    rw [if_neg he0] at h
    simp only at h
    have hge : SMALL_DIVISION_THRESHOLD ≤
        scanMagnitude 53 (2 ^ 52 + mantFieldD bits) ((expFieldD bits : Int) - 1075) := by
      apply scanMagnitude_double_ge _ _ (by positivity)
      rw [magnitudeD_of_exp_pos bits he0] at hc
      have hW : (0 : ℚ) < 2 ^ 1074 := by positivity
      have hq : (((2 : Nat) ^ 1074 : Nat) : ℚ) ≤
          ((1000 * ((2 ^ 52 + mantFieldD bits) * 2 ^ (expFieldD bits - 1)) : Nat) : ℚ) :=
        Nat.cast_le.2 hc
      rw [Nat.cast_pow, Nat.cast_mul, Nat.cast_mul, Nat.cast_pow] at hq
      have hz : (2 : ℚ) ^ ((expFieldD bits : Int) - 1075) =
          2 ^ (expFieldD bits - 1) / 2 ^ 1074 := by
        have : ((expFieldD bits : Int) - 1075) =
            ((expFieldD bits - 1 : Nat) : Int) - ((1074 : Nat) : Int) := by
          omega
        rw [this, zpow_sub₀ (by norm_num), zpow_natCast, zpow_natCast]
      rw [hz, div_le_iff₀ (by norm_num)]
      have e : ((2 ^ 52 + mantFieldD bits : Nat) : ℚ) *
          (2 ^ (expFieldD bits - 1) / 2 ^ 1074) * 1000 =
          ((1000 : Nat) : ℚ) * (((2 ^ 52 + mantFieldD bits : Nat) : ℚ) *
            ((2 : Nat) : ℚ) ^ (expFieldD bits - 1)) / 2 ^ 1074 := by
        push_cast
        ring
      rw [e, le_div_iff₀ hW, one_mul]
      exact_mod_cast hq
    have hlt : scanMagnitude 53 (2 ^ 52 + mantFieldD bits) ((expFieldD bits : Int) - 1075) <
        2 ^ 31 := by
      unfold scanMagnitude
      simp only
      split <;> exact strtof_lt _ _
    rw [not_small_of_pattern_ge _ _ hlt hge] at h
    exact absurd h (by simp)

/-- The small-denominator rule applies only to a literal of magnitude below
one thousandth. -/
theorem smallDenominator_elim (E : Expr) (h : smallDenominator E = true) :
    ∃ v, E = .FloatingLiteral v ∧ v.isFinite = true ∧ |v.toRat| < (1 : ℚ) / 1000 := by
  cases E with
  | FloatingLiteral v =>
    cases v with
    | IEEEsingle bits =>
      exact ⟨_, rfl, (smallDenominator_iff bits).1 h⟩
    | IEEEdouble bits =>
      exact ⟨_, rfl, smallDenominator_double bits h⟩
  | _ => simp [smallDenominator] at h

/-- Stripping parentheses and casts first does not change the classifier. -/
theorem canDemoteFloatExpr_strip : ∀ (E : Expr) (Reason : String),
    canDemoteFloatExpr (IgnoreParenCasts E) Reason = canDemoteFloatExpr E Reason
  | .ParenExpr e, Reason => by
    rw [IgnoreParenCasts, canDemoteFloatExpr]; exact canDemoteFloatExpr_strip e Reason
  | .CastExpr e, Reason => by
    rw [IgnoreParenCasts, canDemoteFloatExpr]; exact canDemoteFloatExpr_strip e Reason
  | .FloatingLiteral _, _ => by simp only [IgnoreParenCasts]
  | .DeclRefExpr _, _ => by simp only [IgnoreParenCasts]
  | .BinaryOperator _ _ _, _ => by simp only [IgnoreParenCasts]
  | .UnaryOperator _, _ => by simp only [IgnoreParenCasts]
  | .CallExpr _ _, _ => by simp only [IgnoreParenCasts]
  | .Other, _ => by simp only [IgnoreParenCasts]

/-- The flag returned by the classifier does not depend on the content of
the reason on entry; the reason on exit is either the one on entry or a
string fixed by the expression, and it is the one on entry whenever the
expression is classified SAFE. -/
theorem canDemoteFloatExpr_form : ∀ E : Expr, ∃ (b : Bool) (w : Option String),
    (∀ Reason, canDemoteFloatExpr E Reason = (b, w.getD Reason)) ∧ (b = true → w = none)
  | .ParenExpr e => by
    obtain ⟨b, w, h1, h2⟩ := canDemoteFloatExpr_form e
    exact ⟨b, w, fun r => by rw [canDemoteFloatExpr]; exact h1 r, h2⟩
  | .CastExpr e => by
    obtain ⟨b, w, h1, h2⟩ := canDemoteFloatExpr_form e
    exact ⟨b, w, fun r => by rw [canDemoteFloatExpr]; exact h1 r, h2⟩
  | .UnaryOperator e => by
    obtain ⟨b, w, h1, h2⟩ := canDemoteFloatExpr_form e
    exact ⟨b, w, fun r => by rw [canDemoteFloatExpr]; exact h1 r, h2⟩
  | .FloatingLiteral v => by
    obtain ⟨x, hx⟩ := scanHalf_total v.convert.1
    by_cases h1 : isValueInFp16Range x = false
    · exact ⟨false, some "literal value out of __fp16 range",
        fun r => by rw [canDemoteFloatExpr_literal v r x hx, if_pos h1]; rfl, by simp⟩
    · by_cases h2 : v.convert.2 = true
      · exact ⟨false, some "literal value loses precision when converted to __fp16",
          fun r => by rw [canDemoteFloatExpr_literal v r x hx, if_neg h1, if_pos h2]; rfl,
          by simp⟩
      · exact ⟨true, none,
          fun r => by rw [canDemoteFloatExpr_literal v r x hx, if_neg h1, if_neg h2]; rfl,
          by simp⟩
  | .DeclRefExpr (some T) => ⟨canDemoteType T, none, fun r => by simp [canDemoteFloatExpr], by simp⟩
  | .DeclRefExpr none => ⟨false, none, fun r => by simp [canDemoteFloatExpr], by simp⟩
  | .CallExpr _ _ => ⟨false, some "used in function call",
      fun r => by simp [canDemoteFloatExpr], by simp⟩
  | .Other => ⟨false, some "unsupported expression type for demotion analysis",
      fun r => by simp [canDemoteFloatExpr], by simp⟩
  | .BinaryOperator op L R => by
    obtain ⟨bL, wL, hL1, hL2⟩ := canDemoteFloatExpr_form L
    obtain ⟨bR, wR, hR1, hR2⟩ := canDemoteFloatExpr_form R
    by_cases hd : op = .BO_Div ∧ smallDenominator (IgnoreParenCasts R) = true
    · exact ⟨false, some "division by small number",
        fun r => by rw [canDemoteFloatExpr, if_pos hd]; rfl, by simp⟩
    · refine ⟨bL && bR, wR.orElse (fun _ => wL), fun r => ?_, ?_⟩
      · rw [canDemoteFloatExpr, if_neg hd]
        simp only [hL1, hR1]
        cases wR <;> simp
      · intro h
        simp only [Bool.and_eq_true] at h
        rw [hL2 h.1, hR2 h.2]
        rfl

/-- Claim C5, as the code has it: the small-denominator test is made on the
binary32 value scanned from the decimal text of the literal.  A division
whose right operand, stripped of parentheses and casts, is a literal of type
`float` of magnitude below one thousandth (zero included) is classified
UNSAFE with the reason `division by small number`, whatever the operands are
and whatever reason they report.  For a literal of any type the same holds
whenever the scanned value is below `0.001f`, and that happens only for a
finite literal of magnitude below one thousandth. -/
theorem division_by_small_number (E L R : Expr) (Reason : String) (Val : APFloat)
    (hE : IgnoreParenCasts E = .BinaryOperator .BO_Div L R)
    (hR : IgnoreParenCasts R = .FloatingLiteral Val) :
    (∀ v, Val = .IEEEsingle v → isFinite v = true → |toRat v| < (1 : ℚ) / 1000 →
      canDemoteFloatExpr E Reason = (false, "division by small number")) ∧
    (∀ FloatVal, Val.scan = some FloatVal →
      flt (fabs FloatVal) SMALL_DIVISION_THRESHOLD = true →
      canDemoteFloatExpr E Reason = (false, "division by small number")) ∧
    (∀ FloatVal, Val.scan = some FloatVal →
      flt (fabs FloatVal) SMALL_DIVISION_THRESHOLD = true →
      Val.isFinite = true ∧ |Val.toRat| < (1 : ℚ) / 1000) := by
  have hfire : smallDenominator (IgnoreParenCasts R) = true →
      canDemoteFloatExpr E Reason = (false, "division by small number") := by
    intro h
    rw [← canDemoteFloatExpr_strip, hE, canDemoteFloatExpr, if_pos ⟨rfl, h⟩]
  refine ⟨?_, ?_, ?_⟩
  · intro v hv hfin hlt
    apply hfire
    rw [hR, hv]
    exact (smallDenominator_iff v).2 ⟨hfin, hlt⟩
  · intro FloatVal hscan hsmall
    apply hfire
    rw [hR]
    simp only [smallDenominator, hscan, hsmall]
  · intro FloatVal hscan hsmall
    have h : smallDenominator (.FloatingLiteral Val) = true := by
      simp only [smallDenominator, hscan, hsmall]
    obtain ⟨v, hv, hfin, hlt⟩ := smallDenominator_elim _ h
    cases hv
    exact ⟨hfin, hlt⟩

/-- Witness of `division_by_small_number` at `(1.0f / (0.0001f))`. -/
theorem division_by_small_number_witness :
    canDemoteFloatExpr
      (.ParenExpr (.BinaryOperator .BO_Div (.FloatingLiteral (.IEEEsingle 0x3F800000))
        (.ParenExpr (.FloatingLiteral (.IEEEsingle 0x38D1B717))))) "" =
      (false, "division by small number") :=
  (division_by_small_number
    (.ParenExpr (.BinaryOperator .BO_Div (.FloatingLiteral (.IEEEsingle 0x3F800000))
      (.ParenExpr (.FloatingLiteral (.IEEEsingle 0x38D1B717)))))
    (.FloatingLiteral (.IEEEsingle 0x3F800000))
    (.ParenExpr (.FloatingLiteral (.IEEEsingle 0x38D1B717))) "" (.IEEEsingle 0x38D1B717)
    rfl rfl).1 0x38D1B717 rfl (by decide) ((abs_toRat_lt_iff _).2 (by decide))

/-- Counterexample to claim C5 as stated: the literal `0.000999999999`, of
type `double`, is finite and below one thousandth.  Its text is
`9.9999999900000002E-4`, which is scanned as `0.001f`, so the rule does not
apply: `1.0f / 0.000999999999` is classified UNSAFE with the reason of its
right operand. -/
theorem division_by_double_not_caught :
    (APFloat.IEEEdouble 0x3F50624DD2AB4B96).isFinite = true ∧
    |(APFloat.IEEEdouble 0x3F50624DD2AB4B96).toRat| < (1 : ℚ) / 1000 ∧
    toStringValue 53 (2 ^ 52 + 0x0624DD2AB4B96) (1013 - 1075) = (99999999900000002, -20) ∧
    (APFloat.IEEEdouble 0x3F50624DD2AB4B96).scan = some SMALL_DIVISION_THRESHOLD ∧
    canDemoteFloatExpr
      (.BinaryOperator .BO_Div (.FloatingLiteral (.IEEEsingle 0x3F800000))
        (.FloatingLiteral (.IEEEdouble 0x3F50624DD2AB4B96))) "" =
      (false, "literal value loses precision when converted to __fp16") := by
  refine ⟨by decide, ?_, by decide!, by decide!, by decide!⟩
  exact (abs_toRatD_lt_iff _).2 (by decide!)

/-- A declaration outside the main file, of a type that is not demotable, or
already processed leaves the state unchanged. -/
theorem VisitVarDecl_skip (st : VisitorState) (VD : VarDecl)
    (h : VD.inMainFile = false ∨ canDemoteType VD.type = false ∨ VD.id ∈ st.ProcessedDecls) :
    VisitVarDecl st VD = st := by
  unfold VisitVarDecl
  rcases h with h | h | h
  · simp [h]
  · simp [h]
  · simp [h]

/-- Effect of `VisitVarDecl` on a processed declaration whose initializer is
classified UNSAFE. -/
theorem VisitVarDecl_rejected (st : VisitorState) (VD : VarDecl) (Init : Expr)
    (h1 : VD.inMainFile = true) (h2 : canDemoteType VD.type = true)
    (h3 : VD.id ∉ st.ProcessedDecls) (hi : VD.init = some Init)
    (hu : (canDemoteFloatExpr Init "").1 = false) :
    VisitVarDecl st VD =
      { st with
        ProcessedDecls := VD.id :: st.ProcessedDecls
        memoryStats :=
          { st.memoryStats with
            originalBytes := st.memoryStats.originalBytes + 4
            floatVarCount := st.memoryStats.floatVarCount + 1
            demotedBytes := st.memoryStats.demotedBytes + 4 }
        diagnostics := st.diagnostics ++ [Diagnostic.demotionFailure VD.name (declReason Init)] } := by
  unfold VisitVarDecl declReason
  simp [h1, h2, h3, hi, hu]

/-- Effect of `VisitVarDecl` on a processed declaration that has no
initializer or whose initializer is classified SAFE. -/
theorem VisitVarDecl_safe (st : VisitorState) (VD : VarDecl)
    (h1 : VD.inMainFile = true) (h2 : canDemoteType VD.type = true)
    (h3 : VD.id ∉ st.ProcessedDecls) (hs : declIsSafe VD = true) :
    VisitVarDecl st VD =
      let st1 : VisitorState :=
        { st with
          ProcessedDecls := VD.id :: st.ProcessedDecls
          memoryStats :=
            { st.memoryStats with
              originalBytes := st.memoryStats.originalBytes + 4
              floatVarCount := st.memoryStats.floatVarCount + 1
              demotedBytes := st.memoryStats.demotedBytes + 2
              demotedVarCount := st.memoryStats.demotedVarCount + 1 } }
      match VD.typeToken with
      | some (Begin, TokenText) =>
        if TokenText = "float" then
          { st1 with
            Replacements := st.Replacements ++ [Transformation.mk Begin "__fp16" TokenText.length]
            diagnostics := st.diagnostics ++ [Diagnostic.demotionSuccess VD.name] }
        else st1
      | none => st1 := by
  unfold VisitVarDecl
  unfold declIsSafe at hs
  cases hi : VD.init with
  | none => simp [h1, h2, h3]
  | some Init =>
    rw [hi] at hs
    simp only at hs
    simp [h1, h2, h3, hs]

/-- Claim C6: an expression whose stripped form is a call is classified
UNSAFE with the reason `used in function call`, whatever the callee and the
arguments; a declaration initialised by it has its failure reported with
that reason, is not counted as demoted and records no replacement. -/
theorem call_expr_not_demoted (E callee : Expr) (args : List Expr) (Reason : String)
    (hE : IgnoreParenCasts E = .CallExpr callee args) :
    canDemoteFloatExpr E Reason = (false, "used in function call") ∧
    ∀ (st : VisitorState) (VD : VarDecl), VD.init = some E →
      (VisitVarDecl st VD).memoryStats.demotedVarCount = st.memoryStats.demotedVarCount ∧
      (VisitVarDecl st VD).Replacements = st.Replacements ∧
      (VD.inMainFile = true → canDemoteType VD.type = true → VD.id ∉ st.ProcessedDecls →
        (VisitVarDecl st VD).diagnostics =
          st.diagnostics ++ [Diagnostic.demotionFailure VD.name "used in function call"]) := by
  have h1 : ∀ r, canDemoteFloatExpr E r = (false, "used in function call") := by
    intro r
    rw [← canDemoteFloatExpr_strip, hE, canDemoteFloatExpr]
  refine ⟨h1 Reason, fun st VD hinit => ?_⟩
  by_cases hskip : VD.inMainFile = false ∨ canDemoteType VD.type = false ∨ VD.id ∈ st.ProcessedDecls
  · rw [VisitVarDecl_skip st VD hskip]
    refine ⟨rfl, rfl, ?_⟩
    intro a b c
    rcases hskip with h | h | h
    · rw [a] at h; cases h
    · rw [b] at h; cases h
    · exact absurd h c
  · simp only [not_or, Bool.not_eq_false] at hskip
    obtain ⟨a, b, c⟩ := hskip
    rw [VisitVarDecl_rejected st VD E a b c hinit (by rw [h1])]
    refine ⟨rfl, rfl, fun _ _ _ => ?_⟩
    have : declReason E = "used in function call" := by
      unfold declReason
      rw [h1]
      decide
    simp only [this]

/-- Witness of `call_expr_not_demoted` at `float f = sinf(1.0f);`. -/
theorem call_expr_not_demoted_witness :
    canDemoteFloatExpr
      (.CastExpr (.CallExpr (.DeclRefExpr none) [.FloatingLiteral (.IEEEsingle 0x3F800000)])) "" =
      (false, "used in function call") :=
  (call_expr_not_demoted (.CastExpr (.CallExpr (.DeclRefExpr none) [.FloatingLiteral (.IEEEsingle 0x3F800000)]))
    (.DeclRefExpr none) [.FloatingLiteral (.IEEEsingle 0x3F800000)] "" rfl).1

/-- Claim C7: when the small-denominator rule does not apply, a binary
operator is classified SAFE exactly when both operands are; when it is UNSAFE
and an operand, classified alone, reports a reason, the reason reported for
the operator is the reason of an UNSAFE operand. -/
theorem binary_operator_combines (op : BinaryOperatorKind) (L R : Expr) (Reason : String)
    (hno : ¬ (op = .BO_Div ∧ ∃ v, IgnoreParenCasts R = .FloatingLiteral v ∧
      v.isFinite = true ∧ |v.toRat| < (1 : ℚ) / 1000)) :
    ((canDemoteFloatExpr (.BinaryOperator op L R) Reason).1 = true ↔
      (canDemoteFloatExpr L Reason).1 = true ∧ (canDemoteFloatExpr R Reason).1 = true) ∧
    ((canDemoteFloatExpr (.BinaryOperator op L R) Reason).1 = false →
      ((canDemoteFloatExpr L Reason).2 ≠ Reason ∨ (canDemoteFloatExpr R Reason).2 ≠ Reason) →
      ((canDemoteFloatExpr L Reason).1 = false ∧
          (canDemoteFloatExpr (.BinaryOperator op L R) Reason).2 =
            (canDemoteFloatExpr L Reason).2) ∨
        ((canDemoteFloatExpr R Reason).1 = false ∧
          (canDemoteFloatExpr (.BinaryOperator op L R) Reason).2 =
            (canDemoteFloatExpr R Reason).2)) := by
  obtain ⟨bL, wL, hL1, hL2⟩ := canDemoteFloatExpr_form L
  obtain ⟨bR, wR, hR1, hR2⟩ := canDemoteFloatExpr_form R
  have hd : ¬ (op = .BO_Div ∧ smallDenominator (IgnoreParenCasts R) = true) := by
    rintro ⟨h1, h2⟩
    exact hno ⟨h1, smallDenominator_elim _ h2⟩
  have hb : canDemoteFloatExpr (.BinaryOperator op L R) Reason =
      (bL && bR, wR.getD (wL.getD Reason)) := by
    rw [canDemoteFloatExpr, if_neg hd]
    simp only [hL1, hR1]
  rw [hb, hL1, hR1]
  refine ⟨by simp, ?_⟩
  intro _ hrep
  cases wR with
  | some s =>
    right
    refine ⟨?_, rfl⟩
    cases bR
    · rfl
    · simpa using hR2 rfl
  | none =>
    left
    refine ⟨?_, rfl⟩
    cases bL
    · rfl
    · have := hL2 rfl
      subst this
      simp at hrep

/-- Witness of `binary_operator_combines` at `70000.0f / 2.0f`. -/
theorem binary_operator_combines_witness :
    (canDemoteFloatExpr (.BinaryOperator .BO_Div (.FloatingLiteral (.IEEEsingle 0x4788B800))
        (.FloatingLiteral (.IEEEsingle 0x40000000))) "").1 = true ↔
      (canDemoteFloatExpr (.FloatingLiteral (.IEEEsingle 0x4788B800)) "").1 = true ∧
        (canDemoteFloatExpr (.FloatingLiteral (.IEEEsingle 0x40000000)) "").1 = true :=
  (binary_operator_combines .BO_Div (.FloatingLiteral (.IEEEsingle 0x4788B800)) (.FloatingLiteral (.IEEEsingle 0x40000000)) ""
    (by
      rintro ⟨_, v, hv, _, hlt⟩
      simp only [IgnoreParenCasts, Expr.FloatingLiteral.injEq] at hv
      subst hv
      have := (abs_toRat_lt_iff _).1 hlt
      revert this
      decide)).1

/-! ## Variable declarations -/

theorem canDemoteType_iff (T : QualType) :
    canDemoteType T = true ↔
      T.isNull = false ∧ T.isFloat = true ∧ T.isVolatileQualified = false ∧
        T.isAtomicType = false := by
  unfold canDemoteType
  cases T.isNull <;> cases T.isFloat <;> cases T.isVolatileQualified <;>
    cases T.isAtomicType <;> simp

theorem declIsSafe_iff (VD : VarDecl) :
    declIsSafe VD = true ↔
      (VD.init = none ∨ ∃ Init, VD.init = some Init ∧ (canDemoteFloatExpr Init "").1 = true) := by
  unfold declIsSafe
  cases VD.init with
  | none => simp
  | some Init => simp

/-- Claim C8, as the code has it: on the first visit of a declaration of the
main file, `demotedVarCount` is incremented exactly when the type is plain
`float`, neither volatile nor atomic, and the declaration has no initializer
or an initializer classified SAFE.  The replacement of `float` by `__fp16`
is recorded exactly when, in addition, the raw token lexed at the start of
the type specifier is spelled `float`; in every other case, and for every
UNSAFE declaration, the list of replacements is unchanged. -/
theorem VisitVarDecl_safe_iff (st : VisitorState) (VD : VarDecl)
    (hmain : VD.inMainFile = true) (hnew : VD.id ∉ st.ProcessedDecls) :
    ((VisitVarDecl st VD).memoryStats.demotedVarCount = st.memoryStats.demotedVarCount + 1 ↔
      ((VD.type.isNull = false ∧ VD.type.isFloat = true ∧
          VD.type.isVolatileQualified = false ∧ VD.type.isAtomicType = false) ∧
        (VD.init = none ∨
          ∃ Init, VD.init = some Init ∧ (canDemoteFloatExpr Init "").1 = true))) ∧
    (∀ Begin, VD.typeToken = some (Begin, "float") →
      ((VisitVarDecl st VD).Replacements =
          st.Replacements ++ [Transformation.mk Begin "__fp16" 5] ↔
        (VisitVarDecl st VD).memoryStats.demotedVarCount =
          st.memoryStats.demotedVarCount + 1)) ∧
    ((¬ ∃ Begin, VD.typeToken = some (Begin, "float")) →
      (VisitVarDecl st VD).Replacements = st.Replacements) ∧
    ((VisitVarDecl st VD).memoryStats.demotedVarCount ≠ st.memoryStats.demotedVarCount + 1 →
      (VisitVarDecl st VD).Replacements = st.Replacements ∧
      (VisitVarDecl st VD).memoryStats.demotedVarCount = st.memoryStats.demotedVarCount) := by
  rw [← canDemoteType_iff, ← declIsSafe_iff]
  by_cases hT : canDemoteType VD.type = true
  · by_cases hS : declIsSafe VD = true
    · have hv := VisitVarDecl_safe st VD hmain hT hnew hS
      rw [hv]
      refine ⟨?_, ?_, ?_, ?_⟩
      · simp only [hT, hS, and_self, iff_true]
        split
        · split <;> rfl
        · rfl
      · intro Begin htok
        rw [htok]
        simp only [if_true]
        have : "float".length = 5 := by decide
        simp [this]
      · intro hno
        split
        · rename_i Begin TokenText htok
          by_cases ht : TokenText = "float"
          · exact absurd ⟨Begin, by rw [htok, ht]⟩ hno
          · rw [if_neg ht]
        · rfl
      · intro hne
        exfalso
        apply hne
        split
        · split <;> rfl
        · rfl
    · have hS' : declIsSafe VD = false := by simpa using hS
      unfold declIsSafe at hS'
      cases hi : VD.init with
      | none => rw [hi] at hS'; simp at hS'
      | some Init =>
        rw [hi] at hS'
        simp only at hS'
        rw [VisitVarDecl_rejected st VD Init hmain hT hnew hi hS']
        simp [hS]
  · have hT' : canDemoteType VD.type = false := by simpa using hT
    rw [VisitVarDecl_skip st VD (Or.inr (Or.inl hT'))]
    simp [hT]

/-- Witness of `VisitVarDecl_safe_iff` at the uninitialized `float x;`. -/
theorem VisitVarDecl_safe_iff_witness :
    (VisitVarDecl {} ⟨7, true, ⟨false, true, false, false⟩, none, "x", some (12, "float")⟩).Replacements =
      [] ++ [Transformation.mk 12 "__fp16" 5] :=
  ((VisitVarDecl_safe_iff {} ⟨7, true, ⟨false, true, false, false⟩, none, "x", some (12, "float")⟩
    rfl (by decide)).2.1 12 rfl).2 (by decide)

/-- Counterexample to claim C8 as stated: a declaration of the main file
whose type is `float` through a typedef name `real`, not volatile, not
atomic and without initializer, is counted as demoted, and no replacement is
recorded for it. -/
theorem VisitVarDecl_typedef_no_replacement :
    (VisitVarDecl {} ⟨7, true, ⟨false, true, false, false⟩, none, "x", some (12, "real")⟩).memoryStats.demotedVarCount
      = 1 ∧
    (VisitVarDecl {} ⟨7, true, ⟨false, true, false, false⟩, none, "x", some (12, "real")⟩).Replacements
      = [] := by
  decide

/-! ## Counters -/

/-- Function `simulate_fp16` returns on every argument. -/
theorem simulate_fp16_total (v : Nat) : ∃ r, simulate_fp16 v = some r := by
  have h : simulate_fp16 v = simulate_fp16 (v % 2 ^ 32) := by
    unfold simulate_fp16
    rw [Nat.mod_mod]
  rw [h, simulate_fp16_eq _ (Nat.mod_lt _ (by positivity))]
  exact ⟨_, rfl⟩

theorem VisitVarDecl_invariant (st : VisitorState) (VD : VarDecl)
    (h : CounterInvariant st.memoryStats) : CounterInvariant (VisitVarDecl st VD).memoryStats := by
  by_cases hskip : VD.inMainFile = false ∨ canDemoteType VD.type = false ∨ VD.id ∈ st.ProcessedDecls
  · rw [VisitVarDecl_skip st VD hskip]; exact h
  · simp only [not_or, Bool.not_eq_false] at hskip
    obtain ⟨a, b, c⟩ := hskip
    unfold CounterInvariant at h ⊢
    by_cases hS : declIsSafe VD = true
    · rw [VisitVarDecl_safe st VD a b c hS]
      simp only
      split
      · split <;> (simp only; omega)
      · simp only; omega
    · have hS' : declIsSafe VD = false := by simpa using hS
      unfold declIsSafe at hS'
      cases hi : VD.init with
      | none => rw [hi] at hS'; simp at hS'
      | some Init =>
        rw [hi] at hS'
        simp only at hS'
        rw [VisitVarDecl_rejected st VD Init a b c hi hS']
        simp only
        omega

theorem VisitFloatingLiteral_invariant (fixed8 : Nat → String) (st : VisitorState)
    (F : FloatingLiteral) (h : CounterInvariant st.memoryStats) :
    ∃ st', VisitFloatingLiteral fixed8 st F = some st' ∧ CounterInvariant st'.memoryStats := by
  unfold VisitFloatingLiteral
  by_cases hmain : F.inMainFile = true
  · obtain ⟨r, hr⟩ := simulate_fp16_total F.Val.toFloat
    simp only [hmain, Bool.not_true, Bool.false_eq_true, if_false, hr, Option.map_some']
    refine ⟨_, rfl, ?_⟩
    unfold CounterInvariant at h ⊢
    split
    · simp only
      split
      · split <;> (simp only; omega)
      · simp only; omega
    · simp only; omega
  · simp only [hmain, Bool.not_false, if_true]
    exact ⟨st, by simp, h⟩

theorem traverse_invariant (fixed8 : Nat → String) (events : List VisitEvent) :
    ∀ st : VisitorState, CounterInvariant st.memoryStats →
      ∃ st', traverse fixed8 st events = some st' ∧ CounterInvariant st'.memoryStats := by
  induction events with
  | nil => intro st h; exact ⟨st, rfl, h⟩
  | cons e es ih =>
    intro st h
    cases e with
    | varDecl VD =>
      obtain ⟨st', h1, h2⟩ := ih (VisitVarDecl st VD) (VisitVarDecl_invariant st VD h)
      exact ⟨st', by simp [traverse, visit, h1], h2⟩
    | floatingLiteral F =>
      obtain ⟨st1, h1, h2⟩ := VisitFloatingLiteral_invariant fixed8 st F h
      obtain ⟨st', h3, h4⟩ := ih st1 h2
      exact ⟨st', by simp [traverse, visit, h1, h3], h4⟩

/-- Claim C9: from zeroed counters, every sequence of calls of `VisitVarDecl`
and `VisitFloatingLiteral` runs to a state whose counters satisfy
`demotedVarCount ≤ floatVarCount`, `demotedLiteralCount ≤ floatLiteralCount`,
`originalBytes = 4 * (floatVarCount + floatLiteralCount)` and
`demotedBytes = 2 * demoted + 4 * (total - demoted)`; hence
`demotedBytes ≤ originalBytes` and the difference does not underflow. -/
theorem counter_invariant (fixed8 : Nat → String) (events : List VisitEvent) :
    ∃ st, traverse fixed8 {} events = some st ∧
      st.memoryStats.demotedVarCount ≤ st.memoryStats.floatVarCount ∧
      st.memoryStats.demotedLiteralCount ≤ st.memoryStats.floatLiteralCount ∧
      st.memoryStats.originalBytes =
        4 * (st.memoryStats.floatVarCount + st.memoryStats.floatLiteralCount) ∧
      st.memoryStats.demotedBytes =
        2 * (st.memoryStats.demotedVarCount + st.memoryStats.demotedLiteralCount) +
          4 * ((st.memoryStats.floatVarCount + st.memoryStats.floatLiteralCount) -
            (st.memoryStats.demotedVarCount + st.memoryStats.demotedLiteralCount)) ∧
      st.memoryStats.demotedBytes ≤ st.memoryStats.originalBytes := by
  have h0 : CounterInvariant ({} : VisitorState).memoryStats := by
    unfold CounterInvariant
    decide
  obtain ⟨st, h1, h2, h3, h4, h5⟩ := traverse_invariant fixed8 events {} h0
  exact ⟨st, h1, h2, h3, h4, h5, by omega⟩

/-! ## Rewrite fidelity -/

theorem substituteFrom_append_last (fileStart : Nat) (X : List Char) (d : Transformation) :
    ∀ (A : List Transformation) (pos : Nat),
      (∀ a ∈ A, a.offset fileStart ≤ d.offset fileStart) →
      substituteFrom fileStart X pos (A ++ [d]) =
        substituteFrom fileStart (X.take (d.offset fileStart)) pos A ++
          d.ReplacementText.toList ++ X.drop (d.offset fileStart + d.OriginalLength) := by
  intro A
  induction A with
  | nil =>
    intro pos _
    simp only [List.nil_append, substituteFrom, List.drop_take]
  | cons a A ih =>
    intro pos h
    have ha : a.offset fileStart ≤ d.offset fileStart := h a (List.mem_cons_self _ _)
    have hA : ∀ x ∈ A, x.offset fileStart ≤ d.offset fileStart :=
      fun x hx => h x (List.mem_cons_of_mem _ hx)
    rw [List.cons_append, substituteFrom, substituteFrom, ih _ hA, List.drop_take,
      List.take_take]
    have : min (a.offset fileStart - pos) (d.offset fileStart - pos) = a.offset fileStart - pos := by
      omega
    rw [this]
    simp only [List.append_assoc]

theorem take_drop_append_drop (C : List Char) (k p : Nat) (h : k ≤ p) (hp : p ≤ C.length) :
    (C.take p).drop k ++ C.drop p = C.drop k := by
  have hl : (C.take p).length = p := by rw [List.length_take]; omega
  conv_rhs => rw [← List.take_append_drop p C]
  rw [List.drop_append_of_le_length (by omega)]

/-- Applying transformations in descending, pairwise separated order to a
buffer rewrites the part of the buffer below `p` as the walk does. -/
theorem foldl_applyTransformation (fileStart : Nat) :
    ∀ (D : List Transformation) (C : List Char) (p : Nat),
      (∀ d ∈ D, d.Loc ≠ 0 ∧ 1 ≤ d.OriginalLength ∧
        d.offset fileStart + d.OriginalLength ≤ p) →
      p ≤ C.length →
      D.Pairwise (fun d d' => d'.offset fileStart + d'.OriginalLength ≤ d.offset fileStart) →
      D.foldl (applyTransformation fileStart) C =
        substituteFrom fileStart (C.take p) 0 D.reverse ++ C.drop p := by
  intro D
  induction D with
  | nil =>
    intro C p _ _ _
    simp [substituteFrom]
  | cons d D ih =>
    intro C p hall hp hpw
    obtain ⟨hloc, hlen, hend⟩ := hall d (List.mem_cons_self _ _)
    rw [List.pairwise_cons] at hpw
    obtain ⟨hd, hpw'⟩ := hpw
    have happly : applyTransformation fileStart C d =
        C.take (d.offset fileStart) ++ d.ReplacementText.toList ++
          C.drop (d.offset fileStart + d.OriginalLength) := by
      unfold applyTransformation stringReplace
      rw [if_neg hloc]
      simp only
      rw [if_pos]
      · rfl
      · unfold Transformation.offset at hend
        omega
    rw [List.foldl_cons, happly]
    have hlen' : d.offset fileStart ≤ C.length := by omega
    have hall' : ∀ x ∈ D, x.Loc ≠ 0 ∧ 1 ≤ x.OriginalLength ∧
        x.offset fileStart + x.OriginalLength ≤ d.offset fileStart := by
      intro x hx
      obtain ⟨a, b, _⟩ := hall x (List.mem_cons_of_mem _ hx)
      exact ⟨a, b, hd x hx⟩
    have htl : (C.take (d.offset fileStart)).length = d.offset fileStart := by
      rw [List.length_take]; omega
    have e1 : (C.take (d.offset fileStart) ++ d.ReplacementText.toList ++
        C.drop (d.offset fileStart + d.OriginalLength)).take (d.offset fileStart) =
        C.take (d.offset fileStart) := by
      rw [List.append_assoc, List.take_append_of_le_length (by omega), List.take_take, min_self]
    have e2 : (C.take (d.offset fileStart) ++ d.ReplacementText.toList ++
        C.drop (d.offset fileStart + d.OriginalLength)).drop (d.offset fileStart) =
        d.ReplacementText.toList ++ C.drop (d.offset fileStart + d.OriginalLength) := by
      rw [List.append_assoc, List.drop_append_of_le_length (by omega),
        List.drop_eq_nil_of_le (by omega), List.nil_append]
    rw [ih _ (d.offset fileStart) hall' (by simp only [List.length_append, htl]; omega) hpw',
      e1, e2]
    rw [List.reverse_cons, substituteFrom_append_last]
    · rw [List.take_take, min_eq_left (by omega)]
      simp only [List.append_assoc]
      rw [take_drop_append_drop C _ p hend hp]
    · intro a ha
      have := hd a (List.mem_reverse.1 ha)
      omega

/-- Claim C10, as the code has it: for replacements at valid locations of
the main file, each replacing at least one byte and lying within the buffer,
no two of them overlapping, sorting by descending offset and applying them
in that order to a copy of the buffer yields the bytes of the simultaneous
substitution against the original offsets.  The original buffer is only
read. -/
theorem writeDemotedCode_eq_simultaneous (fileStart : Nat) (B : List Char)
    (R : List Transformation)
    (hloc : ∀ r ∈ R, r.Loc ≠ 0 ∧ fileStart ≤ r.Loc)
    (hlen : ∀ r ∈ R, 1 ≤ r.OriginalLength)
    (hin : ∀ r ∈ R, r.offset fileStart + r.OriginalLength ≤ B.length)
    (hdisj : R.Pairwise (NonOverlapping fileStart)) :
    writeDemotedCode fileStart B R = simultaneousSubstitution fileStart B R := by
  haveI : IsTotal Transformation (fun a b => ¬ Transformation.lt b a) :=
    ⟨fun a b => by unfold Transformation.lt; omega⟩
  haveI : IsTrans Transformation (fun a b => ¬ Transformation.lt b a) :=
    ⟨fun a b c => by unfold Transformation.lt; omega⟩
  haveI : IsTotal Transformation (fun a b => a.offset fileStart ≤ b.offset fileStart) :=
    ⟨fun a b => by omega⟩
  haveI : IsTrans Transformation (fun a b => a.offset fileStart ≤ b.offset fileStart) :=
    ⟨fun a b c => by omega⟩
  haveI : IsAntisymm Transformation (fun a b => a.offset fileStart < b.offset fileStart) :=
    ⟨fun a b h1 h2 => absurd h1 (by omega)⟩
  have hsymm : ∀ {x y : Transformation}, NonOverlapping fileStart x y → NonOverlapping fileStart y x :=
    fun h => Or.symm h
  -- the descending sort
  have hpermD : List.Perm (sortReplacements R) R := List.perm_insertionSort _ R
  have hsortD : (sortReplacements R).Pairwise (fun a b => ¬ Transformation.lt b a) :=
    List.sorted_insertionSort _ R
  have hdisjD : (sortReplacements R).Pairwise (NonOverlapping fileStart) :=
    (List.Perm.pairwise_iff hsymm hpermD).2 hdisj
  have hsep : (sortReplacements R).Pairwise
      (fun d d' => d'.offset fileStart + d'.OriginalLength ≤ d.offset fileStart) := by
    refine List.Pairwise.imp_of_mem ?_ (hsortD.and hdisjD)
    intro a b ha hb h
    obtain ⟨h1, h2⟩ := h
    have la := hlen a (hpermD.mem_iff.1 ha)
    have ua := (hloc a (hpermD.mem_iff.1 ha)).2
    have ub := (hloc b (hpermD.mem_iff.1 hb)).2
    unfold Transformation.lt at h1
    unfold NonOverlapping Transformation.offset getFileOffset at h2
    unfold Transformation.offset getFileOffset
    omega
  have hallD : ∀ d ∈ sortReplacements R, d.Loc ≠ 0 ∧ 1 ≤ d.OriginalLength ∧
      d.offset fileStart + d.OriginalLength ≤ B.length := by
    intro d hd
    have hd' := hpermD.mem_iff.1 hd
    exact ⟨(hloc d hd').1, hlen d hd', hin d hd'⟩
  have hfold := foldl_applyTransformation fileStart (sortReplacements R) B B.length hallD
    (Nat.le_refl _) hsep
  rw [List.take_length, List.drop_length, List.append_nil] at hfold
  -- the ascending sort of the simultaneous substitution
  have hpermA : List.Perm
      (List.insertionSort (fun a b => a.offset fileStart ≤ b.offset fileStart) R) R :=
    List.perm_insertionSort _ R
  have hsortA : (List.insertionSort (fun a b => a.offset fileStart ≤ b.offset fileStart) R).Pairwise
      (fun a b => a.offset fileStart ≤ b.offset fileStart) :=
    List.sorted_insertionSort _ R
  have hdisjA : (List.insertionSort (fun a b => a.offset fileStart ≤ b.offset fileStart)
      R).Pairwise (NonOverlapping fileStart) :=
    (List.Perm.pairwise_iff hsymm hpermA).2 hdisj
  have hstrictA : (List.insertionSort (fun a b => a.offset fileStart ≤ b.offset fileStart)
      R).Pairwise (fun a b => a.offset fileStart < b.offset fileStart) := by
    refine List.Pairwise.imp_of_mem ?_ (hsortA.and hdisjA)
    intro a b ha hb h
    obtain ⟨h1, h2⟩ := h
    have la := hlen a (hpermA.mem_iff.1 ha)
    have lb := hlen b (hpermA.mem_iff.1 hb)
    unfold NonOverlapping at h2
    omega
  have hstrictD : (sortReplacements R).reverse.Pairwise
      (fun a b => a.offset fileStart < b.offset fileStart) := by
    rw [List.pairwise_reverse]
    refine List.Pairwise.imp_of_mem ?_ hsep
    intro a b _ hb h
    have lb := hlen b (hpermD.mem_iff.1 hb)
    omega
  have heq : (sortReplacements R).reverse =
      List.insertionSort (fun a b => a.offset fileStart ≤ b.offset fileStart) R :=
    List.eq_of_perm_of_sorted
      ((List.reverse_perm _).trans (hpermD.trans hpermA.symm)) hstrictD hstrictA
  unfold writeDemotedCode simultaneousSubstitution
  rw [hfold, heq]

/-- Witness of `writeDemotedCode_eq_simultaneous` on `float x = 1.0f;`. -/
theorem writeDemotedCode_eq_simultaneous_witness :
    writeDemotedCode 1 "float x = 1.0f;".toList
        [Transformation.mk 11 "__fp16(1.00000000)" 4, Transformation.mk 1 "__fp16" 5] =
      simultaneousSubstitution 1 "float x = 1.0f;".toList
        [Transformation.mk 11 "__fp16(1.00000000)" 4, Transformation.mk 1 "__fp16" 5] :=
  writeDemotedCode_eq_simultaneous 1 "float x = 1.0f;".toList
    [Transformation.mk 11 "__fp16(1.00000000)" 4, Transformation.mk 1 "__fp16" 5]
    (by decide) (by decide) (by decide) (by unfold NonOverlapping; decide)

/-- Counterexample to claim C10 as stated: on the buffer `ab`, the single
replacement of the empty range at offset 2 by `X` lies within the buffer and
overlaps nothing; the simultaneous substitution yields `abX`, while
`writeDemotedCode` skips it, its offset not being below the length, and
yields `ab`. -/
theorem writeDemotedCode_skips_insertion_at_end :
    Transformation.offset 1 (Transformation.mk 3 "X" 0) +
        (Transformation.mk 3 "X" 0).OriginalLength ≤ "ab".toList.length ∧
    simultaneousSubstitution 1 "ab".toList [Transformation.mk 3 "X" 0] = "abX".toList ∧
    writeDemotedCode 1 "ab".toList [Transformation.mk 3 "X" 0] = "ab".toList ∧
    writeDemotedCode 1 "ab".toList [Transformation.mk 3 "X" 0] ≠
      simultaneousSubstitution 1 "ab".toList [Transformation.mk 3 "X" 0] := by
  decide

/-! ## Replacements that share a type specifier -/

/-- Claim C11, the code at the statement `float a, b;`: the two declarations
are distinct, both are SAFE, and both find the same `float` token at the
start of their type specifier.  The visitor records two replacements at the
same location, which overlap, and `writeDemotedCode` applies both, so the
rewritten text starts with `__fp166`. -/
theorem shared_type_specifier_duplicates (fixed8 : Nat → String) :
    Option.map (fun st => st.Replacements)
        (traverse fixed8 {}
          [VisitEvent.varDecl ⟨1, true, ⟨false, true, false, false⟩, none, "a", some (1, "float")⟩,
           VisitEvent.varDecl ⟨2, true, ⟨false, true, false, false⟩, none, "b", some (1, "float")⟩]) =
      some [Transformation.mk 1 "__fp16" 5, Transformation.mk 1 "__fp16" 5] ∧
    ¬ NonOverlapping 1 (Transformation.mk 1 "__fp16" 5) (Transformation.mk 1 "__fp16" 5) ∧
    writeDemotedCode 1 "float a, b;".toList
        [Transformation.mk 1 "__fp16" 5, Transformation.mk 1 "__fp16" 5] =
      "__fp166 a, b;".toList := by
  refine ⟨?_, ?_, ?_⟩
  · rfl
  · unfold NonOverlapping; decide
  · decide

/-! ## Qualified declarations -/

/-- Claim C13, as the code has it: visiting a declaration whose type is
volatile-qualified or atomic changes nothing.  The declaration is not
counted, no byte is accounted, no replacement is recorded and no notice is
emitted. -/
theorem VisitVarDecl_qualified_skipped (st : VisitorState) (VD : VarDecl)
    (h : VD.type.isVolatileQualified = true ∨ VD.type.isAtomicType = true) :
    VisitVarDecl st VD = st := by
  apply VisitVarDecl_skip
  right; left
  cases hc : canDemoteType VD.type
  · rfl
  · have := (canDemoteType_iff VD.type).1 hc
    rcases h with h | h
    · rw [this.2.2.1] at h; cases h
    · rw [this.2.2.2] at h; cases h

/-- Witness of `VisitVarDecl_qualified_skipped` at `volatile float v = 1.0f;`. -/
theorem VisitVarDecl_qualified_skipped_witness :
    VisitVarDecl {} ⟨1, true, ⟨false, true, true, false⟩, some (.FloatingLiteral (.IEEEsingle 0x3F800000)), "v",
      some (10, "float")⟩ = {} :=
  VisitVarDecl_qualified_skipped {} _ (Or.inl rfl)

/-- Counterexample to claim C13 as stated: after the visit of
`volatile float v = 1.0f;` from the empty state, `floatVarCount`,
`originalBytes` and `demotedBytes` are still zero and no failure notice has
been emitted. -/
theorem VisitVarDecl_volatile_not_counted :
    (VisitVarDecl {} ⟨1, true, ⟨false, true, true, false⟩, some (.FloatingLiteral (.IEEEsingle 0x3F800000)), "v",
      some (10, "float")⟩).memoryStats.floatVarCount = 0 ∧
    (VisitVarDecl {} ⟨1, true, ⟨false, true, true, false⟩, some (.FloatingLiteral (.IEEEsingle 0x3F800000)), "v",
      some (10, "float")⟩).memoryStats.originalBytes = 0 ∧
    (VisitVarDecl {} ⟨1, true, ⟨false, true, true, false⟩, some (.FloatingLiteral (.IEEEsingle 0x3F800000)), "v",
      some (10, "float")⟩).memoryStats.demotedBytes = 0 ∧
    (VisitVarDecl {} ⟨1, true, ⟨false, true, true, false⟩, some (.FloatingLiteral (.IEEEsingle 0x3F800000)), "v",
      some (10, "float")⟩).diagnostics = [] := by
  decide

/-! ## Underflow and sign of the simulated demotion -/

theorem exp_le_of_abs_toRat_lt (v : Nat) (h : |toRat v| < (1 : ℚ) / 16384) :
    expField v ≤ 112 := by
  by_contra hc
  have h1 := magnitude_ge_of_exp_ge v 113 (by omega) (by omega)
  exact absurd ((abs_toRat_ge_iff v).2 h1) (not_le.2 h)

theorem exp_ge_of_abs_toRat_ge (v : Nat) (h : (1 : ℚ) / 16384 ≤ |toRat v|) :
    113 ≤ expField v := by
  by_contra hc
  have h1 := magnitude_lt_of_exp_le v 112 (by omega) (by omega)
  have h2 := (abs_toRat_ge_iff v).1 h
  omega

/-- Claim C15, as the code has it: every 32-bit pattern of magnitude below
`2^-14`, the magnitudes from `2^-24` up included, is flushed to positive
zero; `simulate_fp16` produces no binary16 subnormal. -/
theorem simulate_fp16_flushes (v : Nat) (hv : v < 2 ^ 32) (h : |toRat v| < (1 : ℚ) / 16384) :
    simulate_fp16 v = some 0 := by
  rw [simulate_fp16_eq v hv, if_pos (exp_le_of_abs_toRat_lt v h)]

/-- Witness of `simulate_fp16_flushes` at `2^-15`. -/
theorem simulate_fp16_flushes_witness : simulate_fp16 0x38000000 = some 0 :=
  simulate_fp16_flushes 0x38000000 (by decide)
    (lt_of_not_le fun hc => absurd ((abs_toRat_ge_iff _).1 hc) (by decide))

/-- Counterexample to claim C15 as stated: `2^-15` is finite, of magnitude
between `2^-24` and `2^-14`, and exactly representable as a binary16
subnormal, yet `simulate_fp16` returns zero for it. -/
theorem simulate_fp16_subnormal_lost :
    isFinite 0x38000000 = true ∧
    2 ^ 125 ≤ magnitude 0x38000000 ∧ magnitude 0x38000000 < 2 ^ 135 ∧
    convertToHalf 0x38000000 = (0x0200, false) ∧
    halfToFloat 0x0200 = 0x38000000 ∧
    simulate_fp16 0x38000000 = some 0 := by
  decide

/-- Claim C16, as the code has it: for every 32-bit pattern of magnitude at
least `2^-14`, overflow to infinity included, the result of `simulate_fp16`
has the sign bit of its argument; every pattern of smaller magnitude gives
positive zero, whatever its sign. -/
theorem simulate_fp16_sign (v : Nat) (hv : v < 2 ^ 32) :
    ((1 : ℚ) / 16384 ≤ |toRat v| →
      ∃ r, simulate_fp16 v = some r ∧ signBit r = signBit v) ∧
    (|toRat v| < (1 : ℚ) / 16384 → simulate_fp16 v = some 0 ∧ signBit 0 = 0) := by
  constructor
  · intro h
    have he := exp_ge_of_abs_toRat_ge v h
    have hs := signBit_lt v
    rw [simulate_fp16_eq v hv, if_neg (by omega)]
    refine ⟨_, rfl, ?_⟩
    split
    · split
      · have : signBit v = 1 := by omega
        rw [this]; decide
      · have : signBit v = 0 := by omega
        rw [this]; decide
    · rw [signBit_eq, signBit_eq]; omega
  · intro h
    exact ⟨by rw [simulate_fp16_eq v hv, if_pos (exp_le_of_abs_toRat_lt v h)], by decide⟩

/-- Witness of `simulate_fp16_sign` at `-3.14159274f`. -/
theorem simulate_fp16_sign_witness :
    ∃ r, simulate_fp16 0xC0490FDB = some r ∧ signBit r = signBit 0xC0490FDB :=
  (simulate_fp16_sign 0xC0490FDB (by decide)).1 ((abs_toRat_ge_iff _).2 (by decide))

/-- Counterexample to claim C16 as stated: `-1e-8f` is not a NaN and has its
sign bit set; `simulate_fp16` returns the pattern `0`, whose sign bit is
clear. -/
theorem simulate_fp16_sign_lost :
    isnan 0xB22BCC77 = false ∧ signBit 0xB22BCC77 = 1 ∧
    simulate_fp16 0xB22BCC77 = some 0 ∧ signBit 0 ≠ signBit 0xB22BCC77 := by
  decide

/-! ## Reference definition of the simulated demotion -/

theorem and_high_mask (v : Nat) (hv : v < 2 ^ 32) : v &&& 0xFFFFE000 = v - v % 8192 := by
  have hm : (0xFFFFE000 : Nat) = (2 ^ 19 - 1) <<< 13 := by rw [Nat.shiftLeft_eq]; norm_num
  have hx : v - v % 8192 = (v >>> 13) <<< 13 := by
    rw [Nat.shiftLeft_eq, Nat.shiftRight_eq_div_pow]; norm_num; omega
  rw [hm, hx]
  apply Nat.eq_of_testBit_eq
  intro i
  rw [Nat.testBit_and, Nat.testBit_shiftLeft, Nat.testBit_shiftLeft, Nat.testBit_two_pow_sub_one,
    Nat.testBit_shiftRight]
  by_cases h13 : 13 ≤ i
  · have e : 13 + (i - 13) = i := by omega
    simp only [ge_iff_le, h13, decide_True, Bool.true_and, e]
    by_cases h32 : i < 32
    · have : i - 13 < 19 := by omega
      simp [this]
    · have : ¬ i - 13 < 19 := by omega
      have hz : v.testBit i = false :=
        Nat.testBit_lt_two_pow (lt_of_lt_of_le hv (Nat.pow_le_pow_right (by norm_num) (by omega)))
      simp [this, hz]
  · simp [h13]

/-- Fields and magnitude of a pattern whose low 13 bits are cleared. -/
theorem truncate_fields (v : Nat) (he : expField v ≠ 0) :
    signBit (v - v % 8192) = signBit v ∧
    expField (v - v % 8192) = expField v ∧
    mantField (v - v % 8192) = mantField v - mantField v % 8192 ∧
    magnitude (v - v % 8192) ≤ magnitude v := by
  have hse := signBit_eq v
  have hee := expField_eq v
  have hme := mantField_eq v
  have e1 : signBit (v - v % 8192) = signBit v := by
    rw [signBit_eq, signBit_eq]; omega
  have e2 : expField (v - v % 8192) = expField v := by
    rw [expField_eq, expField_eq]; omega
  have e3 : mantField (v - v % 8192) = mantField v - mantField v % 8192 := by
    rw [mantField_eq, mantField_eq]; omega
  refine ⟨e1, e2, e3, ?_⟩
  rw [magnitude_of_exp_pos v he, magnitude_of_exp_pos _ (by rw [e2]; exact he), e2, e3]
  exact Nat.mul_le_mul_right _ (by omega)

/-- Claim C18: on every 32-bit pattern `simulate_fp16` is positive zero for a
biased exponent up to 112, the infinity of the sign of the argument for a
biased exponent from 143 (infinities and NaNs included), and otherwise the
argument with its low 13 bits cleared, of the same sign and exponent and of
magnitude at most that of the argument; applying it twice gives the same
result as applying it once. -/
theorem simulate_fp16_reference (v : Nat) (hv : v < 2 ^ 32) :
    (expField v ≤ 112 → simulate_fp16 v = some 0x00000000) ∧
    (143 ≤ expField v →
      simulate_fp16 v = some (if signBit v = 1 then 0xFF800000 else 0x7F800000)) ∧
    (113 ≤ expField v → expField v ≤ 142 →
      simulate_fp16 v = some (v &&& 0xFFFFE000) ∧
      signBit (v &&& 0xFFFFE000) = signBit v ∧
      expField (v &&& 0xFFFFE000) = expField v ∧
      |toRat (v &&& 0xFFFFE000)| ≤ |toRat v|) ∧
    (simulate_fp16 v).bind simulate_fp16 = simulate_fp16 v := by
  have hs := signBit_lt v
  have heq := simulate_fp16_eq v hv
  refine ⟨?_, ?_, ?_, ?_⟩
  · intro h
    rw [heq, if_pos h]
  · intro h
    rw [heq, if_neg (by omega), if_pos h]
    by_cases h1 : signBit v = 1
    · simp [h1]
    · have : signBit v = 0 := by omega
      simp [this]
  · intro h1 h2
    have ht := truncate_fields v (by omega)
    rw [and_high_mask v hv]
    refine ⟨by rw [heq, if_neg (by omega), if_neg (by omega)], ht.1, ht.2.1, ?_⟩
    rw [abs_toRat, abs_toRat]
    apply div_le_div_of_nonneg_right _ (by positivity)
    exact_mod_cast ht.2.2.2
  · rw [heq]
    by_cases h1 : expField v ≤ 112
    · rw [if_pos h1]
      decide
    · by_cases h2 : 143 ≤ expField v
      · rw [if_neg h1, if_pos h2]
        split <;> decide
      · rw [if_neg h1, if_neg h2]
        have ht := truncate_fields v (by omega)
        have hlt : v - v % 8192 < 2 ^ 32 := by omega
        simp only [Option.some_bind]
        rw [simulate_fp16_eq _ hlt, ht.2.1, if_neg h1, if_neg h2]
        congr 1
        omega

/-- Witness of `simulate_fp16_reference` at `-3.14159274f`. -/
theorem simulate_fp16_reference_witness :
    (simulate_fp16 0xC0490FDB).bind simulate_fp16 = simulate_fp16 0xC0490FDB :=
  (simulate_fp16_reference 0xC0490FDB (by decide)).2.2.2

/-! ## Expressions classified SAFE -/

/-- Rounding a 24-bit significand to 11 bits: the result lies between `1024`
and `2048`, and reaches `2048` exactly from `2^24 - 4096` on. -/
theorem rneShift_13 (sig : Nat) (h1 : 8388608 ≤ sig) (h2 : sig < 16777216) :
    1024 ≤ rneShift sig 13 ∧ rneShift sig 13 ≤ 2048 ∧
      (rneShift sig 13 = 2048 ↔ 16773120 ≤ sig) := by
  unfold rneShift
  norm_num
  split_ifs <;> omega

/-- Rounding a significand at a position `k`: with `P = 2^k` and the
significand below `1024 * P`, the result is `0` exactly up to half of `P`,
and reaches `1024` exactly from `2047` halves of `P` on. -/
theorem rneShift_small (sig k : Nat) (h2 : sig < 1024 * 2 ^ k) (hk : 1 ≤ k) :
    rneShift sig k ≤ 1024 ∧
      (rneShift sig k = 0 ↔ 2 * sig ≤ 2 ^ k) ∧
      (1024 ≤ rneShift sig k ↔ 2047 * 2 ^ k ≤ 2 * sig) := by
  have hP : 0 < 2 ^ k := by positivity
  have hPeven : 2 ^ k = 2 * 2 ^ (k - 1) := by
    rw [← Nat.pow_succ']; congr 1; omega
  have hdm := Nat.div_add_mod sig (2 ^ k)
  have hr := Nat.mod_lt sig hP
  have hq : sig / 2 ^ k < 1024 := Nat.div_lt_of_lt_mul (by rw [Nat.mul_comm]; exact h2)
  unfold rneShift
  simp only
  generalize 2 ^ (k - 1) = H at hPeven
  generalize 2 ^ k = P at *
  generalize sig / P = q at *
  generalize sig % P = r at *
  by_cases hq0 : q = 0
  · subst hq0
    simp only [Nat.mul_zero, Nat.zero_add] at hdm
    subst hdm
    split_ifs <;> refine ⟨by omega, ⟨?_, ?_⟩, ⟨?_, ?_⟩⟩ <;> intro h <;>
      first | omega | contradiction
  · by_cases hq1 : q = 1023
    · subst hq1
      split_ifs <;> refine ⟨by omega, ⟨?_, ?_⟩, ⟨?_, ?_⟩⟩ <;> intro h <;>
        first | omega | contradiction
    · have hle : P * q ≤ P * 1022 := Nat.mul_le_mul_left _ (by omega)
      have hge : P * 1 ≤ P * q := Nat.mul_le_mul_left _ (by omega)
      split_ifs <;> refine ⟨by omega, ⟨?_, ?_⟩, ⟨?_, ?_⟩⟩ <;> intro h <;>
        first | omega | contradiction
theorem rneShift_13_below_max (sig : Nat) (h1 : 16769024 < sig) (h2 : sig < 16773120) :
    rneShift sig 13 = 2047 := by
  unfold rneShift
  norm_num
  split_ifs <;> omega

/-- Class of the binary16 result of a binary32 value outside the H16 range:
an infinity or a NaN for a value that is one or whose magnitude is at least
`65520`; `65504`, with loss, below that; a zero, with loss, up to `2^-25`; a
nonzero subnormal or `2^-14` above that. -/
theorem convertToHalf_class (v : Nat) :
    (expField v = 255 → (convertToHalf v).1 / 1024 % 32 = 31) ∧
    (expField v ≠ 255 → 65520 * 2 ^ 149 ≤ magnitude v →
      (convertToHalf v).1 / 1024 % 32 = 31) ∧
    (65504 * 2 ^ 149 < magnitude v → magnitude v < 65520 * 2 ^ 149 →
      (convertToHalf v).1 / 1024 % 32 = 30 ∧ (convertToHalf v).1 % 1024 = 1023 ∧
        (convertToHalf v).2 = true) ∧
    (0 < magnitude v → magnitude v ≤ 2 ^ 124 →
      (convertToHalf v).1 / 1024 % 32 = 0 ∧ (convertToHalf v).1 % 1024 = 0 ∧
        (convertToHalf v).2 = true) ∧
    (2 ^ 124 < magnitude v → magnitude v < 2 ^ 135 →
      ((convertToHalf v).1 / 1024 % 32 = 0 ∧ (convertToHalf v).1 % 1024 ≠ 0) ∨
        ((convertToHalf v).1 / 1024 % 32 = 1 ∧ (convertToHalf v).1 % 1024 = 0)) := by
  have hs := signBit_lt v
  have hm := mantField_lt v
  have hE := expField_lt v
  refine ⟨?_, ?_, ?_, ?_, ?_⟩
  · intro h255
    rw [convertToHalf_special v h255]
    split
    · simp only; omega
    · have hx : mantField v / 8192 ||| 0x200 < 2 ^ 10 :=
        Nat.or_lt_two_pow (by omega) (by norm_num)
      simp only
      omega
  · intro h255 hmag
    have h142 : 142 ≤ expField v := by
      by_contra hc
      have := magnitude_lt_of_exp_le v 141 (by omega) (by omega)
      have c : (2 : Nat) ^ (141 + 23) ≤ 65520 * 2 ^ 149 := by norm_num
      omega
    have hr := rneShift_13 (2 ^ 23 + mantField v) (by norm_num) (by norm_num; omega)
    have hov : 0x7C00 ≤ (expField v - 113) * 1024 + rneShift (2 ^ 23 + mantField v) 13 := by
      by_cases h143 : 143 ≤ expField v
      · omega
      · have he : expField v = 142 := by omega
        rw [magnitude_of_exp_pos v (by omega), he] at hmag
        have hsig : 16773120 ≤ 2 ^ 23 + mantField v := by
          have c : (65520 : Nat) * 2 ^ 149 = 16773120 * 2 ^ (142 - 1) := by norm_num
          rw [c] at hmag
          exact Nat.le_of_mul_le_mul_right hmag (by positivity)
        have := hr.2.2.2 hsig
        omega
    rw [convertToHalf_normal v (by omega) h255, if_pos hov]
    simp only
    omega
  · intro hlo hhi
    have h142 : expField v = 142 := by
      by_contra hc
      by_cases h141 : expField v ≤ 141
      · have := magnitude_lt_of_exp_le v 141 (by omega) h141
        have c : (2 : Nat) ^ (141 + 23) ≤ 65504 * 2 ^ 149 := by norm_num
        omega
      · have := magnitude_ge_of_exp_ge v 143 (by omega) (by omega)
        have c : (65520 : Nat) * 2 ^ 149 ≤ 2 ^ (143 + 22) := by norm_num
        omega
    rw [magnitude_of_exp_pos v (by omega), h142] at hlo hhi
    have hsig1 : 16769024 < 2 ^ 23 + mantField v := by
      have c : (65504 : Nat) * 2 ^ 149 = 16769024 * 2 ^ (142 - 1) := by norm_num
      rw [c] at hlo
      exact Nat.lt_of_mul_lt_mul_right hlo
    have hsig2 : 2 ^ 23 + mantField v < 16773120 := by
      have c : (65520 : Nat) * 2 ^ 149 = 16773120 * 2 ^ (142 - 1) := by norm_num
      rw [c] at hhi
      exact Nat.lt_of_mul_lt_mul_right hhi
    have hr := rneShift_13_below_max _ hsig1 hsig2
    rw [convertToHalf_normal v (by omega) (by omega), hr, h142, if_neg (by norm_num)]
    simp only
    refine ⟨by omega, by omega, ?_⟩
    rw [decide_eq_true_iff]
    norm_num at hsig1 hsig2 ⊢
    omega
  · intro hpos hle
    have h112 : expField v ≤ 112 := by
      by_contra hc
      have := magnitude_ge_of_exp_ge v 113 (by omega) (by omega)
      have c : (2 : Nat) ^ 124 < 2 ^ (113 + 22) := by norm_num
      omega
    by_cases h0 : expField v = 0
    · have hr := rneShift_small (mantField v) 125
        (lt_of_lt_of_le hm (by norm_num)) (by omega)
      have ha : rneShift (mantField v) 125 = 0 :=
        hr.2.1.2 (le_trans (by omega : 2 * mantField v ≤ 2 * 8388608) (by norm_num))
      rw [magnitude_of_exp_zero v h0] at hpos
      rw [convertToHalf_subnormal v h0, ha, if_neg (by omega)]
      simp only
      refine ⟨by omega, by omega, ?_⟩
      rw [decide_eq_true_iff, Nat.mod_eq_of_lt (lt_of_lt_of_le hm (by norm_num))]
      omega
    · have hk : 2 ^ 24 ≤ 1024 * 2 ^ (126 - expField v) := by
        calc 2 ^ 24 = 1024 * 2 ^ 14 := by norm_num
          _ ≤ 1024 * 2 ^ (126 - expField v) :=
            Nat.mul_le_mul_left _ (Nat.pow_le_pow_right (by norm_num) (by omega))
      have hr := rneShift_small (2 ^ 23 + mantField v) (126 - expField v)
        (lt_of_lt_of_le (by norm_num; omega) hk) (by omega)
      have hmag := magnitude_of_exp_pos v h0
      have hW : 0 < 2 ^ (expField v - 1) := by positivity
      have hPW : 2 ^ (126 - expField v) * 2 ^ (expField v - 1) = 2 ^ 125 := by
        rw [← Nat.pow_add]; congr 1; omega
      have hzero : 2 * (2 ^ 23 + mantField v) ≤ 2 ^ (126 - expField v) ↔
          magnitude v ≤ 2 ^ 124 := by
        rw [← mul_le_mul_iff_of_pos_right hW, hPW, hmag, Nat.mul_assoc]
        have c : (2 : Nat) ^ 125 = 2 * 2 ^ 124 := by norm_num
        omega
      have h2s := hzero.2 hle
      have ha := hr.2.1.2 h2s
      rw [convertToHalf_small v (by omega) (by omega), ha, if_neg (by omega)]
      simp only
      refine ⟨by omega, by omega, ?_⟩
      rw [decide_eq_true_iff, Nat.mod_eq_of_lt (by omega)]
      have : 0 < 2 ^ 23 := by positivity
      omega
  · intro hlo hhi
    have h112 : expField v ≤ 112 := by
      by_contra hc
      have := magnitude_ge_of_exp_ge v 113 (by omega) (by omega)
      have c : (2 : Nat) ^ 135 = 2 ^ (113 + 22) := by norm_num
      omega
    have h0 : expField v ≠ 0 := by
      intro h0
      rw [magnitude_of_exp_zero v h0] at hlo
      have c : (2 : Nat) ^ 23 ≤ 2 ^ 124 := by norm_num
      omega
    have hk : 2 ^ 24 ≤ 1024 * 2 ^ (126 - expField v) := by
      calc 2 ^ 24 = 1024 * 2 ^ 14 := by norm_num
        _ ≤ 1024 * 2 ^ (126 - expField v) :=
          Nat.mul_le_mul_left _ (Nat.pow_le_pow_right (by norm_num) (by omega))
    have hr := rneShift_small (2 ^ 23 + mantField v) (126 - expField v)
      (lt_of_lt_of_le (by norm_num; omega) hk) (by omega)
    have hmag := magnitude_of_exp_pos v h0
    have hW : 0 < 2 ^ (expField v - 1) := by positivity
    have hPW : 2 ^ (126 - expField v) * 2 ^ (expField v - 1) = 2 ^ 125 := by
      rw [← Nat.pow_add]; congr 1; omega
    have hzero : 2 * (2 ^ 23 + mantField v) ≤ 2 ^ (126 - expField v) ↔
        magnitude v ≤ 2 ^ 124 := by
      rw [← mul_le_mul_iff_of_pos_right hW, hPW, hmag, Nat.mul_assoc]
      have c : (2 : Nat) ^ 125 = 2 * 2 ^ 124 := by norm_num
      omega
    have hne : rneShift (2 ^ 23 + mantField v) (126 - expField v) ≠ 0 := by
      intro h0'
      have := hzero.1 (hr.2.1.1 h0')
      omega
    rw [convertToHalf_small v (by omega) (by omega), if_neg (by omega)]
    simp only
    generalize rneShift (2 ^ 23 + mantField v) (126 - expField v) = r at hr hne
    omega

theorem magnitudeD_lt_of_exp_le (v k : Nat) (hk : 1 ≤ k) (he : expFieldD v ≤ k) :
    magnitudeD v < 2 ^ (k + 52) := by
  have hm := mantFieldD_lt v
  by_cases h0 : expFieldD v = 0
  · rw [magnitudeD_of_exp_zero v h0]
    exact lt_of_lt_of_le hm (Nat.pow_le_pow_right (by norm_num) (by omega))
  · rw [magnitudeD_of_exp_pos v h0]
    calc (2 ^ 52 + mantFieldD v) * 2 ^ (expFieldD v - 1)
        < 2 ^ 53 * 2 ^ (expFieldD v - 1) :=
          Nat.mul_lt_mul_of_pos_right (by norm_num; omega) (by positivity)
      _ ≤ 2 ^ 53 * 2 ^ (k - 1) :=
          Nat.mul_le_mul_left _ (Nat.pow_le_pow_right (by norm_num) (by omega))
      _ = 2 ^ (k + 52) := by rw [← Nat.pow_add]; congr 1; omega

theorem magnitudeD_ge_of_exp_ge (v k : Nat) (hk : 1 ≤ k) (he : k ≤ expFieldD v) :
    2 ^ (k + 51) ≤ magnitudeD v := by
  rw [magnitudeD_of_exp_pos v (by omega)]
  calc 2 ^ (k + 51) = 2 ^ 52 * 2 ^ (k - 1) := by rw [← Nat.pow_add]; congr 1; omega
    _ ≤ 2 ^ 52 * 2 ^ (expFieldD v - 1) :=
        Nat.mul_le_mul_left _ (Nat.pow_le_pow_right (by norm_num) (by omega))
    _ ≤ (2 ^ 52 + mantFieldD v) * 2 ^ (expFieldD v - 1) :=
        Nat.mul_le_mul_right _ (by omega)

theorem convertDoubleToHalf_special (v : Nat) (h : expFieldD v = 2047) :
    convertDoubleToHalf v =
      if mantFieldD v = 0 then (signBitD v * 0x8000 + 0x7C00, false)
      else (signBitD v * 0x8000 + 0x7C00 + (mantFieldD v / 2 ^ 42 ||| 0x200),
        decide (mantFieldD v % 2 ^ 42 ≠ 0)) := by
  unfold convertDoubleToHalf
  simp only [h, if_true]

theorem convertDoubleToHalf_normal (v : Nat) (h1 : 1009 ≤ expFieldD v)
    (h2 : expFieldD v ≠ 2047) :
    convertDoubleToHalf v =
      if 0x7C00 ≤ (expFieldD v - 1009) * 1024 + rneShift (2 ^ 52 + mantFieldD v) 42 then
        (signBitD v * 0x8000 + 0x7C00, true)
      else (signBitD v * 0x8000 +
          ((expFieldD v - 1009) * 1024 + rneShift (2 ^ 52 + mantFieldD v) 42),
        decide ((2 ^ 52 + mantFieldD v) % 2 ^ 42 ≠ 0)) := by
  unfold convertDoubleToHalf
  have h0 : expFieldD v ≠ 0 := by omega
  simp only [h2, h0, h1, if_true, if_false]

theorem convertDoubleToHalf_small (v : Nat) (h1 : 1 ≤ expFieldD v) (h2 : expFieldD v ≤ 1008) :
    convertDoubleToHalf v =
      if 0x7C00 ≤ rneShift (2 ^ 52 + mantFieldD v) (1051 - expFieldD v) then
        (signBitD v * 0x8000 + 0x7C00, true)
      else (signBitD v * 0x8000 + rneShift (2 ^ 52 + mantFieldD v) (1051 - expFieldD v),
        decide ((2 ^ 52 + mantFieldD v) % 2 ^ (1051 - expFieldD v) ≠ 0)) := by
  unfold convertDoubleToHalf
  have h0 : expFieldD v ≠ 0 := by omega
  have h3 : expFieldD v ≠ 2047 := by omega
  have h4 : ¬ 1009 ≤ expFieldD v := by omega
  have h5 : max (expFieldD v) 1 = expFieldD v := by omega
  simp only [h0, h3, h4, h5, if_false, Nat.zero_add]

theorem convertDoubleToHalf_subnormal (v : Nat) (h0 : expFieldD v = 0) :
    convertDoubleToHalf v =
      if 0x7C00 ≤ rneShift (mantFieldD v) 1050 then (signBitD v * 0x8000 + 0x7C00, true)
      else (signBitD v * 0x8000 + rneShift (mantFieldD v) 1050,
        decide (mantFieldD v % 2 ^ 1050 ≠ 0)) := by
  unfold convertDoubleToHalf
  simp [h0]

/-- Rounding a 53-bit significand to 11 bits. -/
theorem rneShift_42 (sig : Nat) (h1 : 2 ^ 52 ≤ sig) (h2 : sig < 2 ^ 53) :
    1024 ≤ rneShift sig 42 ∧ rneShift sig 42 ≤ 2048 ∧
      (rneShift sig 42 = 2048 ↔ 2 ^ 53 - 2 ^ 41 ≤ sig) := by
  unfold rneShift
  norm_num at h1 h2 ⊢
  split_ifs <;> omega

theorem rneShift_42_below_max (sig : Nat) (h1 : 2047 * 2 ^ 42 < sig)
    (h2 : sig < 2047 * 2 ^ 42 + 2 ^ 41) :
    rneShift sig 42 = 2047 := by
  unfold rneShift
  norm_num at h1 h2 ⊢
  split_ifs <;> omega

/-- Class of the binary16 result of a binary64 value outside the H16 range,
as for a binary32 value. -/
theorem convertDoubleToHalf_class (v : Nat) :
    (expFieldD v = 2047 → (convertDoubleToHalf v).1 / 1024 % 32 = 31) ∧
    (expFieldD v ≠ 2047 → 65520 * 2 ^ 1074 ≤ magnitudeD v →
      (convertDoubleToHalf v).1 / 1024 % 32 = 31) ∧
    (65504 * 2 ^ 1074 < magnitudeD v → magnitudeD v < 65520 * 2 ^ 1074 →
      (convertDoubleToHalf v).1 / 1024 % 32 = 30 ∧ (convertDoubleToHalf v).1 % 1024 = 1023 ∧
        (convertDoubleToHalf v).2 = true) ∧
    (0 < magnitudeD v → magnitudeD v ≤ 2 ^ 1049 →
      (convertDoubleToHalf v).1 / 1024 % 32 = 0 ∧ (convertDoubleToHalf v).1 % 1024 = 0 ∧
        (convertDoubleToHalf v).2 = true) ∧
    (2 ^ 1049 < magnitudeD v → magnitudeD v < 2 ^ 1060 →
      ((convertDoubleToHalf v).1 / 1024 % 32 = 0 ∧ (convertDoubleToHalf v).1 % 1024 ≠ 0) ∨
        ((convertDoubleToHalf v).1 / 1024 % 32 = 1 ∧
          (convertDoubleToHalf v).1 % 1024 = 0)) := by
  have hs := signBitD_lt v
  have hm := mantFieldD_lt v
  have hE := expFieldD_lt v
  refine ⟨?_, ?_, ?_, ?_, ?_⟩
  · intro h2047
    rw [convertDoubleToHalf_special v h2047]
    split
    · simp only; omega
    · have hx : mantFieldD v / 2 ^ 42 ||| 0x200 < 2 ^ 10 :=
        Nat.or_lt_two_pow (Nat.div_lt_of_lt_mul (by norm_num; omega)) (by norm_num)
      simp only
      omega
  · intro h2047 hmag
    have h1038 : 1038 ≤ expFieldD v := by
      by_contra hc
      have := magnitudeD_lt_of_exp_le v 1037 (by omega) (by omega)
      have c : (2 : Nat) ^ (1037 + 52) ≤ 65520 * 2 ^ 1074 := by
        calc (2 : Nat) ^ (1037 + 52) = 2 ^ 15 * 2 ^ 1074 := by rw [← Nat.pow_add]
          _ ≤ 65520 * 2 ^ 1074 := Nat.mul_le_mul_right _ (by norm_num)
      omega
    have hr := rneShift_42 (2 ^ 52 + mantFieldD v) (by omega) (by omega)
    have hov : 0x7C00 ≤
        (expFieldD v - 1009) * 1024 + rneShift (2 ^ 52 + mantFieldD v) 42 := by
      by_cases h1039 : 1039 ≤ expFieldD v
      · omega
      · have he : expFieldD v = 1038 := by omega
        rw [magnitudeD_of_exp_pos v (by omega), he] at hmag
        have hsig : 2 ^ 53 - 2 ^ 41 ≤ 2 ^ 52 + mantFieldD v := by
          have c : (65520 : Nat) * 2 ^ 1074 = (2 ^ 53 - 2 ^ 41) * 2 ^ (1038 - 1) := by
            calc (65520 : Nat) * 2 ^ 1074 = 65520 * (2 ^ 37 * 2 ^ 1037) := by
                  rw [← Nat.pow_add]
              _ = (2 ^ 53 - 2 ^ 41) * 2 ^ (1038 - 1) := by
                  rw [← Nat.mul_assoc]; norm_num
          rw [c] at hmag
          exact Nat.le_of_mul_le_mul_right hmag (by positivity)
        have := hr.2.2.2 hsig
        omega
    rw [convertDoubleToHalf_normal v (by omega) h2047, if_pos hov]
    simp only
    omega
  · intro hlo hhi
    have c15 : (2 : Nat) ^ (1037 + 52) = 2 ^ 15 * 2 ^ 1074 := by rw [← Nat.pow_add]
    have c16 : (2 : Nat) ^ (1039 + 51) = 2 ^ 16 * 2 ^ 1074 := by rw [← Nat.pow_add]
    have hW : 0 < 2 ^ 1074 := by positivity
    have h1038 : expFieldD v = 1038 := by
      by_contra hc
      by_cases h1037 : expFieldD v ≤ 1037
      · have := magnitudeD_lt_of_exp_le v 1037 (by omega) h1037
        have c : 2 ^ 15 * 2 ^ 1074 ≤ 65504 * 2 ^ 1074 :=
          Nat.mul_le_mul_right _ (by norm_num)
        omega
      · have := magnitudeD_ge_of_exp_ge v 1039 (by omega) (by omega)
        have c : 65520 * 2 ^ 1074 ≤ 2 ^ 16 * 2 ^ 1074 :=
          Nat.mul_le_mul_right _ (by norm_num)
        omega
    rw [magnitudeD_of_exp_pos v (by omega), h1038] at hlo hhi
    have hsig1 : 2047 * 2 ^ 42 < 2 ^ 52 + mantFieldD v := by
      have c : (65504 : Nat) * 2 ^ 1074 = 2047 * 2 ^ 42 * 2 ^ (1038 - 1) := by
        calc (65504 : Nat) * 2 ^ 1074 = 65504 * (2 ^ 37 * 2 ^ 1037) := by
              rw [← Nat.pow_add]
          _ = 2047 * 2 ^ 42 * 2 ^ (1038 - 1) := by
              rw [← Nat.mul_assoc]; norm_num
      rw [c] at hlo
      exact Nat.lt_of_mul_lt_mul_right hlo
    have hsig2 : 2 ^ 52 + mantFieldD v < 2047 * 2 ^ 42 + 2 ^ 41 := by
      have c : (65520 : Nat) * 2 ^ 1074 = (2047 * 2 ^ 42 + 2 ^ 41) * 2 ^ (1038 - 1) := by
        calc (65520 : Nat) * 2 ^ 1074 = 65520 * (2 ^ 37 * 2 ^ 1037) := by
              rw [← Nat.pow_add]
          _ = (2047 * 2 ^ 42 + 2 ^ 41) * 2 ^ (1038 - 1) := by
              rw [← Nat.mul_assoc]; norm_num
      rw [c] at hhi
      exact Nat.lt_of_mul_lt_mul_right hhi
    have hr := rneShift_42_below_max _ hsig1 hsig2
    rw [convertDoubleToHalf_normal v (by omega) (by omega), hr, h1038, if_neg (by norm_num)]
    simp only
    refine ⟨by omega, by omega, ?_⟩
    rw [decide_eq_true_iff]
    norm_num at hsig1 hsig2 ⊢
    omega
  · intro hpos hle
    have h1008 : expFieldD v ≤ 1008 := by
      by_contra hc
      have := magnitudeD_ge_of_exp_ge v 1009 (by omega) (by omega)
      have c : (2 : Nat) ^ 1049 < 2 ^ (1009 + 51) :=
        Nat.pow_lt_pow_right (by norm_num) (by norm_num)
      omega
    by_cases h0 : expFieldD v = 0
    · have hr := rneShift_small (mantFieldD v) 1050
        (lt_of_lt_of_le hm (by
          calc (2 : Nat) ^ 52 ≤ 2 ^ 1060 := Nat.pow_le_pow_right (by norm_num) (by norm_num)
            _ = 1024 * 2 ^ 1050 := by rw [show (1024 : Nat) = 2 ^ 10 by norm_num, ← Nat.pow_add]))
        (by omega)
      have hlt : mantFieldD v < 2 ^ 1050 :=
        lt_of_lt_of_le hm (Nat.pow_le_pow_right (by norm_num) (by norm_num))
      have hlt2 : 2 * mantFieldD v ≤ 2 ^ 1050 := by
        calc 2 * mantFieldD v ≤ 2 * 2 ^ 52 := by omega
          _ = 2 ^ 53 := by norm_num
          _ ≤ 2 ^ 1050 := Nat.pow_le_pow_right (by norm_num) (by norm_num)
      have ha : rneShift (mantFieldD v) 1050 = 0 := hr.2.1.2 hlt2
      rw [magnitudeD_of_exp_zero v h0] at hpos
      rw [convertDoubleToHalf_subnormal v h0, ha, if_neg (by omega)]
      simp only
      refine ⟨by omega, by omega, ?_⟩
      rw [decide_eq_true_iff, Nat.mod_eq_of_lt hlt]
      omega
    · have hk : 2 ^ 53 ≤ 1024 * 2 ^ (1051 - expFieldD v) := by
        calc 2 ^ 53 = 1024 * 2 ^ 43 := by norm_num
          _ ≤ 1024 * 2 ^ (1051 - expFieldD v) :=
            Nat.mul_le_mul_left _ (Nat.pow_le_pow_right (by norm_num) (by omega))
      have hr := rneShift_small (2 ^ 52 + mantFieldD v) (1051 - expFieldD v)
        (lt_of_lt_of_le (by norm_num; omega) hk) (by omega)
      have hmag := magnitudeD_of_exp_pos v h0
      have hW : 0 < 2 ^ (expFieldD v - 1) := by positivity
      have hPW : 2 ^ (1051 - expFieldD v) * 2 ^ (expFieldD v - 1) = 2 * 2 ^ 1049 := by
        rw [← Nat.pow_add, ← Nat.pow_succ']; congr 1; omega
      have hzero : 2 * (2 ^ 52 + mantFieldD v) ≤ 2 ^ (1051 - expFieldD v) ↔
          magnitudeD v ≤ 2 ^ 1049 := by
        rw [← mul_le_mul_iff_of_pos_right hW, hPW, hmag, Nat.mul_assoc]
        omega
      have h2s := hzero.2 hle
      have ha := hr.2.1.2 h2s
      rw [convertDoubleToHalf_small v (by omega) (by omega), ha, if_neg (by omega)]
      simp only
      refine ⟨by omega, by omega, ?_⟩
      rw [decide_eq_true_iff, Nat.mod_eq_of_lt (by omega)]
      have : 0 < 2 ^ 52 := by positivity
      omega
  · intro hlo hhi
    have h1008 : expFieldD v ≤ 1008 := by
      by_contra hc
      have := magnitudeD_ge_of_exp_ge v 1009 (by omega) (by omega)
      omega
    have h0 : expFieldD v ≠ 0 := by
      intro h0
      rw [magnitudeD_of_exp_zero v h0] at hlo
      have c : (2 : Nat) ^ 52 ≤ 2 ^ 1049 := Nat.pow_le_pow_right (by norm_num) (by norm_num)
      omega
    have hk : 2 ^ 53 ≤ 1024 * 2 ^ (1051 - expFieldD v) := by
      calc 2 ^ 53 = 1024 * 2 ^ 43 := by norm_num
        _ ≤ 1024 * 2 ^ (1051 - expFieldD v) :=
          Nat.mul_le_mul_left _ (Nat.pow_le_pow_right (by norm_num) (by omega))
    have hr := rneShift_small (2 ^ 52 + mantFieldD v) (1051 - expFieldD v)
      (lt_of_lt_of_le (by norm_num; omega) hk) (by omega)
    have hmag := magnitudeD_of_exp_pos v h0
    have hW : 0 < 2 ^ (expFieldD v - 1) := by positivity
    have hPW : 2 ^ (1051 - expFieldD v) * 2 ^ (expFieldD v - 1) = 2 * 2 ^ 1049 := by
      rw [← Nat.pow_add, ← Nat.pow_succ']; congr 1; omega
    have hzero : 2 * (2 ^ 52 + mantFieldD v) ≤ 2 ^ (1051 - expFieldD v) ↔
        magnitudeD v ≤ 2 ^ 1049 := by
      rw [← mul_le_mul_iff_of_pos_right hW, hPW, hmag, Nat.mul_assoc]
      omega
    have hne : rneShift (2 ^ 52 + mantFieldD v) (1051 - expFieldD v) ≠ 0 := by
      intro h0'
      have := hzero.1 (hr.2.1.1 h0')
      omega
    rw [convertDoubleToHalf_small v (by omega) (by omega), if_neg (by omega)]
    simp only
    generalize rneShift (2 ^ 52 + mantFieldD v) (1051 - expFieldD v) = r at hr hne
    omega

/-- Comparison of a value in units of `2^-W` with an integer. -/
theorem nat_lt_div_pow (a M W : Nat) : ((a : Nat) : ℚ) < (M : ℚ) / 2 ^ W ↔ a * 2 ^ W < M := by
  rw [lt_div_iff₀ (by positivity)]
  exact_mod_cast Iff.rfl

theorem nat_le_div_pow (a M W : Nat) : ((a : Nat) : ℚ) ≤ (M : ℚ) / 2 ^ W ↔ a * 2 ^ W ≤ M := by
  rw [le_div_iff₀ (by positivity)]
  exact_mod_cast Iff.rfl

theorem div_pow_lt_nat (a M W : Nat) : (M : ℚ) / 2 ^ W < ((a : Nat) : ℚ) ↔ M < a * 2 ^ W := by
  rw [div_lt_iff₀ (by positivity)]
  exact_mod_cast Iff.rfl

/-- Comparison of a value in units of `2^-W` with a power `2^-k`. -/
theorem inv_pow_lt_div_pow (k M W : Nat) (hk : k ≤ W) :
    (1 : ℚ) / 2 ^ k < (M : ℚ) / 2 ^ W ↔ 2 ^ (W - k) < M := by
  have h2 : (2 : ℚ) ^ W = 2 ^ k * 2 ^ (W - k) := by
    rw [← pow_add]; congr 1; omega
  rw [h2, div_lt_div_iff₀ (by positivity) (by positivity), one_mul, mul_comm (M : ℚ),
    mul_lt_mul_left (by positivity)]
  exact_mod_cast Iff.rfl

theorem div_pow_lt_inv_pow (k M W : Nat) (hk : k ≤ W) :
    (M : ℚ) / 2 ^ W < (1 : ℚ) / 2 ^ k ↔ M < 2 ^ (W - k) := by
  have h2 : (2 : ℚ) ^ W = 2 ^ k * 2 ^ (W - k) := by
    rw [← pow_add]; congr 1; omega
  rw [h2, div_lt_div_iff₀ (by positivity) (by positivity), one_mul, mul_comm (M : ℚ),
    mul_lt_mul_left (by positivity)]
  exact_mod_cast Iff.rfl

theorem div_pow_le_inv_pow (k M W : Nat) (hk : k ≤ W) :
    (M : ℚ) / 2 ^ W ≤ (1 : ℚ) / 2 ^ k ↔ M ≤ 2 ^ (W - k) := by
  rw [← not_lt, inv_pow_lt_div_pow k M W hk, not_lt]

theorem div_pow_pos_iff (M W : Nat) : (0 : ℚ) < (M : ℚ) / 2 ^ W ↔ 0 < M := by
  rw [div_pos_iff_of_pos_right (by positivity)]
  exact_mod_cast Iff.rfl

/-- The reason reported for a literal, from the class of its conversion to
binary16: an infinity, a NaN, a nonzero subnormal and the least normal value
scan back out of range; a zero and the largest finite value scan back in
range and are reported for the lost precision. -/
theorem literal_reason_of_class (Val : APFloat) (Reason : String) :
    ((Val.convert.1 / 1024 % 32 = 31 ∨
        (Val.convert.1 / 1024 % 32 = 0 ∧ Val.convert.1 % 1024 ≠ 0) ∨
        (Val.convert.1 / 1024 % 32 = 1 ∧ Val.convert.1 % 1024 = 0)) →
      canDemoteFloatExpr (.FloatingLiteral Val) Reason =
        (false, "literal value out of __fp16 range")) ∧
    (((Val.convert.1 / 1024 % 32 = 0 ∧ Val.convert.1 % 1024 = 0) ∨
        (Val.convert.1 / 1024 % 32 = 30 ∧ Val.convert.1 % 1024 = 1023)) →
      Val.convert.2 = true →
      canDemoteFloatExpr (.FloatingLiteral Val) Reason =
        (false, "literal value loses precision when converted to __fp16")) := by
  constructor
  · intro hb
    obtain ⟨r, hr, hrange⟩ := scanHalf_rejected _ hb
    rw [canDemoteFloatExpr_literal Val Reason r hr, if_pos hrange]
  · intro hb hl
    obtain ⟨r, hr, hrange⟩ := scanHalf_accepted _ hb
    rw [canDemoteFloatExpr_literal Val Reason r hr, if_neg (by simp [hrange]), if_pos hl]

/-- Class of the binary16 result of a literal outside the H16 range, on the
value that the literal denotes. -/
theorem convert_class (Val : APFloat) :
    (Val.isFinite = false → Val.convert.1 / 1024 % 32 = 31) ∧
    (Val.isFinite = true → (65520 : ℚ) ≤ |Val.toRat| → Val.convert.1 / 1024 % 32 = 31) ∧
    ((65504 : ℚ) < |Val.toRat| → |Val.toRat| < 65520 →
      Val.convert.1 / 1024 % 32 = 30 ∧ Val.convert.1 % 1024 = 1023 ∧ Val.convert.2 = true) ∧
    (0 < |Val.toRat| → |Val.toRat| ≤ (1 : ℚ) / 33554432 →
      Val.convert.1 / 1024 % 32 = 0 ∧ Val.convert.1 % 1024 = 0 ∧ Val.convert.2 = true) ∧
    ((1 : ℚ) / 33554432 < |Val.toRat| → |Val.toRat| < (1 : ℚ) / 16384 →
      (Val.convert.1 / 1024 % 32 = 0 ∧ Val.convert.1 % 1024 ≠ 0) ∨
        (Val.convert.1 / 1024 % 32 = 1 ∧ Val.convert.1 % 1024 = 0)) := by
  have c1 : (65520 : ℚ) = ((65520 : Nat) : ℚ) := by norm_num
  have c2 : (65504 : ℚ) = ((65504 : Nat) : ℚ) := by norm_num
  have c3 : (1 : ℚ) / 33554432 = 1 / 2 ^ 25 := by norm_num
  have c4 : (1 : ℚ) / 16384 = 1 / 2 ^ 14 := by norm_num
  cases Val with
  | IEEEsingle v =>
    have hc := convertToHalf_class v
    simp only [APFloat.isFinite, APFloat.toRat, APFloat.convert, abs_toRat, c1, c2, c3, c4,
      nat_le_div_pow, nat_lt_div_pow, div_pow_lt_nat, div_pow_pos_iff,
      inv_pow_lt_div_pow 25 _ 149 (by norm_num), div_pow_lt_inv_pow 14 _ 149 (by norm_num),
      div_pow_le_inv_pow 25 _ 149 (by norm_num), bne_eq_false_iff_eq, bne_iff_ne, ne_eq]
    exact ⟨hc.1, hc.2.1, hc.2.2.1, hc.2.2.2.1, hc.2.2.2.2⟩
  | IEEEdouble v =>
    have hc := convertDoubleToHalf_class v
    simp only [APFloat.isFinite, APFloat.toRat, APFloat.convert, abs_toRatD, c1, c2, c3, c4,
      nat_le_div_pow, nat_lt_div_pow, div_pow_lt_nat, div_pow_pos_iff,
      inv_pow_lt_div_pow 25 _ 1074 (by norm_num), div_pow_lt_inv_pow 14 _ 1074 (by norm_num),
      div_pow_le_inv_pow 25 _ 1074 (by norm_num), bne_eq_false_iff_eq, bne_iff_ne, ne_eq]
    exact ⟨hc.1, hc.2.1, hc.2.2.1, hc.2.2.2.1, hc.2.2.2.2⟩

/-- Claim C14, as the code has it: a floating literal whose value is a NaN,
an infinity or outside the H16 range (`|v| > 65504` or `0 < |v| < 2^-14`) is
classified UNSAFE, whatever the type of the literal.  The range test is
applied to the value converted to binary16 and scanned back from its decimal
text of five digits, ahead of the losslessness check.  The reason is
`literal value out of __fp16 range` when the value is a NaN or an infinity,
when `|v| >= 65520` (the conversion overflows), or when `2^-25 < |v| < 2^-14`
(the conversion is a nonzero subnormal or the least normal value, and the
scanned text lies below `FP16_MIN_POSITIVE`).  For every other value out of
range (`65504 < |v| < 65520`, `0 < |v| <= 2^-25`) the converted value is in
range and the reason is
`literal value loses precision when converted to __fp16`. -/
theorem literal_out_of_range_reason (Val : APFloat) (Reason : String)
    (h : Val.isFinite = false ∨ (65504 : ℚ) < |Val.toRat| ∨
      (0 < |Val.toRat| ∧ |Val.toRat| < (1 : ℚ) / 16384)) :
    (canDemoteFloatExpr (.FloatingLiteral Val) Reason).1 = false ∧
    ((Val.isFinite = false ∨ (65520 : ℚ) ≤ |Val.toRat| ∨
        ((1 : ℚ) / 33554432 < |Val.toRat| ∧ |Val.toRat| < (1 : ℚ) / 16384)) →
      (canDemoteFloatExpr (.FloatingLiteral Val) Reason).2 =
        "literal value out of __fp16 range") ∧
    (¬ (Val.isFinite = false ∨ (65520 : ℚ) ≤ |Val.toRat| ∨
        ((1 : ℚ) / 33554432 < |Val.toRat| ∧ |Val.toRat| < (1 : ℚ) / 16384)) →
      (canDemoteFloatExpr (.FloatingLiteral Val) Reason).2 =
        "literal value loses precision when converted to __fp16") := by
  have hc := convert_class Val
  have hr := literal_reason_of_class Val Reason
  by_cases hA : Val.isFinite = false ∨ (65520 : ℚ) ≤ |Val.toRat| ∨
      ((1 : ℚ) / 33554432 < |Val.toRat| ∧ |Val.toRat| < (1 : ℚ) / 16384)
  · have hcls : Val.convert.1 / 1024 % 32 = 31 ∨
        (Val.convert.1 / 1024 % 32 = 0 ∧ Val.convert.1 % 1024 ≠ 0) ∨
        (Val.convert.1 / 1024 % 32 = 1 ∧ Val.convert.1 % 1024 = 0) := by
      rcases hA with hf | hbig | ⟨h1, h2⟩
      · exact Or.inl (hc.1 hf)
      · by_cases hf : Val.isFinite = true
        · exact Or.inl (hc.2.1 hf hbig)
        · exact Or.inl (hc.1 (by simpa using hf))
      · exact Or.inr (hc.2.2.2.2 h1 h2)
    rw [hr.1 hcls]
    exact ⟨rfl, fun _ => rfl, fun hn => absurd hA hn⟩
  · have hA2 := hA
    rw [not_or, not_or, not_le, not_and, not_lt] at hA2
    obtain ⟨hf, hlt, hband⟩ := hA2
    have hcls : ((Val.convert.1 / 1024 % 32 = 0 ∧ Val.convert.1 % 1024 = 0) ∨
        (Val.convert.1 / 1024 % 32 = 30 ∧ Val.convert.1 % 1024 = 1023)) ∧
        Val.convert.2 = true := by
      rcases h with hnf | hbig | ⟨hpos, hsmall⟩
      · exact absurd hnf hf
      · have := hc.2.2.1 hbig hlt
        exact ⟨Or.inr ⟨this.1, this.2.1⟩, this.2.2⟩
      · have hle : |Val.toRat| ≤ (1 : ℚ) / 33554432 := by
          by_contra hcon
          exact absurd hsmall (not_lt.2 (hband (not_le.1 hcon)))
        have := hc.2.2.2.1 hpos hle
        exact ⟨Or.inl ⟨this.1, this.2.1⟩, this.2.2⟩
    rw [hr.2 hcls.1 hcls.2]
    exact ⟨rfl, fun hp => absurd hp hA, fun _ => rfl⟩

/-- Witness of `literal_out_of_range_reason` at `70000.0f`. -/
theorem literal_out_of_range_reason_witness :
    (65504 : ℚ) < |(APFloat.IEEEsingle 0x4788B800).toRat| ∧
    (canDemoteFloatExpr (.FloatingLiteral (.IEEEsingle 0x4788B800)) "").1 = false :=
  ⟨by
      rw [show (65504 : ℚ) = ((65504 : Nat) : ℚ) by norm_num, APFloat.toRat, abs_toRat,
        nat_lt_div_pow]
      decide,
    (literal_out_of_range_reason (.IEEEsingle 0x4788B800) "" (Or.inr (Or.inl (by
      rw [show (65504 : ℚ) = ((65504 : Nat) : ℚ) by norm_num, APFloat.toRat, abs_toRat,
        nat_lt_div_pow]
      decide)))).1⟩

/-- Counterexample to claim C14 as stated: `1e-8f` and `65505.0f` fail the
range test, and the reason reported for each is the one for lost precision,
not the one for the range. -/
theorem literal_tiny_reports_precision :
    isValueInFp16Range 0x322BCC77 = false ∧
    canDemoteFloatExpr (.FloatingLiteral (.IEEEsingle 0x322BCC77)) "" =
      (false, "literal value loses precision when converted to __fp16") ∧
    isValueInFp16Range 0x477FE100 = false ∧
    canDemoteFloatExpr (.FloatingLiteral (.IEEEsingle 0x477FE100)) "" =
      (false, "literal value loses precision when converted to __fp16") ∧
    (canDemoteFloatExpr (.FloatingLiteral (.IEEEsingle 0x322BCC77)) "").2 ≠
      "literal value out of __fp16 range" := by
  decide!

/-! ## Literals classified SAFE -/

/-- Every binary16 normal pattern other than plus or minus `2^-14` is scanned
as a value that passes the range test. -/
theorem scanHalf_normal_accepted (h : Nat) (h1 : 1 ≤ h / 1024 % 32) (h30 : h / 1024 % 32 ≤ 30)
    (hmin : ¬ (h / 1024 % 32 = 1 ∧ h % 1024 = 0)) :
    ∃ r, scanHalf h = some r ∧ isValueInFp16Range r = true := by
  have hs : h / 0x8000 % 2 < 2 := Nat.mod_lt _ (by norm_num)
  have hlt : h % 1024 < 1024 := Nat.mod_lt _ (by norm_num)
  obtain ⟨hlo, hhi⟩ := scanMagnitude_normal (h / 1024 % 32) (h % 1024) h1 h30 hlt hmin
  refine ⟨h / 0x8000 % 2 * 2 ^ 31 +
    scanMagnitude 11 (1024 + h % 1024) (((h / 1024 % 32 : Nat) : Int) - 25), ?_, ?_⟩
  · unfold scanHalf
    simp only
    rw [if_neg (by omega), if_neg (by omega)]
  · generalize scanMagnitude 11 (1024 + h % 1024) (((h / 1024 % 32 : Nat) : Int) - 25) = x
      at hlo hhi
    rw [inRange_sign _ _ hs (by omega), isValueInFp16Range_iff_fields, expField_eq,
      mantField_eq]
    omega

/-- A literal whose conversion to binary16 loses nothing and yields a zero
or a normal number other than plus or minus `2^-14` is classified SAFE. -/
theorem literal_safe_of_class (Val : APFloat) (Reason : String)
    (hl : Val.convert.2 = false)
    (hcls : (Val.convert.1 / 1024 % 32 = 0 ∧ Val.convert.1 % 1024 = 0) ∨
      (1 ≤ Val.convert.1 / 1024 % 32 ∧ Val.convert.1 / 1024 % 32 ≤ 30 ∧
        ¬ (Val.convert.1 / 1024 % 32 = 1 ∧ Val.convert.1 % 1024 = 0))) :
    canDemoteFloatExpr (.FloatingLiteral Val) Reason = (true, Reason) := by
  have hacc : ∃ r, scanHalf Val.convert.1 = some r ∧ isValueInFp16Range r = true := by
    rcases hcls with hz | ⟨h1, h30, hmin⟩
    · exact scanHalf_accepted _ (Or.inl hz)
    · exact scanHalf_normal_accepted _ h1 h30 hmin
  obtain ⟨r, hr, hrange⟩ := hacc
  rw [canDemoteFloatExpr_literal Val Reason r hr, if_neg (by simp [hrange]),
    if_neg (by simp [hl])]

/-- A literal of type `float` classified SAFE is a zero, or has a binary16
normal exponent and its low 13 mantissa bits clear, and is not plus or minus
`2^-14`. -/
theorem safe_single_fields (v : Nat) (Reason : String)
    (h : (canDemoteFloatExpr (.FloatingLiteral (.IEEEsingle v)) Reason).1 = true) :
    (expField v = 0 ∧ mantField v = 0) ∨
      (113 ≤ expField v ∧ expField v ≤ 142 ∧ mantField v % 8192 = 0 ∧
        ¬ (expField v = 113 ∧ mantField v = 0)) := by
  obtain ⟨hl, hcls⟩ := literal_safe_imp _ Reason h
  simp only [APFloat.convert] at hl hcls
  have hs := signBit_lt v
  have hm := mantField_lt v
  have hE := expField_lt v
  by_cases h255 : expField v = 255
  · exfalso
    rw [convertToHalf_special v h255] at hcls
    split at hcls
    · simp only at hcls; omega
    · have hx : mantField v / 8192 ||| 0x200 < 2 ^ 10 :=
        Nat.or_lt_two_pow (by omega) (by norm_num)
      simp only at hcls; omega
  · by_cases h113 : 113 ≤ expField v
    · right
      have hr := rneShift_13 (2 ^ 23 + mantField v) (by norm_num) (by norm_num; omega)
      rw [convertToHalf_normal v h113 h255] at hl hcls
      by_cases hov : 0x7C00 ≤ (expField v - 113) * 1024 + rneShift (2 ^ 23 + mantField v) 13
      · rw [if_pos hov] at hl
        simp at hl
      · rw [if_neg hov] at hl hcls
        simp only [decide_eq_false_iff_not, ne_eq, not_not] at hl
        refine ⟨h113, by omega, ?_, ?_⟩
        · norm_num at hl
          omega
        · rintro ⟨he, hm0⟩
          have hr0 : rneShift (2 ^ 23 + 0) 13 = 1024 := by decide
          rw [he, hm0, hr0] at hcls
          simp only at hcls
          omega
    · left
      by_cases h0 : expField v = 0
      · have hr := rneShift_small (mantField v) 125
          (lt_of_lt_of_le hm (by norm_num)) (by omega)
        rw [convertToHalf_subnormal v h0, if_neg (by omega)] at hl
        simp only [decide_eq_false_iff_not, ne_eq, not_not] at hl
        rw [Nat.mod_eq_of_lt (lt_of_lt_of_le hm (by norm_num))] at hl
        exact ⟨h0, hl⟩
      · exfalso
        have hk : 2 ^ 24 ≤ 1024 * 2 ^ (126 - expField v) := by
          calc 2 ^ 24 = 1024 * 2 ^ 14 := by norm_num
            _ ≤ 1024 * 2 ^ (126 - expField v) :=
              Nat.mul_le_mul_left _ (Nat.pow_le_pow_right (by norm_num) (by omega))
        have hr := rneShift_small (2 ^ 23 + mantField v) (126 - expField v)
          (lt_of_lt_of_le (by norm_num; omega) hk) (by omega)
        rw [convertToHalf_small v (by omega) (by omega), if_neg (by omega)] at hl hcls
        simp only [decide_eq_false_iff_not, ne_eq, not_not] at hl
        have hne : rneShift (2 ^ 23 + mantField v) (126 - expField v) ≠ 0 := by
          rw [rneShift_of_dvd _ _ hl]
          have hd : 2 ^ (126 - expField v) ∣ 2 ^ 23 + mantField v := Nat.dvd_of_mod_eq_zero hl
          have hle := Nat.le_of_dvd (by positivity) hd
          have := Nat.div_pos hle (by positivity)
          omega
        have hlt : rneShift (2 ^ 23 + mantField v) (126 - expField v) < 1024 := by
          rw [rneShift_of_dvd _ _ hl]
          exact Nat.div_lt_of_lt_mul (by
            rw [Nat.mul_comm]; exact lt_of_lt_of_le (by norm_num; omega) hk)
        simp only at hcls
        generalize rneShift (2 ^ 23 + mantField v) (126 - expField v) = r at *
        omega

/-- The conversion of a `float` with a binary16 normal exponent and its low
13 mantissa bits clear. -/
theorem convertToHalf_exact (v : Nat) (h113 : 113 ≤ expField v) (h142 : expField v ≤ 142)
    (hmd : mantField v % 8192 = 0) :
    convertToHalf v =
      (signBit v * 0x8000 + ((expField v - 112) * 1024 + mantField v / 8192), false) := by
  have hm := mantField_lt v
  have hdiv : (2 ^ 23 + mantField v) % 2 ^ 13 = 0 := by norm_num; omega
  have hq : (2 ^ 23 + mantField v) / 2 ^ 13 = 1024 + mantField v / 8192 := by
    norm_num
    omega
  rw [convertToHalf_normal v h113 (by omega), rneShift_of_dvd _ _ hdiv, hq,
    if_neg (by norm_num; omega)]
  simp only [hdiv, ne_eq, not_true_eq_false, decide_False, Prod.mk.injEq, and_true]
  omega

/-- A `float` literal that is a zero, or has a binary16 normal exponent and
its low 13 mantissa bits clear and is not plus or minus `2^-14`, is
classified SAFE. -/
theorem safe_of_single_fields (v : Nat) (Reason : String)
    (hF : (expField v = 0 ∧ mantField v = 0) ∨
      (113 ≤ expField v ∧ expField v ≤ 142 ∧ mantField v % 8192 = 0 ∧
        ¬ (expField v = 113 ∧ mantField v = 0))) :
    canDemoteFloatExpr (.FloatingLiteral (.IEEEsingle v)) Reason = (true, Reason) := by
  have hs := signBit_lt v
  have hm := mantField_lt v
  apply literal_safe_of_class
  · simp only [APFloat.convert]
    rcases hF with ⟨he, hz⟩ | ⟨h113, h142, hmd, -⟩
    · rw [convertToHalf_zero v he hz]
    · rw [convertToHalf_exact v h113 h142 hmd]
  · simp only [APFloat.convert]
    rcases hF with ⟨he, hz⟩ | ⟨h113, h142, hmd, hne⟩
    · rw [convertToHalf_zero v he hz]
      simp only
      omega
    · rw [convertToHalf_exact v h113 h142 hmd]
      simp only
      omega

/-- A literal of type `double` classified SAFE is a zero, or has a binary16
normal exponent and its low 42 mantissa bits clear, and is not plus or minus
`2^-14`. -/
theorem safe_double_fields (v : Nat) (Reason : String)
    (h : (canDemoteFloatExpr (.FloatingLiteral (.IEEEdouble v)) Reason).1 = true) :
    (expFieldD v = 0 ∧ mantFieldD v = 0) ∨
      (1009 ≤ expFieldD v ∧ expFieldD v ≤ 1038 ∧ mantFieldD v % 2 ^ 42 = 0 ∧
        ¬ (expFieldD v = 1009 ∧ mantFieldD v = 0)) := by
  obtain ⟨hl, hcls⟩ := literal_safe_imp _ Reason h
  simp only [APFloat.convert] at hl hcls
  have hs := signBitD_lt v
  have hm := mantFieldD_lt v
  have hE := expFieldD_lt v
  by_cases h2047 : expFieldD v = 2047
  · exfalso
    rw [convertDoubleToHalf_special v h2047] at hcls
    split at hcls
    · simp only at hcls; omega
    · have hx : mantFieldD v / 2 ^ 42 ||| 0x200 < 2 ^ 10 :=
        Nat.or_lt_two_pow (Nat.div_lt_of_lt_mul (by norm_num; omega)) (by norm_num)
      simp only at hcls; omega
  · by_cases h1009 : 1009 ≤ expFieldD v
    · right
      have hr := rneShift_42 (2 ^ 52 + mantFieldD v) (by omega) (by omega)
      rw [convertDoubleToHalf_normal v h1009 h2047] at hl hcls
      by_cases hov : 0x7C00 ≤
          (expFieldD v - 1009) * 1024 + rneShift (2 ^ 52 + mantFieldD v) 42
      · rw [if_pos hov] at hl
        simp at hl
      · rw [if_neg hov] at hl hcls
        simp only [decide_eq_false_iff_not, ne_eq, not_not] at hl
        refine ⟨h1009, by omega, ?_, ?_⟩
        · norm_num at hl ⊢
          omega
        · rintro ⟨he, hm0⟩
          have hr0 : rneShift (2 ^ 52 + 0) 42 = 1024 := by decide
          rw [he, hm0, hr0] at hcls
          simp only at hcls
          omega
    · left
      by_cases h0 : expFieldD v = 0
      · have hr := rneShift_small (mantFieldD v) 1050
          (lt_of_lt_of_le hm (by
            calc (2 : Nat) ^ 52 ≤ 2 ^ 1060 := Nat.pow_le_pow_right (by norm_num) (by norm_num)
              _ = 1024 * 2 ^ 1050 := by
                rw [show (1024 : Nat) = 2 ^ 10 by norm_num, ← Nat.pow_add]))
          (by omega)
        have hlt : mantFieldD v < 2 ^ 1050 :=
          lt_of_lt_of_le hm (Nat.pow_le_pow_right (by norm_num) (by norm_num))
        rw [convertDoubleToHalf_subnormal v h0, if_neg (by omega)] at hl
        simp only [decide_eq_false_iff_not, ne_eq, not_not] at hl
        rw [Nat.mod_eq_of_lt hlt] at hl
        exact ⟨h0, hl⟩
      · exfalso
        have hk : 2 ^ 53 ≤ 1024 * 2 ^ (1051 - expFieldD v) := by
          calc 2 ^ 53 = 1024 * 2 ^ 43 := by norm_num
            _ ≤ 1024 * 2 ^ (1051 - expFieldD v) :=
              Nat.mul_le_mul_left _ (Nat.pow_le_pow_right (by norm_num) (by omega))
        have hr := rneShift_small (2 ^ 52 + mantFieldD v) (1051 - expFieldD v)
          (lt_of_lt_of_le (by norm_num; omega) hk) (by omega)
        rw [convertDoubleToHalf_small v (by omega) (by omega), if_neg (by omega)] at hl hcls
        simp only [decide_eq_false_iff_not, ne_eq, not_not] at hl
        have hne : rneShift (2 ^ 52 + mantFieldD v) (1051 - expFieldD v) ≠ 0 := by
          rw [rneShift_of_dvd _ _ hl]
          have hd : 2 ^ (1051 - expFieldD v) ∣ 2 ^ 52 + mantFieldD v :=
            Nat.dvd_of_mod_eq_zero hl
          have hle := Nat.le_of_dvd (by positivity) hd
          have := Nat.div_pos hle (by positivity)
          omega
        have hlt : rneShift (2 ^ 52 + mantFieldD v) (1051 - expFieldD v) < 1024 := by
          rw [rneShift_of_dvd _ _ hl]
          exact Nat.div_lt_of_lt_mul (by
            rw [Nat.mul_comm]; exact lt_of_lt_of_le (by norm_num; omega) hk)
        simp only at hcls
        generalize rneShift (2 ^ 52 + mantFieldD v) (1051 - expFieldD v) = r at *
        omega

/-- The conversion of a `double` zero to binary16. -/
theorem convertDoubleToHalf_zero (v : Nat) (he : expFieldD v = 0) (hm : mantFieldD v = 0) :
    convertDoubleToHalf v = (signBitD v * 0x8000, false) := by
  rw [convertDoubleToHalf_subnormal v he, hm, rneShift_of_dvd 0 1050 (by simp)]
  simp

/-- The conversion of a `double` with a binary16 normal exponent and its low
42 mantissa bits clear. -/
theorem convertDoubleToHalf_exact (v : Nat) (h1 : 1009 ≤ expFieldD v)
    (h2 : expFieldD v ≤ 1038) (hmd : mantFieldD v % 2 ^ 42 = 0) :
    convertDoubleToHalf v =
      (signBitD v * 0x8000 + ((expFieldD v - 1008) * 1024 + mantFieldD v / 2 ^ 42),
        false) := by
  have hm := mantFieldD_lt v
  have hdiv : (2 ^ 52 + mantFieldD v) % 2 ^ 42 = 0 := by
    norm_num at hmd ⊢
    omega
  have hq : (2 ^ 52 + mantFieldD v) / 2 ^ 42 = 1024 + mantFieldD v / 2 ^ 42 := by
    norm_num
    omega
  have hq2 : mantFieldD v / 2 ^ 42 < 1024 := Nat.div_lt_of_lt_mul (by norm_num; omega)
  rw [convertDoubleToHalf_normal v h1 (by omega), rneShift_of_dvd _ _ hdiv, hq,
    if_neg (by omega)]
  simp only [hdiv, ne_eq, not_true_eq_false, decide_False, Prod.mk.injEq, and_true]
  omega

/-- A `double` literal that is a zero, or has a binary16 normal exponent and
its low 42 mantissa bits clear and is not plus or minus `2^-14`, is
classified SAFE. -/
theorem safe_of_double_fields (v : Nat) (Reason : String)
    (hF : (expFieldD v = 0 ∧ mantFieldD v = 0) ∨
      (1009 ≤ expFieldD v ∧ expFieldD v ≤ 1038 ∧ mantFieldD v % 2 ^ 42 = 0 ∧
        ¬ (expFieldD v = 1009 ∧ mantFieldD v = 0))) :
    canDemoteFloatExpr (.FloatingLiteral (.IEEEdouble v)) Reason = (true, Reason) := by
  have hs := signBitD_lt v
  have hm := mantFieldD_lt v
  apply literal_safe_of_class
  · simp only [APFloat.convert]
    rcases hF with ⟨he, hz⟩ | ⟨h1, h2, hmd, -⟩
    · rw [convertDoubleToHalf_zero v he hz]
    · rw [convertDoubleToHalf_exact v h1 h2 hmd]
  · simp only [APFloat.convert]
    rcases hF with ⟨he, hz⟩ | ⟨h1, h2, hmd, hne⟩
    · rw [convertDoubleToHalf_zero v he hz]
      simp only
      omega
    · have hq2 : mantFieldD v / 2 ^ 42 < 1024 := Nat.div_lt_of_lt_mul (by norm_num; omega)
      have hq0 : mantFieldD v / 2 ^ 42 = 0 → mantFieldD v = 0 := by
        intro h0
        have := Nat.div_add_mod (mantFieldD v) (2 ^ 42)
        rw [h0, hmd] at this
        omega
      rw [convertDoubleToHalf_exact v h1 h2 hmd]
      simp only
      generalize mantFieldD v / 2 ^ 42 = q at hq2 hq0 ⊢
      right
      refine ⟨by omega, by omega, ?_⟩
      rintro ⟨ha, hb⟩
      have hq : q = 0 := by omega
      exact hne ⟨by omega, hq0 hq⟩

/-- The fields of a `float` literal classified SAFE, on the range test, the
flag of the conversion and the magnitude. -/
theorem single_fields_iff (v : Nat) :
    ((expField v = 0 ∧ mantField v = 0) ∨
      (113 ≤ expField v ∧ expField v ≤ 142 ∧ mantField v % 8192 = 0 ∧
        ¬ (expField v = 113 ∧ mantField v = 0))) ↔
      (isValueInFp16Range v = true ∧ (convertToHalf v).2 = false ∧
        magnitude v ≠ 2 ^ 135) := by
  have hm := mantField_lt v
  have hE := expField_lt v
  rw [isValueInFp16Range_iff_fields]
  constructor
  · rintro (⟨he, hz⟩ | ⟨h113, h142, hmd, hne⟩)
    · refine ⟨Or.inl ⟨he, hz⟩, by rw [convertToHalf_zero v he hz], ?_⟩
      rw [magnitude_of_exp_zero v he, hz]
      positivity
    · refine ⟨Or.inr ⟨h113, by omega⟩, by rw [convertToHalf_exact v h113 h142 hmd], ?_⟩
      by_cases he : expField v = 113
      · rw [magnitude_of_exp_pos v (by omega), he]
        intro hc
        have e : (2 : Nat) ^ 135 = 2 ^ 23 * 2 ^ (113 - 1) := by norm_num
        rw [e] at hc
        have := Nat.eq_of_mul_eq_mul_right (by positivity) hc
        exact hne ⟨he, by omega⟩
      · have := magnitude_ge_of_exp_ge v 114 (by omega) (by omega)
        have c : (2 : Nat) ^ 135 < 2 ^ (114 + 22) := by norm_num
        omega
  · rintro ⟨hr, hl, hmag⟩
    rcases hr with hz | ⟨h113, h142⟩
    · exact Or.inl hz
    · right
      have h142' : expField v ≤ 142 := by omega
      refine ⟨h113, h142', ((convertToHalf_normal_exact v h113 h142').1).1 hl, ?_⟩
      rintro ⟨he, hz⟩
      apply hmag
      rw [magnitude_of_exp_pos v (by omega), he, hz]
      norm_num

/-- The fields of a `double` literal classified SAFE, on the range of the
value, the flag of the conversion and the magnitude. -/
theorem double_fields_iff (v : Nat) :
    ((expFieldD v = 0 ∧ mantFieldD v = 0) ∨
      (1009 ≤ expFieldD v ∧ expFieldD v ≤ 1038 ∧ mantFieldD v % 2 ^ 42 = 0 ∧
        ¬ (expFieldD v = 1009 ∧ mantFieldD v = 0))) ↔
      ((expFieldD v ≠ 2047 ∧
          (magnitudeD v = 0 ∨ (2 ^ 1060 ≤ magnitudeD v ∧ magnitudeD v ≤ 65504 * 2 ^ 1074))) ∧
        (convertDoubleToHalf v).2 = false ∧ magnitudeD v ≠ 2 ^ 1060) := by
  have hm := mantFieldD_lt v
  have hE := expFieldD_lt v
  have c15 : (2 : Nat) ^ (1037 + 52) ≤ 65504 * 2 ^ 1074 := by
    calc (2 : Nat) ^ (1037 + 52) = 2 ^ 15 * 2 ^ 1074 := by rw [← Nat.pow_add]
      _ ≤ 65504 * 2 ^ 1074 := Nat.mul_le_mul_right _ (by norm_num)
  have c16 : 65504 * 2 ^ 1074 < 2 ^ (1039 + 51) := by
    calc 65504 * 2 ^ 1074 < 2 ^ 16 * 2 ^ 1074 :=
          Nat.mul_lt_mul_of_pos_right (by norm_num) (by positivity)
      _ = 2 ^ (1039 + 51) := by rw [← Nat.pow_add]
  have cmax : (65504 : Nat) * 2 ^ 1074 = 2047 * 2 ^ 42 * 2 ^ (1038 - 1) := by
    calc (65504 : Nat) * 2 ^ 1074 = 65504 * (2 ^ 37 * 2 ^ 1037) := by rw [← Nat.pow_add]
      _ = 2047 * 2 ^ 42 * 2 ^ (1038 - 1) := by rw [← Nat.mul_assoc]; norm_num
  have cmin : (2 : Nat) ^ 1060 = 2 ^ 52 * 2 ^ (1009 - 1) := by rw [← Nat.pow_add]
  constructor
  · rintro (⟨he, hz⟩ | ⟨h1, h2, hmd, hne⟩)
    · have hmag : magnitudeD v = 0 := by rw [magnitudeD_of_exp_zero v he, hz]
      refine ⟨⟨by omega, Or.inl hmag⟩, by rw [convertDoubleToHalf_zero v he hz], ?_⟩
      rw [hmag]
      have : 0 < 2 ^ 1060 := by positivity
      omega
    · have hlo := magnitudeD_ge_of_exp_ge v 1009 (by omega) h1
      refine ⟨⟨by omega, Or.inr ⟨hlo, ?_⟩⟩,
        by rw [convertDoubleToHalf_exact v h1 h2 hmd], ?_⟩
      · by_cases h1038 : expFieldD v = 1038
        · rw [magnitudeD_of_exp_pos v (by omega), h1038, cmax]
          apply Nat.mul_le_mul_right
          norm_num at hmd ⊢
          omega
        · have := magnitudeD_lt_of_exp_le v 1037 (by omega) (by omega)
          omega
      · by_cases he : expFieldD v = 1009
        · rw [magnitudeD_of_exp_pos v (by omega), he, cmin]
          intro hc
          have := Nat.eq_of_mul_eq_mul_right (by positivity) hc
          exact hne ⟨he, by omega⟩
        · have := magnitudeD_ge_of_exp_ge v 1010 (by omega) (by omega)
          have c : (2 : Nat) ^ 1060 < 2 ^ (1010 + 51) :=
            Nat.pow_lt_pow_right (by norm_num) (by norm_num)
          omega
  · rintro ⟨⟨h2047, hr⟩, hl, hmag⟩
    rcases hr with hz | ⟨hlo, hhi⟩
    · left
      by_cases he : expFieldD v = 0
      · rw [magnitudeD_of_exp_zero v he] at hz
        exact ⟨he, hz⟩
      · have := magnitudeD_ge_of_exp_ge v 1 (by omega) (by omega)
        have : 0 < 2 ^ (1 + 51) := by positivity
        omega
    · right
      have h1 : 1009 ≤ expFieldD v := by
        by_contra hc
        have := magnitudeD_lt_of_exp_le v 1008 (by omega) (by omega)
        omega
      have h2 : expFieldD v ≤ 1038 := by
        by_contra hc
        have := magnitudeD_ge_of_exp_ge v 1039 (by omega) (by omega)
        omega
      have hmd : mantFieldD v % 2 ^ 42 = 0 := by
        rw [convertDoubleToHalf_normal v h1 h2047] at hl
        split at hl
        · simp at hl
        · simp only [decide_eq_false_iff_not, ne_eq, not_not] at hl
          norm_num at hl ⊢
          omega
      refine ⟨h1, h2, hmd, ?_⟩
      rintro ⟨he, hz⟩
      apply hmag
      rw [magnitudeD_of_exp_pos v (by omega), he, hz, cmin, Nat.add_zero]

theorem inv_pow_le_div_pow (k M W : Nat) (hk : k ≤ W) :
    (1 : ℚ) / 2 ^ k ≤ (M : ℚ) / 2 ^ W ↔ 2 ^ (W - k) ≤ M := by
  rw [← not_lt, div_pow_lt_inv_pow k M W hk, not_lt]

theorem div_pow_le_nat (a M W : Nat) : (M : ℚ) / 2 ^ W ≤ ((a : Nat) : ℚ) ↔ M ≤ a * 2 ^ W := by
  rw [← not_lt, nat_lt_div_pow, not_lt]

theorem div_pow_eq_inv_pow (k M W : Nat) (hk : k ≤ W) :
    (M : ℚ) / 2 ^ W = (1 : ℚ) / 2 ^ k ↔ M = 2 ^ (W - k) := by
  rw [le_antisymm_iff, div_pow_le_inv_pow k M W hk, inv_pow_le_div_pow k M W hk,
    ← le_antisymm_iff]

theorem toRatD_eq_zero_iff (v : Nat) : toRatD v = 0 ↔ magnitudeD v = 0 := by
  rw [← abs_eq_zero, abs_toRatD]
  simp

/-- Claim C2, the code against the claim.  At the literal `6.103515625e-5f`,
the value `2^-14`, the code departs from the claim: the value passes the range
test and converts to binary16 without loss, to the pattern `0x0400`, which
denotes the same value; the text printed for the converted value is
`6.1035E-5`, it is scanned as the pattern `0x387FFFD5`, below
`FP16_MIN_POSITIVE`, and the literal is classified UNSAFE, as out of range.
At every other literal, of type `float` or `double`, the code does what the
claim says: the literal is classified SAFE exactly when its value is in H16
range and its conversion to binary16 loses nothing, the magnitude `2^-14`
apart. -/
theorem literal_safe_except_min_normal :
    (isValueInFp16Range 0x38800000 = true ∧
      convertToHalf 0x38800000 = (0x0400, false) ∧
      halfToFloat 0x0400 = 0x38800000 ∧
      toStringValue 11 1024 (-24) = (61035, -9) ∧
      scanHalf 0x0400 = some 0x387FFFD5 ∧
      isValueInFp16Range 0x387FFFD5 = false ∧
      canDemoteFloatExpr (.FloatingLiteral (.IEEEsingle 0x38800000)) "" =
        (false, "literal value out of __fp16 range")) ∧
    (∀ (Val : APFloat) (Reason : String),
      ((canDemoteFloatExpr (.FloatingLiteral Val) Reason).1 = true ↔
        ((Val.isFinite = true ∧
            (Val.toRat = 0 ∨ ((1 : ℚ) / 16384 ≤ |Val.toRat| ∧ |Val.toRat| ≤ 65504))) ∧
          Val.convert.2 = false ∧ |Val.toRat| ≠ (1 : ℚ) / 16384)) ∧
      ((canDemoteFloatExpr (.FloatingLiteral Val) Reason).1 = true →
        canDemoteFloatExpr (.FloatingLiteral Val) Reason = (true, Reason))) := by
  refine ⟨by decide!, ?_⟩
  intro Val Reason
  have c1 : (1 : ℚ) / 16384 = 1 / 2 ^ 14 := by norm_num
  have c2 : (65504 : ℚ) = ((65504 : Nat) : ℚ) := by norm_num
  cases Val with
  | IEEEsingle v =>
    have hval : (((APFloat.IEEEsingle v).isFinite = true ∧
        ((APFloat.IEEEsingle v).toRat = 0 ∨
          ((1 : ℚ) / 16384 ≤ |(APFloat.IEEEsingle v).toRat| ∧
            |(APFloat.IEEEsingle v).toRat| ≤ 65504))) ∧
        (APFloat.IEEEsingle v).convert.2 = false ∧
        |(APFloat.IEEEsingle v).toRat| ≠ (1 : ℚ) / 16384) ↔
        ((expField v = 0 ∧ mantField v = 0) ∨
          (113 ≤ expField v ∧ expField v ≤ 142 ∧ mantField v % 8192 = 0 ∧
            ¬ (expField v = 113 ∧ mantField v = 0))) := by
      rw [single_fields_iff, isValueInFp16Range_iff_toRat]
      simp only [APFloat.isFinite, APFloat.toRat, APFloat.convert, ne_eq]
      rw [abs_toRat, c1, div_pow_eq_inv_pow 14 _ 149 (by norm_num)]
      rfl
    rw [hval]
    have hback := safe_of_single_fields v Reason
    refine ⟨⟨safe_single_fields v Reason, fun hF => by rw [hback hF]⟩, fun h => ?_⟩
    exact hback (safe_single_fields v Reason h)
  | IEEEdouble v =>
    have hval : (((APFloat.IEEEdouble v).isFinite = true ∧
        ((APFloat.IEEEdouble v).toRat = 0 ∨
          ((1 : ℚ) / 16384 ≤ |(APFloat.IEEEdouble v).toRat| ∧
            |(APFloat.IEEEdouble v).toRat| ≤ 65504))) ∧
        (APFloat.IEEEdouble v).convert.2 = false ∧
        |(APFloat.IEEEdouble v).toRat| ≠ (1 : ℚ) / 16384) ↔
        ((expFieldD v = 0 ∧ mantFieldD v = 0) ∨
          (1009 ≤ expFieldD v ∧ expFieldD v ≤ 1038 ∧ mantFieldD v % 2 ^ 42 = 0 ∧
            ¬ (expFieldD v = 1009 ∧ mantFieldD v = 0))) := by
      rw [double_fields_iff]
      simp only [APFloat.isFinite, APFloat.toRat, APFloat.convert, ne_eq, bne_iff_ne]
      rw [abs_toRatD, c1, c2, div_pow_eq_inv_pow 14 _ 1074 (by norm_num),
        inv_pow_le_div_pow 14 _ 1074 (by norm_num), div_pow_le_nat, toRatD_eq_zero_iff]
    rw [hval]
    have hback := safe_of_double_fields v Reason
    refine ⟨⟨safe_double_fields v Reason, fun hF => by rw [hback hF]⟩, fun h => ?_⟩
    exact hback (safe_double_fields v Reason h)

/-! ## Relative error of the audit record -/

theorem isnan_eq_false_of_exp (v : Nat) (h : expField v ≠ 255) : isnan v = false := by
  unfold isnan; simp [h]

theorem isinf_eq_false_of_exp (v : Nat) (h : expField v ≠ 255) : isinf v = false := by
  unfold isinf; simp [h]

theorem scaled_eq_zero_iff (v : Nat) : scaled v = 0 ↔ magnitude v = 0 := by
  unfold scaled
  split <;> omega

theorem ONE_E_MINUS_9_lt : ONE_E_MINUS_9 < 2 ^ 135 := by
  unfold ONE_E_MINUS_9; norm_num

/-- The relative error when the demoted value is zero. -/
theorem relativeError_flushed (v : Nat) (he : expField v ≤ 112) :
    (relativeError v 0 = .zero ↔ magnitude v = 0) ∧
    (relativeError v 0 = .infinity ↔ (0 < magnitude v ∧ magnitude v ≤ ONE_E_MINUS_9)) := by
  have h1 := isnan_eq_false_of_exp v (by omega)
  have h2 := isinf_eq_false_of_exp v (by omega)
  have h3 : isnan 0 = false := by decide
  have h4 : isinf 0 = false := by decide
  have h5 : magnitude 0 = 0 := by decide
  unfold relativeError absDifference divideByAbs
  simp only [h1, h2, h3, h4, h5, scaled_zero, scaled_eq_zero_iff, Bool.or_self, Bool.and_self,
    Bool.false_eq_true, if_false, Bool.not_false, Bool.true_and, decide_eq_true_eq,
    decide_True, Bool.and_true]
  by_cases hz : magnitude v = 0
  · have : ¬ ONE_E_MINUS_9 < magnitude v := by omega
    simp [hz, this]
  · by_cases ht : ONE_E_MINUS_9 < magnitude v
    · have : ¬ magnitude v ≤ ONE_E_MINUS_9 := by omega
      simp [hz, ht, this]
    · have h6 : magnitude v ≤ ONE_E_MINUS_9 := by omega
      have h7 : 0 < magnitude v := by omega
      simp [hz, ht, h6, h7]

/-- The relative error when the demoted value is an infinity. -/
theorem relativeError_overflowed (v : Nat) (he : 143 ≤ expField v) :
    relativeError v (if signBit v ≠ 0 then 0xFF800000 else 0x7F800000) ≠ .zero ∧
    (relativeError v (if signBit v ≠ 0 then 0xFF800000 else 0x7F800000) = .infinity ↔
      isinf v = false) := by
  have hs := signBit_lt v
  have hmag := magnitude_ge_of_exp_ge v 143 (by omega) he
  have hT : ONE_E_MINUS_9 < magnitude v := by
    have := ONE_E_MINUS_9_lt
    have c : (2 : Nat) ^ 135 ≤ 2 ^ (143 + 22) := by norm_num
    omega
  have hd1 : isnan (if signBit v ≠ 0 then 0xFF800000 else 0x7F800000) = false := by
    split <;> decide
  have hd2 : isinf (if signBit v ≠ 0 then 0xFF800000 else 0x7F800000) = true := by
    split <;> decide
  have hd3 : signBit (if signBit v ≠ 0 then 0xFF800000 else 0x7F800000) = signBit v := by
    split
    · have : signBit v = 1 := by omega
      rw [this]; decide
    · have : signBit v = 0 := by omega
      rw [this]; decide
  unfold relativeError absDifference divideByAbs
  simp only [hd1, hd2, hd3, hT, decide_True, Bool.and_true, Bool.or_false, Bool.or_true,
    if_true]
  by_cases hn : isnan v = true
  · have hi : isinf v = false := by
      unfold isnan at hn
      unfold isinf
      simp at hn ⊢
      intro _
      exact hn.2
    simp [hn, hi]
  · have hn' : isnan v = false := by simpa using hn
    by_cases hi : isinf v = true
    · simp [hn', hi]
    · have hi' : isinf v = false := by simpa using hi
      simp [hn', hi']

/-- The relative error when the demoted value is the truncated argument. -/
theorem relativeError_truncated (v : Nat) (h1 : 113 ≤ expField v) (h2 : expField v ≤ 142) :
    (relativeError v (v - v % 8192) = .zero ↔ v % 8192 = 0) ∧
    relativeError v (v - v % 8192) ≠ .infinity := by
  have ht := truncate_fields v (by omega)
  have hn := isnan_eq_false_of_exp v (by omega)
  have hi := isinf_eq_false_of_exp v (by omega)
  have hn2 := isnan_eq_false_of_exp (v - v % 8192) (by rw [ht.2.1]; omega)
  have hi2 := isinf_eq_false_of_exp (v - v % 8192) (by rw [ht.2.1]; omega)
  have hmag := magnitude_ge_of_exp_ge v 113 (by omega) h1
  have hT : ONE_E_MINUS_9 < magnitude v := by
    have := ONE_E_MINUS_9_lt
    omega
  have hz : magnitude v ≠ 0 := by omega
  have hsc : scaled v = scaled (v - v % 8192) ↔ v % 8192 = 0 := by
    constructor
    · intro h
      have hm : magnitude v = magnitude (v - v % 8192) := by
        have := abs_scaled v
        rw [h, abs_scaled] at this
        exact_mod_cast this.symm
      rw [magnitude_of_exp_pos v (by omega),
        magnitude_of_exp_pos _ (by rw [ht.2.1]; omega), ht.2.1, ht.2.2.1] at hm
      have := Nat.eq_of_mul_eq_mul_right (by positivity) hm
      have hme := mantField_eq v
      omega
    · intro h
      rw [h, Nat.sub_zero]
  unfold relativeError absDifference divideByAbs
  simp only [hn, hi, hn2, hi2, hT, hz, hsc, Bool.or_self, Bool.and_self, Bool.false_eq_true,
    if_false, Bool.not_false, Bool.true_and, decide_True, if_true]
  by_cases h0 : v % 8192 = 0
  · simp [h0]
  · simp [h0]

/-- The binary32 comparison against the double nearest `1e-9` agrees with
the comparison of the denoted value against `10^-9`. -/
theorem magnitude_le_ONE_E_MINUS_9_iff (v : Nat) :
    magnitude v ≤ ONE_E_MINUS_9 ↔ 10 ^ 9 * magnitude v ≤ 2 ^ 149 := by
  have hm := mantField_lt v
  unfold ONE_E_MINUS_9
  by_cases h96 : expField v ≤ 96
  · have h := magnitude_lt_of_exp_le v 96 (by omega) h96
    generalize magnitude v = M at *
    norm_num at h ⊢
    constructor <;> intro _ <;> omega
  · by_cases h97 : expField v = 97
    · rw [magnitude_of_exp_pos v (by omega), h97]
      generalize mantField v = m at *
      norm_num at hm ⊢
      constructor <;> intro _ <;> omega
    · have h := magnitude_ge_of_exp_ge v 98 (by omega) (by omega)
      generalize magnitude v = M at *
      norm_num at h ⊢
      constructor <;> intro _ <;> omega

theorem abs_toRat_le_billionth_iff (v : Nat) :
    |toRat v| ≤ (1 : ℚ) / 10 ^ 9 ↔ 10 ^ 9 * magnitude v ≤ 2 ^ 149 := by
  rw [abs_toRat, div_le_iff₀ (by positivity)]
  have h1 : (1 : ℚ) / 10 ^ 9 * 2 ^ 149 = ((2 ^ 149 : Nat) : ℚ) / 10 ^ 9 := by norm_num
  rw [h1, le_div_iff₀ (by norm_num)]
  have h2 : ((magnitude v : Nat) : ℚ) * 10 ^ 9 = ((10 ^ 9 * magnitude v : Nat) : ℚ) := by
    push_cast; ring
  rw [h2, Nat.cast_le]

theorem abs_toRat_pos_iff (v : Nat) : 0 < |toRat v| ↔ 0 < magnitude v := by
  rw [abs_pos, Ne, toRat_eq_zero_iff]
  omega

theorem abs_toRat_ge_65536_iff (v : Nat) : (65536 : ℚ) ≤ |toRat v| ↔ 143 ≤ expField v := by
  rw [abs_toRat, le_div_iff₀ (by positivity)]
  have h1 : (65536 : ℚ) * 2 ^ 149 = ((2 ^ 165 : Nat) : ℚ) := by norm_num
  rw [h1, Nat.cast_le]
  constructor
  · intro h
    by_contra hc
    have := magnitude_lt_of_exp_le v 142 (by omega) (by omega)
    omega
  · intro h
    exact magnitude_ge_of_exp_ge v 143 (by omega) h

/-- The relative error of a value against its simulated demotion: when it is
zero and when it is infinite. -/
theorem relativeError_simulate (v d : Nat) (hv : v < 2 ^ 32) (hd : simulate_fp16 v = some d) :
    (relativeError v d = .zero ↔
      (magnitude v = 0 ∨ (113 ≤ expField v ∧ expField v ≤ 142 ∧ v % 8192 = 0))) ∧
    (relativeError v d = .infinity ↔
      ((0 < magnitude v ∧ magnitude v ≤ ONE_E_MINUS_9) ∨
        (143 ≤ expField v ∧ isinf v = false))) := by
  rw [simulate_fp16_eq v hv] at hd
  have hd' := Option.some.inj hd
  have hlt := ONE_E_MINUS_9_lt
  by_cases h112 : expField v ≤ 112
  · rw [if_pos h112] at hd'
    subst hd'
    have h := relativeError_flushed v h112
    rw [h.1, h.2]
    constructor
    · constructor
      · intro h0; exact Or.inl h0
      · rintro (h0 | h0)
        · exact h0
        · omega
    · constructor
      · intro h0; exact Or.inl h0
      · rintro (h0 | h0)
        · exact h0
        · omega
  · by_cases h143 : 143 ≤ expField v
    · rw [if_neg h112, if_pos h143] at hd'
      subst hd'
      have h := relativeError_overflowed v h143
      have hmag := magnitude_ge_of_exp_ge v 143 (by omega) h143
      have c : (2 : Nat) ^ 135 ≤ 2 ^ (143 + 22) := by norm_num
      constructor
      · constructor
        · intro h0; exact absurd h0 h.1
        · rintro (h0 | h0) <;> omega
      · rw [h.2]
        constructor
        · intro h0; exact Or.inr ⟨h143, h0⟩
        · rintro (h0 | h0)
          · omega
          · exact h0.2
    · rw [if_neg h112, if_neg h143] at hd'
      subst hd'
      have h := relativeError_truncated v (by omega) (by omega)
      have hmag := magnitude_ge_of_exp_ge v 113 (by omega) (by omega)
      constructor
      · rw [h.1]
        constructor
        · intro h0; exact Or.inr ⟨by omega, by omega, h0⟩
        · rintro (h0 | h0)
          · omega
          · exact h0.2.2
      · constructor
        · intro h0; exact absurd h0 h.2
        · rintro (h0 | h0) <;> omega

theorem rneShift_le (sig k : Nat) : rneShift sig k ≤ sig / 2 ^ k + 1 := by
  unfold rneShift
  simp only
  split_ifs <;> omega

theorem rneShift_zero (k : Nat) : rneShift 0 k = 0 := by
  rw [rneShift_of_dvd 0 k (by simp)]
  simp

/-- Rounding a 53-bit significand to 24 bits. -/
theorem rneShift_29 (sig : Nat) (h1 : 2 ^ 52 ≤ sig) (h2 : sig < 2 ^ 53) :
    2 ^ 23 ≤ rneShift sig 29 ∧ rneShift sig 29 ≤ 2 ^ 24 ∧
      (rneShift sig 29 = 2 ^ 24 ↔ 2 ^ 53 - 2 ^ 28 ≤ sig) := by
  unfold rneShift
  norm_num at h1 h2 ⊢
  split_ifs <;> omega

theorem isnanD_eq_false_of_exp (v : Nat) (h : expFieldD v ≠ 2047) : isnanD v = false := by
  unfold isnanD; simp [h]

theorem isinfD_eq_false_of_exp (v : Nat) (h : expFieldD v ≠ 2047) : isinfD v = false := by
  unfold isinfD; simp [h]

theorem scaledD_eq_zero_iff (v : Nat) : scaledD v = 0 ↔ magnitudeD v = 0 := by
  unfold scaledD
  split <;> omega

/-- The conversion of a finite `double` to `float`: sign kept, magnitude
pattern at most that of infinity, and at least that of `65536` exactly from
`65536 - 2^-9` on. -/
theorem doubleToFloat_of_finite (v : Nat) (h : expFieldD v ≠ 2047) :
    ∃ mag, mag ≤ 255 * 2 ^ 23 ∧ doubleToFloat v = signBitD v * 2 ^ 31 + mag ∧
      (143 * 2 ^ 23 ≤ mag ↔ (2 ^ 25 - 1) * 2 ^ 1065 ≤ magnitudeD v) ∧
      (magnitudeD v = 0 → mag = 0) := by
  have hs := signBitD_lt v
  have hm := mantFieldD_lt v
  have hE := expFieldD_lt v
  have c1 : (2 ^ 25 - 1) * 2 ^ 1065 ≤ 2 ^ (1039 + 51) := by
    calc (2 ^ 25 - 1) * 2 ^ 1065 ≤ 2 ^ 25 * 2 ^ 1065 := Nat.mul_le_mul_right _ (by norm_num)
      _ = 2 ^ (1039 + 51) := by rw [← Nat.pow_add]
  have c2 : 2 ^ (1037 + 52) ≤ (2 ^ 25 - 1) * 2 ^ 1065 := by
    calc 2 ^ (1037 + 52) = 2 ^ 24 * 2 ^ 1065 := by rw [← Nat.pow_add]
      _ ≤ (2 ^ 25 - 1) * 2 ^ 1065 := Nat.mul_le_mul_right _ (by norm_num)
  unfold doubleToFloat
  simp only [h, if_false]
  by_cases h897 : 897 ≤ expFieldD v
  · have h0 : expFieldD v ≠ 0 := by omega
    have hr := rneShift_29 (2 ^ 52 + mantFieldD v) (by omega) (by omega)
    simp only [h897, h0, if_true, if_false]
    have hpos : magnitudeD v ≠ 0 := by
      have := magnitudeD_ge_of_exp_ge v 897 (by omega) h897
      have : 0 < 2 ^ (897 + 51) := by positivity
      omega
    generalize rneShift (2 ^ 52 + mantFieldD v) 29 = r at hr
    by_cases hov : 0x7F800000 ≤ (expFieldD v - 897) * 2 ^ 23 + r
    · rw [if_pos hov]
      refine ⟨0x7F800000, by norm_num, rfl, ?_, fun h0 => absurd h0 hpos⟩
      have he : 1039 ≤ expFieldD v := by norm_num at hov hr; omega
      have := magnitudeD_ge_of_exp_ge v 1039 (by omega) he
      constructor
      · intro _; omega
      · intro _; norm_num
    · rw [if_neg hov]
      refine ⟨(expFieldD v - 897) * 2 ^ 23 + r, by norm_num at hov ⊢; omega, rfl, ?_,
        fun h0 => absurd h0 hpos⟩
      by_cases h1039 : 1039 ≤ expFieldD v
      · have := magnitudeD_ge_of_exp_ge v 1039 (by omega) h1039
        constructor
        · intro _; omega
        · intro _; norm_num at hr ⊢; omega
      · by_cases h1038 : expFieldD v = 1038
        · rw [magnitudeD_of_exp_pos v h0, h1038]
          have c3 : (2 ^ 25 - 1) * 2 ^ 1065 = (2 ^ 53 - 2 ^ 28) * 2 ^ (1038 - 1) := by
            calc (2 ^ 25 - 1) * 2 ^ 1065 = (2 ^ 25 - 1) * (2 ^ 28 * 2 ^ 1037) := by
                  rw [← Nat.pow_add]
              _ = (2 ^ 53 - 2 ^ 28) * 2 ^ (1038 - 1) := by
                  rw [← Nat.mul_assoc]; norm_num
          rw [c3, mul_le_mul_iff_of_pos_right (by positivity), ← hr.2.2]
          norm_num at hr ⊢
          omega
        · have := magnitudeD_lt_of_exp_le v 1037 (by omega) (by omega)
          constructor
          · intro _; norm_num at hr; omega
          · intro _; omega
  · have hsh : 30 ≤ 926 - max (expFieldD v) 1 := by omega
    simp only [h897, if_false, Nat.zero_add]
    have hsig : (if expFieldD v = 0 then mantFieldD v else 2 ^ 52 + mantFieldD v) < 2 ^ 53 := by
      split <;> omega
    have hr := rneShift_le (if expFieldD v = 0 then mantFieldD v else 2 ^ 52 + mantFieldD v)
      (926 - max (expFieldD v) 1)
    have hq : (if expFieldD v = 0 then mantFieldD v else 2 ^ 52 + mantFieldD v) /
        2 ^ (926 - max (expFieldD v) 1) < 2 ^ 23 := by
      apply Nat.div_lt_of_lt_mul
      calc (if expFieldD v = 0 then mantFieldD v else 2 ^ 52 + mantFieldD v) < 2 ^ 53 := hsig
        _ = 2 ^ 30 * 2 ^ 23 := by norm_num
        _ ≤ 2 ^ (926 - max (expFieldD v) 1) * 2 ^ 23 :=
          Nat.mul_le_mul_right _ (Nat.pow_le_pow_right (by norm_num) hsh)
    have hz : magnitudeD v = 0 →
        rneShift (if expFieldD v = 0 then mantFieldD v else 2 ^ 52 + mantFieldD v)
          (926 - max (expFieldD v) 1) = 0 := by
      intro h0
      by_cases he0 : expFieldD v = 0
      · rw [magnitudeD_of_exp_zero v he0] at h0
        rw [if_pos he0, h0, rneShift_zero]
      · have := magnitudeD_ge_of_exp_ge v 1 (by omega) (by omega)
        have : 0 < 2 ^ (1 + 51) := by positivity
        omega
    have hlt := magnitudeD_lt_of_exp_le v 896 (by omega) (by omega)
    have c4 : 2 ^ (896 + 52) ≤ 2 ^ (1037 + 52) := Nat.pow_le_pow_right (by norm_num) (by norm_num)
    generalize rneShift (if expFieldD v = 0 then mantFieldD v else 2 ^ 52 + mantFieldD v)
      (926 - max (expFieldD v) 1) = r at hr hz
    have hr23 : r ≤ 2 ^ 23 := by omega
    rw [if_neg (by norm_num at hr23 ⊢; omega)]
    refine ⟨r, by norm_num at hr23 ⊢; omega, rfl, ?_, hz⟩
    constructor
    · intro _; norm_num at hr23; omega
    · intro _; omega

theorem ONE_E_MINUS_9_D_lt : ONE_E_MINUS_9_D < 2 ^ 1045 := by
  unfold ONE_E_MINUS_9_D
  calc 4835703278458517 * 2 ^ 992 < 2 ^ 53 * 2 ^ 992 :=
        Nat.mul_lt_mul_of_pos_right (by norm_num) (by positivity)
    _ = 2 ^ 1045 := by rw [← Nat.pow_add]

/-- Fields of a binary32 pattern given by its sign and its magnitude
pattern. -/
theorem fields_of_sign_mag (s mag : Nat) (hs : s < 2) (hmag : mag ≤ 255 * 2 ^ 23) :
    s * 2 ^ 31 + mag < 2 ^ 32 ∧ signBit (s * 2 ^ 31 + mag) = s ∧
      expField (s * 2 ^ 31 + mag) = mag / 2 ^ 23 ∧
      mantField (s * 2 ^ 31 + mag) = mag % 2 ^ 23 := by
  rw [signBit_eq, expField_eq, mantField_eq]
  norm_num at hmag ⊢
  omega

/-- The relative error of a `double` against the simulated demotion of its
conversion to `float`: when it is infinite. -/
theorem relativeErrorD_simulate (v d : Nat) (hd : simulate_fp16 (doubleToFloat v) = some d) :
    relativeErrorD v d = .infinity ↔
      (isnanD v = true ∨ (expFieldD v ≠ 2047 ∧ (2 ^ 25 - 1) * 2 ^ 1065 ≤ magnitudeD v) ∨
        (0 < magnitudeD v ∧ magnitudeD v ≤ ONE_E_MINUS_9_D)) := by
  have hs := signBitD_lt v
  have hclt := ONE_E_MINUS_9_D_lt
  have hinf : ∀ s : Nat, s < 2 →
      isnan (if s ≠ 0 then 0xFF800000 else 0x7F800000) = false ∧
      isinf (if s ≠ 0 then 0xFF800000 else 0x7F800000) = true ∧
      signBit (if s ≠ 0 then 0xFF800000 else 0x7F800000) = s := by
    intro s hs
    have : s = 0 ∨ s = 1 := by omega
    rcases this with rfl | rfl <;> decide
  by_cases h2047 : expFieldD v = 2047
  · by_cases hm0 : mantFieldD v = 0
    · have hf : doubleToFloat v = signBitD v * 2 ^ 31 + 0x7F800000 := by
        unfold doubleToFloat; simp [h2047, hm0]
      obtain ⟨hlt, hfs, hfe, -⟩ := fields_of_sign_mag (signBitD v) 0x7F800000 hs (by norm_num)
      rw [← hf] at hlt hfs hfe
      rw [simulate_fp16_eq _ hlt, hfe, if_neg (by norm_num), if_pos (by norm_num), hfs] at hd
      have hd' := (Option.some.inj hd).symm
      obtain ⟨hd1, hd2, hd3⟩ := hinf _ hs
      rw [← hd'] at hd1 hd2 hd3
      have hn : isnanD v = false := by unfold isnanD; simp [hm0]
      have hi : isinfD v = true := by unfold isinfD; simp [h2047, hm0]
      have hge := magnitudeD_ge_of_exp_ge v 1039 (by omega) (by omega)
      have c : (2 : Nat) ^ 1045 ≤ 2 ^ (1039 + 51) :=
        Nat.pow_le_pow_right (by norm_num) (by norm_num)
      have hmag : ONE_E_MINUS_9_D < magnitudeD v := by omega
      have hnle : ¬ magnitudeD v ≤ ONE_E_MINUS_9_D := by omega
      unfold relativeErrorD absDifferenceD divideByAbsD
      simp [hn, hi, hd1, hd2, hd3, hmag, h2047, hnle]
    · have hn : isnanD v = true := by unfold isnanD; simp [h2047, hm0]
      unfold relativeErrorD
      simp [hn]
  · obtain ⟨mag, hmag, hf, hiff, hz⟩ := doubleToFloat_of_finite v h2047
    obtain ⟨hlt, hfs, hfe, -⟩ := fields_of_sign_mag (signBitD v) mag hs hmag
    rw [← hf] at hlt hfs hfe
    rw [simulate_fp16_eq _ hlt, hfs] at hd
    have hd' := (Option.some.inj hd).symm
    have hn := isnanD_eq_false_of_exp v h2047
    have hi := isinfD_eq_false_of_exp v h2047
    have h0n : isnan 0 = false := by decide
    have h0i : isinf 0 = false := by decide
    have h0m : magnitude 0 = 0 := by decide
    have hthr : 0 < (2 ^ 25 - 1) * 2 ^ 1065 := by positivity
    by_cases hz0 : magnitudeD v = 0
    · have hmag0 := hz hz0
      have he0 : expField (doubleToFloat v) = 0 := by rw [hfe, hmag0]; norm_num
      rw [if_pos (by omega)] at hd'
      subst hd'
      unfold relativeErrorD
      simp only [hn, hz0, h0n, h0m]
      simp
    · by_cases hc : magnitudeD v ≤ ONE_E_MINUS_9_D
      · have hnlt : ¬ ONE_E_MINUS_9_D < magnitudeD v := by omega
        unfold relativeErrorD
        simp only [hn, hz0, hnlt]
        simp only [Bool.not_false, Bool.true_and, decide_False, Bool.false_eq_true, if_false,
          Bool.false_and, true_iff]
        right; right
        exact ⟨by omega, hc⟩
      · have hgt : ONE_E_MINUS_9_D < magnitudeD v := by omega
        have h143 : 143 ≤ expField (doubleToFloat v) ↔
            (2 ^ 25 - 1) * 2 ^ 1065 ≤ magnitudeD v := by
          rw [hfe, ← hiff]
          norm_num
          omega
        by_cases hov : 143 ≤ expField (doubleToFloat v)
        · rw [if_neg (by omega), if_pos hov] at hd'
          obtain ⟨hd1, hd2, hd3⟩ := hinf _ hs
          rw [← hd'] at hd1 hd2 hd3
          have hval : relativeErrorD v d = .infinity := by
            unfold relativeErrorD absDifferenceD divideByAbsD
            simp [hn, hi, hd1, hd2, hgt]
          simp only [hval, true_iff]
          exact Or.inr (Or.inl ⟨h2047, h143.1 hov⟩)
        · have hd1 : isnan d = false ∧ isinf d = false := by
            by_cases h112 : expField (doubleToFloat v) ≤ 112
            · rw [if_pos h112] at hd'
              rw [hd']
              exact ⟨h0n, h0i⟩
            · rw [if_neg h112, if_neg hov] at hd'
              have ht := truncate_fields (doubleToFloat v) (by omega)
              rw [← hd'] at ht
              exact ⟨isnan_eq_false_of_exp d (by rw [ht.2.1]; omega),
                isinf_eq_false_of_exp d (by rw [ht.2.1]; omega)⟩
          have hnthr : ¬ (2 ^ 25 - 1) * 2 ^ 1065 ≤ magnitudeD v := fun h => hov (h143.2 h)
          have hval : relativeErrorD v d ≠ .infinity := by
            unfold relativeErrorD absDifferenceD divideByAbsD
            by_cases hsc : scaledD v = scaled d * 2 ^ 925
            · simp [hn, hi, hd1.1, hd1.2, hgt, hz0, hsc]
            · simp [hn, hi, hd1.1, hd1.2, hgt, hz0, hsc]
          constructor
          · intro h
            exact absurd h hval
          · rintro (h | h | h)
            · rw [hn] at h
              exact absurd h (by simp)
            · exact absurd h.2 hnthr
            · exact absurd h.2 hc

/-- A `double` with a binary16 normal exponent and its low 42 mantissa bits
clear converts to `float` with its fields unchanged. -/
theorem doubleToFloat_exact (v : Nat) (h1 : 1009 ≤ expFieldD v) (h2 : expFieldD v ≤ 1038)
    (hm : mantFieldD v % 2 ^ 42 = 0) :
    doubleToFloat v =
      signBitD v * 2 ^ 31 + ((expFieldD v - 896) * 2 ^ 23 + mantFieldD v / 2 ^ 29) := by
  have hmlt := mantFieldD_lt v
  have h2047 : expFieldD v ≠ 2047 := by omega
  have h0 : expFieldD v ≠ 0 := by omega
  have h897 : 897 ≤ expFieldD v := by omega
  have hdiv : (2 ^ 52 + mantFieldD v) % 2 ^ 29 = 0 := by
    norm_num at hm ⊢
    omega
  unfold doubleToFloat
  simp only [h2047, h0, h897, if_true, if_false]
  rw [rneShift_of_dvd _ _ hdiv]
  have hq : (2 ^ 52 + mantFieldD v) / 2 ^ 29 = 2 ^ 23 + mantFieldD v / 2 ^ 29 := by
    norm_num
    omega
  rw [hq, if_neg (by norm_num at hmlt ⊢; omega)]
  generalize mantFieldD v / 2 ^ 29 = q
  omega

/-- The audit record of a `double` literal classified SAFE: the simulated
demotion is the value itself and the relative error is zero. -/
theorem relativeErrorD_safe (v d : Nat)
    (hf : (expFieldD v = 0 ∧ mantFieldD v = 0) ∨
      (1009 ≤ expFieldD v ∧ expFieldD v ≤ 1038 ∧ mantFieldD v % 2 ^ 42 = 0))
    (hd : simulate_fp16 (doubleToFloat v) = some d) :
    relativeErrorD v d = .zero ∧ toRat d = toRatD v := by
  have hs := signBitD_lt v
  have hmlt := mantFieldD_lt v
  have h0n : isnan 0 = false := by decide
  have h0m : magnitude 0 = 0 := by decide
  rcases hf with ⟨he, hm⟩ | ⟨h1, h2, hm⟩
  · have h2047 : expFieldD v ≠ 2047 := by omega
    have hz0 : magnitudeD v = 0 := by rw [magnitudeD_of_exp_zero v he, hm]
    obtain ⟨mag, hmag, hfl, -, hz⟩ := doubleToFloat_of_finite v h2047
    obtain ⟨hlt, hfs, hfe, -⟩ := fields_of_sign_mag (signBitD v) mag hs hmag
    rw [← hfl] at hlt hfs hfe
    have he0 : expField (doubleToFloat v) = 0 := by rw [hfe, hz hz0]; norm_num
    rw [simulate_fp16_eq _ hlt, if_pos (by omega)] at hd
    have hd' := (Option.some.inj hd).symm
    subst hd'
    have hn := isnanD_eq_false_of_exp v h2047
    constructor
    · unfold relativeErrorD
      simp only [hn, hz0, h0n, h0m]
      simp
    · have e1 : toRat 0 = 0 := (toRat_eq_zero_iff 0).2 h0m
      have e2 : toRatD v = 0 := by
        unfold toRatD
        rw [(scaledD_eq_zero_iff v).2 hz0]
        simp
      rw [e1, e2]
  · have h2047 : expFieldD v ≠ 2047 := by omega
    have hfl := doubleToFloat_exact v h1 h2 hm
    have hq : mantFieldD v / 2 ^ 29 < 2 ^ 23 := Nat.div_lt_of_lt_mul (by norm_num; omega)
    have hq13 : mantFieldD v / 2 ^ 29 % 8192 = 0 := by
      norm_num at hm ⊢
      omega
    obtain ⟨hlt, hfs, hfe, hfm⟩ := fields_of_sign_mag (signBitD v)
      ((expFieldD v - 896) * 2 ^ 23 + mantFieldD v / 2 ^ 29) hs (by norm_num at hq ⊢; omega)
    rw [← hfl] at hlt hfs hfe hfm
    have hfe' : expField (doubleToFloat v) = expFieldD v - 896 := by
      rw [hfe]
      norm_num at hq ⊢
      omega
    have hfm' : mantField (doubleToFloat v) = mantFieldD v / 2 ^ 29 := by
      rw [hfm]
      norm_num at hq ⊢
      omega
    have h8192 : doubleToFloat v % 8192 = 0 := by
      rw [hfl]
      norm_num at hq13 ⊢
      omega
    rw [simulate_fp16_eq _ hlt, if_neg (by omega), if_neg (by omega), h8192,
      Nat.sub_zero] at hd
    have hd' := (Option.some.inj hd).symm
    subst hd'
    have hmagD := magnitudeD_of_exp_pos v (by omega)
    have hmagF := magnitude_of_exp_pos (doubleToFloat v) (by omega)
    have hmag : magnitudeD v = magnitude (doubleToFloat v) * 2 ^ 925 := by
      rw [hmagD, hmagF, hfe', hfm']
      have e1 : 2 ^ 52 + mantFieldD v = (2 ^ 23 + mantFieldD v / 2 ^ 29) * 2 ^ 29 := by
        norm_num at hm ⊢
        omega
      have e2 : 29 + (expFieldD v - 1) = expFieldD v - 896 - 1 + 925 := by omega
      rw [e1, Nat.mul_assoc, Nat.mul_assoc, ← Nat.pow_add, ← Nat.pow_add, e2]
    have hsc : scaledD v = scaled (doubleToFloat v) * 2 ^ 925 := by
      unfold scaledD scaled
      rw [hfs, hmag]
      split
      · push_cast; ring
      · push_cast; ring
    have hn := isnanD_eq_false_of_exp v h2047
    have hi := isinfD_eq_false_of_exp v h2047
    have hn2 := isnan_eq_false_of_exp (doubleToFloat v) (by omega)
    have hi2 := isinf_eq_false_of_exp (doubleToFloat v) (by omega)
    have hge := magnitudeD_ge_of_exp_ge v 1009 (by omega) h1
    have hclt := ONE_E_MINUS_9_D_lt
    have c : (2 : Nat) ^ 1045 ≤ 2 ^ (1009 + 51) :=
      Nat.pow_le_pow_right (by norm_num) (by norm_num)
    have hgt : ONE_E_MINUS_9_D < magnitudeD v := by omega
    have hz0 : magnitudeD v ≠ 0 := by omega
    constructor
    · unfold relativeErrorD absDifferenceD divideByAbsD
      simp [hn, hi, hn2, hi2, hgt, hz0, hsc]
    · unfold toRat toRatD
      rw [hsc]
      push_cast
      rw [show (2 : ℚ) ^ 1074 = 2 ^ 149 * 2 ^ 925 by rw [← pow_add]]
      rw [mul_div_mul_right _ _ (by positivity)]

/-- Comparison of a value in units of `2^-W` with a fraction over `2^k`. -/
theorem div_pow_le_frac (a k M W : Nat) (hk : k ≤ W) :
    (M : ℚ) / 2 ^ W ≤ ((a : Nat) : ℚ) / 2 ^ k ↔ M ≤ a * 2 ^ (W - k) := by
  have h2 : (2 : ℚ) ^ W = 2 ^ k * 2 ^ (W - k) := by
    rw [← pow_add]; congr 1; omega
  rw [h2, div_le_div_iff₀ (by positivity) (by positivity), mul_comm ((2 : ℚ) ^ k) _,
    ← mul_assoc, mul_le_mul_right (by positivity)]
  exact_mod_cast Iff.rfl

theorem frac_le_div_pow (a k M W : Nat) (hk : k ≤ W) :
    ((a : Nat) : ℚ) / 2 ^ k ≤ (M : ℚ) / 2 ^ W ↔ a * 2 ^ (W - k) ≤ M := by
  have h2 : (2 : ℚ) ^ W = 2 ^ k * 2 ^ (W - k) := by
    rw [← pow_add]; congr 1; omega
  rw [h2, div_le_div_iff₀ (by positivity) (by positivity), mul_comm ((2 : ℚ) ^ k) _,
    ← mul_assoc, mul_le_mul_right (by positivity)]
  exact_mod_cast Iff.rfl

/-- The audit record that `VisitFloatingLiteral` appends for a literal of the
main file. -/
theorem VisitFloatingLiteral_entry (fixed8 : Nat → String) (st : VisitorState)
    (F : FloatingLiteral) (d : Nat) (hmain : F.inMainFile = true)
    (hd : simulate_fp16 F.Val.toFloat = some d) :
    ∃ st', VisitFloatingLiteral fixed8 st F = some st' ∧
      st'.jsonEntries = st.jsonEntries ++
        [JsonEntry.mk F.Val d (auditError F.Val d)
          (canDemoteFloatExpr (.FloatingLiteral F.Val) "").1
          (canDemoteFloatExpr (.FloatingLiteral F.Val) "").2] := by
  unfold VisitFloatingLiteral
  simp only [hmain, Bool.not_true, Bool.false_eq_true, if_false, hd, Option.map_some']
  refine ⟨_, rfl, ?_⟩
  split
  · split
    · split <;> rfl
    · rfl
  · rfl

/-- When the relative error of a literal of type `float` is infinite, on the
value of the literal. -/
theorem relativeError_infinite_iff (v d : Nat) (hv : v < 2 ^ 32)
    (hd : simulate_fp16 v = some d) :
    relativeError v d = .infinity ↔
      (isnan v = true ∨ (isFinite v = true ∧ (65536 : ℚ) ≤ |toRat v|) ∨
        (0 < |toRat v| ∧ |toRat v| ≤ (1 : ℚ) / 10 ^ 9)) := by
  have hrel := relativeError_simulate v d hv hd
  rw [hrel.2, abs_toRat_ge_65536_iff, abs_toRat_pos_iff, abs_toRat_le_billionth_iff,
    ← magnitude_le_ONE_E_MINUS_9_iff, isFinite_iff]
  have hE := expField_lt v
  have hni := isnan_or_isinf_iff v
  have hlt := ONE_E_MINUS_9_lt
  by_cases h255 : expField v = 255
  · have hmag := magnitude_ge_of_exp_ge v 143 (by omega) (by omega)
    have c : (2 : Nat) ^ 135 ≤ 2 ^ (143 + 22) := by norm_num
    have hx : isnan v = true ↔ isinf v = false := by
      unfold isnan isinf
      by_cases hm0 : mantField v = 0 <;> simp [h255, hm0]
    constructor
    · rintro (h | h)
      · omega
      · exact Or.inl (hx.2 h.2)
    · rintro (h | h | h)
      · exact Or.inr ⟨by omega, hx.1 h⟩
      · exact absurd h255 h.1
      · omega
  · have hn := isnan_eq_false_of_exp v h255
    have hi := isinf_eq_false_of_exp v h255
    constructor
    · rintro (h | h)
      · exact Or.inr (Or.inr h)
      · exact Or.inr (Or.inl ⟨h255, h.1⟩)
    · rintro (h | h | h)
      · rw [hn] at h; exact absurd h (by simp)
      · exact Or.inr ⟨h.2, hi⟩
      · exact Or.inl h

/-- When the relative error of a literal of type `double` is infinite, on
the value of the literal. -/
theorem relativeErrorD_infinite_iff (v d : Nat)
    (hd : simulate_fp16 (doubleToFloat v) = some d) :
    relativeErrorD v d = .infinity ↔
      (isnanD v = true ∨ (expFieldD v ≠ 2047 ∧ (65536 : ℚ) - 1 / 512 ≤ |toRatD v|) ∨
        (0 < |toRatD v| ∧ |toRatD v| ≤ (4835703278458517 : ℚ) / 2 ^ 82)) := by
  have c1 : (65536 : ℚ) - 1 / 512 = ((2 ^ 25 - 1 : Nat) : ℚ) / 2 ^ 9 := by norm_num
  have c2 : (4835703278458517 : ℚ) = ((4835703278458517 : Nat) : ℚ) := by norm_num
  rw [relativeErrorD_simulate v d hd, abs_toRatD, c1, c2,
    frac_le_div_pow _ 9 _ 1074 (by norm_num), div_pow_le_frac _ 82 _ 1074 (by norm_num),
    div_pow_pos_iff, show (1074 : Nat) - 9 = 1065 by norm_num,
    show (1074 : Nat) - 82 = 992 by norm_num]
  unfold ONE_E_MINUS_9_D
  exact Iff.rfl

/-- Claim C17, as the code has it: the audit record of a floating literal of
the main file, of type `float` or `double`, holds the relative error of the
value of the literal against the simulated demotion of that value converted
to `float`.  For a literal classified SAFE the error is exactly zero and the
demoted value equals the original value.  For a literal of type `float` the
error is infinite exactly for a NaN, for a finite magnitude from `65536` on
(the demotion overflows to an infinity) and for a nonzero magnitude up to
`10^-9`.  For a literal of type `double` the error is infinite exactly for a
NaN, for a finite magnitude from `65536 - 2^-9` on (the conversion to `float`
reaches `65536`) and for a nonzero magnitude up to the `double` nearest
`1e-9`, which is `4835703278458517 * 2^-82`. -/
theorem audit_relative_error (fixed8 : Nat → String) (st : VisitorState) (F : FloatingLiteral)
    (hv : F.Val.WellFormed) (hmain : F.inMainFile = true) :
    ∃ st' e, VisitFloatingLiteral fixed8 st F = some st' ∧
      st'.jsonEntries = st.jsonEntries ++ [e] ∧
      e.value = F.Val ∧ simulate_fp16 F.Val.toFloat = some e.downcast ∧
      e.error = auditError F.Val e.downcast ∧
      e.safe = (canDemoteFloatExpr (.FloatingLiteral F.Val) "").1 ∧
      (e.safe = true → e.error = .zero ∧ toRat e.downcast = F.Val.toRat) ∧
      (∀ v, F.Val = .IEEEsingle v →
        (e.error = .infinity ↔
          (isnan v = true ∨ (isFinite v = true ∧ (65536 : ℚ) ≤ |toRat v|) ∨
            (0 < |toRat v| ∧ |toRat v| ≤ (1 : ℚ) / 10 ^ 9)))) ∧
      (∀ v, F.Val = .IEEEdouble v →
        (e.error = .infinity ↔
          (isnanD v = true ∨ (expFieldD v ≠ 2047 ∧ (65536 : ℚ) - 1 / 512 ≤ |toRatD v|) ∨
            (0 < |toRatD v| ∧ |toRatD v| ≤ (4835703278458517 : ℚ) / 2 ^ 82)))) := by
  obtain ⟨d, hd⟩ := simulate_fp16_total F.Val.toFloat
  obtain ⟨st', h1, h2⟩ := VisitFloatingLiteral_entry fixed8 st F d hmain hd
  refine ⟨st', _, h1, h2, rfl, hd, rfl, rfl, ?_, ?_, ?_⟩
  · intro hsafe
    change (canDemoteFloatExpr (.FloatingLiteral F.Val) "").1 = true at hsafe
    change auditError F.Val d = .zero ∧ toRat d = F.Val.toRat
    cases hV : F.Val with
    | IEEEsingle v =>
      rw [hV] at hsafe hd hv
      simp only [APFloat.toFloat, APFloat.WellFormed] at hd hv
      simp only [auditError, APFloat.toRat]
      have hrel := relativeError_simulate v d hv hd
      have hm := mantField_eq v
      rw [simulate_fp16_eq v hv] at hd
      have hd' := Option.some.inj hd
      rcases safe_single_fields v "" hsafe with ⟨he, hz⟩ | ⟨h113, h142, hmd, -⟩
      · have hmag : magnitude v = 0 := by rw [magnitude_of_exp_zero _ he, hz]
        refine ⟨hrel.1.2 (Or.inl hmag), ?_⟩
        rw [if_pos (by omega)] at hd'
        rw [← hd', (toRat_eq_zero_iff v).2 hmag]
        exact (toRat_eq_zero_iff 0).2 (by decide)
      · have h0 : v % 8192 = 0 := by omega
        refine ⟨hrel.1.2 (Or.inr ⟨h113, h142, h0⟩), ?_⟩
        rw [if_neg (by omega), if_neg (by omega), h0, Nat.sub_zero] at hd'
        rw [← hd']
    | IEEEdouble v =>
      rw [hV] at hsafe hd
      simp only [APFloat.toFloat] at hd
      simp only [auditError, APFloat.toRat]
      refine relativeErrorD_safe v d ?_ hd
      rcases safe_double_fields v "" hsafe with hz | ⟨h1, h2, hmd, -⟩
      · exact Or.inl hz
      · exact Or.inr ⟨h1, h2, hmd⟩
  · intro v hV
    rw [hV] at hd hv
    change auditError F.Val d = .infinity ↔ _
    rw [hV]
    exact relativeError_infinite_iff v d hv hd
  · intro v hV
    rw [hV] at hd
    change auditError F.Val d = .infinity ↔ _
    rw [hV]
    exact relativeErrorD_infinite_iff v d hd

/-- Witness of `audit_relative_error` at the literal `1.0`, of type
`double`. -/
theorem audit_relative_error_witness :
    ∃ st' e, VisitFloatingLiteral (fun _ => "1.00000000") ({} : VisitorState)
        ⟨true, .IEEEdouble 0x3FF0000000000000, 10, true, some 3⟩ = some st' ∧
      st'.jsonEntries = ({} : VisitorState).jsonEntries ++ [e] ∧
      e.value = .IEEEdouble 0x3FF0000000000000 ∧
      simulate_fp16 (doubleToFloat 0x3FF0000000000000) = some e.downcast ∧
      e.error = relativeErrorD 0x3FF0000000000000 e.downcast ∧
      e.safe = (canDemoteFloatExpr (.FloatingLiteral (.IEEEdouble 0x3FF0000000000000)) "").1 ∧
      (e.safe = true → e.error = .zero ∧ toRat e.downcast = toRatD 0x3FF0000000000000) ∧
      (∀ v, APFloat.IEEEdouble 0x3FF0000000000000 = .IEEEsingle v →
        (e.error = .infinity ↔
          (isnan v = true ∨ (isFinite v = true ∧ (65536 : ℚ) ≤ |toRat v|) ∨
            (0 < |toRat v| ∧ |toRat v| ≤ (1 : ℚ) / 10 ^ 9)))) ∧
      (∀ v, APFloat.IEEEdouble 0x3FF0000000000000 = .IEEEdouble v →
        (e.error = .infinity ↔
          (isnanD v = true ∨ (expFieldD v ≠ 2047 ∧ (65536 : ℚ) - 1 / 512 ≤ |toRatD v|) ∨
            (0 < |toRatD v| ∧ |toRatD v| ≤ (4835703278458517 : ℚ) / 2 ^ 82)))) :=
  audit_relative_error (fun _ => "1.00000000") ({} : VisitorState)
    ⟨true, .IEEEdouble 0x3FF0000000000000, 10, true, some 3⟩
    (by simp [APFloat.WellFormed]) rfl

/-- Counterexample to claim C17 as stated.  The literal `70000.0f` has a
magnitude far above `10^-9`, its simulated demotion is positive infinity, and
the relative error of its audit record is infinite.  The literal `65535.999`,
of type `double`, is below `65536`; it converts to the `float` `65536`, whose
simulated demotion is positive infinity, and the error is infinite.  The
literal `1e-9`, of type `double`, denotes a value above `10^-9`; it is not
greater than the constant `1e-9` of the comparison, and the error is
infinite. -/
theorem audit_error_infinite_on_overflow :
    (simulate_fp16 0x4788B800 = some 0x7F800000 ∧
      relativeError 0x4788B800 0x7F800000 = .infinity ∧
      ONE_E_MINUS_9 < magnitude 0x4788B800 ∧
      toRat 0x4788B800 = 70000 ∧
      ∃ st', VisitFloatingLiteral (fun _ => "inf") ({} : VisitorState)
          ⟨true, .IEEEsingle 0x4788B800, 10, true, some 8⟩ = some st' ∧
        st'.jsonEntries =
          [JsonEntry.mk (.IEEEsingle 0x4788B800) 0x7F800000 .infinity false
            "literal value out of __fp16 range"]) ∧
    (doubleToFloat 0x40EFFFFFF7CED917 = 0x47800000 ∧
      simulate_fp16 0x47800000 = some 0x7F800000 ∧
      magnitudeD 0x40EFFFFFF7CED917 < 65536 * 2 ^ 1074 ∧
      ONE_E_MINUS_9_D < magnitudeD 0x40EFFFFFF7CED917 ∧
      auditError (.IEEEdouble 0x40EFFFFFF7CED917) 0x7F800000 = .infinity) ∧
    (magnitudeD 0x3E112E0BE826D695 = ONE_E_MINUS_9_D ∧
      2 ^ 1074 < 10 ^ 9 * magnitudeD 0x3E112E0BE826D695 ∧
      simulate_fp16 (doubleToFloat 0x3E112E0BE826D695) = some 0 ∧
      auditError (.IEEEdouble 0x3E112E0BE826D695) 0 = .infinity) := by
  refine ⟨⟨by decide, by decide, by decide, ?_, _, rfl, ?_⟩, by decide!, by decide!⟩
  · have hm : magnitude 0x4788B800 = 70000 * 2 ^ 149 := by rfl
    unfold toRat scaled
    rw [if_neg (by decide), hm]
    push_cast
    norm_num
  · decide!

/-! ## Replacements outside the buffer -/

end Fp16Demotion
